import Mathlib

/-!
# ozon-posts: comment hierarchy engine and notification bus

A shallow embedding of the Go sources

* `pkg/errors/errors.go`
* `internal/entities/{comment,post,user,pagination}.go`
* `internal/repositories/inmemory/{comment,post,user}.go`
* `internal/services/{comment,post}.go`

followed by theorems about them.

Conventions of the embedding.

* `uuid.UUID` is a 16 byte array: a number below `2 ^ 128`.  `UUID.String`
  is the canonical lower-case 8-4-4-4-12 hexadecimal rendering.
* Go strings are modelled by Lean strings (sequences of Unicode scalar
  values, i.e. well-formed UTF-8).  `len` is the number of bytes of the
  UTF-8 encoding, as in Go.
* `time.Time` is a natural number of clock ticks.  Every call of
  `time.Now()` and `uuid.New()` is an explicit input of the function that
  makes the call.
* `int` is modelled by `Int`; nesting levels stay far away from `2 ^ 63`.  Where
  the code adds integers that come from a request (limit, offset, depth) the sum
  is wrapped to 64 bits by `wrapInt`, as `int` and `int64` do on the target.
* `sort.Slice` is not stable and the iteration order of a map is random: the
  sorting routine is a parameter (`SliceSorter`) of which only the contract is
  known, a permutation of its input that is sorted for the given `less`.
* A slice expression with bounds out of range is a Go panic (`none`).
* A Go `map[uuid.UUID]*T` is an association list with first-match lookup;
  the list order stands for the (unspecified) iteration order.
* A repository method returns `Except GoError _`; the in-memory
  repositories always return `.ok`, the services nevertheless keep the
  `err != nil` branches of the source.
* A buffered channel is a record in a heap of channels, its identity is
  its index in the heap.  Sending on a closed channel is a Go panic: the
  functions that may send return `Option`, `none` standing for the panic.
* Logging has no effect on any value and is left out.  The hydration-only
  struct fields (`Author`, `Post`, `Parent`, `Children`: no `db` tag, never
  read by a decision of the code) are left out of the records.
-/

/-! ## Go primitives -/

/-- The type `uuid.UUID`: sixteen bytes, read as a number below `2 ^ 128`. -/
abbrev UUID := Fin (2 ^ 128)

/-- One lower-case hexadecimal digit. -/
def hexDigit (n : Nat) : Char :=
  if n < 10 then Char.ofNat (48 + n) else Char.ofNat (87 + n)

/-- The `k` least significant hexadecimal digits of `v`, most significant first. -/
def hexDigits (v : Nat) : Nat → List Char
  | 0 => []
  | k + 1 => hexDigits (v / 16) k ++ [hexDigit (v % 16)]

/-- The method `uuid.UUID.String`: `xxxxxxxx-xxxx-xxxx-xxxx-xxxxxxxxxxxx`. -/
def UUID.String (u : UUID) : String :=
  let d := hexDigits u.val 32
  String.mk (d.take 8 ++ '-' :: (d.drop 8).take 4 ++ '-' :: (d.drop 12).take 4
    ++ '-' :: (d.drop 16).take 4 ++ '-' :: d.drop 20)

/-- The type `time.Time`, as a number of clock ticks. -/
abbrev Time := Nat

/-- The error values returned by a repository. -/
abbrev GoError := String

/-- The arithmetic of `int` and `int64`: a result is wrapped to 64 bits, two's
complement. -/
def wrapInt (x : Int) : Int := (x + 2 ^ 63) % 2 ^ 64 - 2 ^ 63

/-- The slice expression `s[lo:hi]` for `hi` within the length; it panics (`none`)
unless `0 <= lo <= hi <= len(s)`. -/
def sliceRange {α : Type} (s : List α) (lo hi : Int) : Option (List α) :=
  if 0 ≤ lo ∧ lo ≤ hi ∧ hi ≤ (s.length : Int) then
    some ((s.drop lo.toNat).take (hi - lo).toNat)
  else none

/-- A strict weak ordering, what `sort.Slice` expects of its `less`. -/
def StrictWeak {α : Type} (less : α → α → Bool) : Prop :=
  (∀ a, less a a = false) ∧
  (∀ a b c, less a b = true → less b c = true → less a c = true) ∧
  (∀ a b c, less a b = false → less b c = false → less a c = false)

/-- The contract of `sort.Slice(x, less)`: the result is a rearrangement of `x` in which
no element is `less` than one before it.  The sort is not stable, so nothing else is
known about the order of elements that compare equal. -/
structure SliceSorter (α : Type) where
  Slice : List α → (α → α → Bool) → List α
  perm : ∀ (x : List α) (less : α → α → Bool), (Slice x less).Perm x
  sorted : ∀ (x : List α) (less : α → α → Bool), StrictWeak less →
    (Slice x less).Pairwise (fun a b => less b a = false)

/-- One sorting routine that meets the contract: insertion sort. -/
def insertionSorter (α : Type) : SliceSorter α where
  Slice := fun x less => x.insertionSort (fun a b => less b a = false)
  perm := fun x less => List.perm_insertionSort _ x
  sorted := by
    intro x less h
    obtain ⟨h1, h2, h3⟩ := h
    haveI : IsTotal α (fun a b => less b a = false) := ⟨by
      intro a b
      by_cases hba : less b a = true
      · right
        by_contra hab
        have hab1 : less a b = true := by simpa using hab
        have := h2 b a b hba hab1
        rw [h1 b] at this
        exact Bool.noConfusion this
      · left
        simpa using hba⟩
    haveI : IsTrans α (fun a b => less b a = false) := ⟨fun a b c hab hbc => h3 c b a hbc hab⟩
    exact List.sorted_insertionSort (fun a b => less b a = false) x

/-- Lexicographic comparison of two sequences of code points. -/
def lessChars : List Char → List Char → Bool
  | [], [] => false
  | [], _ :: _ => true
  | _ :: _, [] => false
  | a :: as, b :: bs =>
    if a.toNat < b.toNat then true
    else if b.toNat < a.toNat then false
    else lessChars as bs

/-- The comparison `a < b` of two Go strings: byte-wise lexicographic, which for
well-formed UTF-8 is the lexicographic order of the code points. -/
def stringLess (a b : String) : Bool := lessChars a.data b.data

/-- The builtin `len` on a Go string: the number of bytes of its UTF-8 encoding. -/
def len (s : String) : Nat := s.utf8ByteSize

/-- The number of code points (runes) of a string, `utf8.RuneCountInString`. -/
def runeCount (s : String) : Nat := s.length

namespace unicode

/-- The predicate `unicode.IsSpace`: the Unicode White_Space property. -/
def IsSpace (r : Char) : Bool :=
  let n := r.toNat
  if n ≤ 0xFF then
    n == 0x09 || n == 0x0A || n == 0x0B || n == 0x0C || n == 0x0D || n == 0x20
      || n == 0x85 || n == 0xA0
  else
    n == 0x1680 || (decide (0x2000 ≤ n) && decide (n ≤ 0x200A)) || n == 0x2028
      || n == 0x2029 || n == 0x202F || n == 0x205F || n == 0x3000

end unicode

namespace strings

/-- The function `strings.TrimSpace`: drop leading and trailing white space. -/
def TrimSpace (s : String) : String :=
  String.mk (((s.data.dropWhile unicode.IsSpace).reverse.dropWhile unicode.IsSpace).reverse)

/-- The function `strings.HasPrefix`. -/
def HasPrefix (s pre : String) : Bool := pre.data.isPrefixOf s.data

/-- The function `strings.Repeat` for a one-character string. -/
def Repeat (c : Char) (n : Nat) : String := String.mk (List.replicate n c)

end strings

/-- A Go map keyed by `uuid.UUID`. -/
abbrev GoMap (V : Type) := List (UUID × V)

namespace GoMap

/-- The lookup `m[id]` with its presence flag. -/
def get {V : Type} : GoMap V → UUID → Option V
  | [], _ => none
  | (k, v) :: m, id => if k = id then some v else get m id

/-- The statement `delete(m, id)`. -/
def delete {V : Type} (m : GoMap V) (id : UUID) : GoMap V :=
  m.filter (fun kv => decide (kv.1 ≠ id))

/-- The assignment `m[id] = v`. -/
def set {V : Type} (m : GoMap V) (id : UUID) (v : V) : GoMap V :=
  (id, v) :: delete m id

/-- The values of the map, in iteration order. -/
def values {V : Type} (m : GoMap V) : List V := m.map Prod.snd

/-- The keys of the map, in iteration order. -/
def keys {V : Type} (m : GoMap V) : List UUID := m.map Prod.fst

end GoMap

/-! ## pkg/errors/errors.go -/

namespace errors

abbrev ErrorCode := String

def ErrUserNotFound : ErrorCode := "USER_NOT_FOUND"
def ErrUserExists : ErrorCode := "USER_EXISTS"
def ErrInvalidUserData : ErrorCode := "INVALID_USER_DATA"
def ErrPostNotFound : ErrorCode := "POST_NOT_FOUND"
def ErrInvalidPostData : ErrorCode := "INVALID_POST_DATA"
def ErrPostAccessDenied : ErrorCode := "POST_ACCESS_DENIED"
def ErrCommentNotFound : ErrorCode := "COMMENT_NOT_FOUND"
def ErrCommentsDisabled : ErrorCode := "COMMENTS_DISABLED"
def ErrCommentTooLong : ErrorCode := "COMMENT_TOO_LONG"
def ErrCommentEmpty : ErrorCode := "COMMENT_EMPTY"
def ErrInvalidCommentData : ErrorCode := "INVALID_COMMENT_DATA"
def ErrCommentAccessDenied : ErrorCode := "COMMENT_ACCESS_DENIED"
def ErrInternal : ErrorCode := "INTERNAL_ERROR"
def ErrValidation : ErrorCode := "VALIDATION_ERROR"
def ErrDatabase : ErrorCode := "DATABASE_ERROR"
def ErrInvalidRequest : ErrorCode := "INVALID_REQUEST"
def ErrUnauthorized : ErrorCode := "UNAUTHORIZED"
def ErrForbidden : ErrorCode := "FORBIDDEN"

/-- The struct `AppError`; `Err` is the wrapped cause, if any. -/
structure AppError where
  Code : ErrorCode
  Message : String
  Details : String
  StatusCode : Nat
  Err : Option GoError
deriving DecidableEq, Repr

def AppError.Unwrap (e : AppError) : Option GoError := e.Err

def NewAppError (code : ErrorCode) (message : String) (statusCode : Nat)
    (err : Option GoError) : AppError :=
  { Code := code, Message := message, Details := "", StatusCode := statusCode, Err := err }

def AppError.WithDetails (e : AppError) (details : String) : AppError :=
  { e with Details := details }

def NewUserNotFoundError (userID : String) : AppError :=
  (NewAppError ErrUserNotFound "Пользователь не найден" 404 none).WithDetails
    ("User ID: " ++ userID)

def NewPostNotFoundError (postID : String) : AppError :=
  (NewAppError ErrPostNotFound "Пост не найден" 404 none).WithDetails
    ("Post ID: " ++ postID)

def NewPostAccessDeniedError (postID : String) : AppError :=
  (NewAppError ErrPostAccessDenied "Недостаточно прав для выполнения операции с постом"
    403 none).WithDetails ("Post ID: " ++ postID)

def NewCommentsDisabledError : AppError :=
  NewAppError ErrCommentsDisabled "Комментарии к данному посту отключены автором" 403 none

def NewCommentTooLongError (maxLength : Nat) : AppError :=
  (NewAppError ErrCommentTooLong "Комментарий превышает максимальную длину" 400
    none).WithDetails ("Максимальная длина: " ++ toString maxLength ++ " символов")

def NewCommentEmptyError : AppError :=
  NewAppError ErrCommentEmpty "Комментарий не может быть пустым" 400 none

def NewCommentNotFoundError (commentID : String) : AppError :=
  (NewAppError ErrCommentNotFound "Комментарий не найден" 404 none).WithDetails
    ("Comment ID: " ++ commentID)

def NewInvalidCommentDataError (message : String) : AppError :=
  NewAppError ErrInvalidCommentData message 400 none

def NewCommentAccessDeniedError (commentID : String) : AppError :=
  (NewAppError ErrCommentAccessDenied
    "Недостаточно прав для выполнения операции с комментарием" 403 none).WithDetails
    ("Comment ID: " ++ commentID)

def NewDatabaseError (err : GoError) : AppError :=
  NewAppError ErrDatabase "Ошибка базы данных" 500 (some err)

end errors

/-! ## internal/entities -/

namespace entities

open errors

def MaxCommentLength : Nat := 2000

/-- The persisted fields of the struct `User`. -/
structure User where
  ID : UUID
  Username : String
  Email : String
  CreatedAt : Time
  UpdatedAt : Time
deriving DecidableEq, Repr

/-- The persisted fields of the struct `Post`. -/
structure Post where
  ID : UUID
  AuthorID : UUID
  Title : String
  Content : String
  CommentsDisabled : Bool
  CreatedAt : Time
  UpdatedAt : Time
deriving DecidableEq, Repr

/-- The method `(*Post).DisableComments`; `now` is the reading of `time.Now()`. -/
def Post.DisableComments (p : Post) (now : Time) : Post :=
  { p with CommentsDisabled := true, UpdatedAt := now }

/-- The method `(*Post).EnableComments`; `now` is the reading of `time.Now()`. -/
def Post.EnableComments (p : Post) (now : Time) : Post :=
  { p with CommentsDisabled := false, UpdatedAt := now }

/-- The persisted fields of the struct `Comment`. -/
structure Comment where
  ID : UUID
  PostID : UUID
  AuthorID : UUID
  ParentID : Option UUID
  Content : String
  Path : String
  Level : Int
  CreatedAt : Time
  UpdatedAt : Time
deriving DecidableEq, Repr

/-- The constructor `NewComment`; `newID` is the value of `uuid.New()` and `now`
the reading of `time.Now()`.  `Level` is an `int`: `parent.Level + 1` is computed in
64 bits. -/
def NewComment (newID : UUID) (now : Time) (postID authorID : UUID) (content : String)
    (parent : Option Comment) : Except AppError Comment :=
  if len content > MaxCommentLength then
    .error (NewCommentTooLongError MaxCommentLength)
  else if strings.TrimSpace content = "" then
    .error NewCommentEmptyError
  else
    let comment : Comment :=
      { ID := newID, PostID := postID, AuthorID := authorID, ParentID := none,
        Content := content, Path := "", Level := 0, CreatedAt := now, UpdatedAt := now }
    match parent with
    | some parent =>
      .ok { comment with
            ParentID := some parent.ID
            Level := wrapInt (parent.Level + 1)
            Path := parent.Path ++ "/" ++ comment.ID.String }
    | none =>
      .ok { comment with Level := 0, Path := comment.ID.String }

/-- The struct `PaginationRequest`. -/
structure PaginationRequest where
  Limit : Int
  Offset : Int
deriving DecidableEq, Repr

/-- The struct `PaginationResponse`. -/
structure PaginationResponse where
  Total : Int
  Limit : Int
  Offset : Int
  HasMore : Bool
deriving DecidableEq, Repr

/-- The constructor `NewPaginationRequest`. -/
def NewPaginationRequest (limit offset : Int) : PaginationRequest :=
  let limit := if limit ≤ 0 ∨ limit > 100 then 20 else limit
  let offset := if offset < 0 then 0 else offset
  { Limit := limit, Offset := offset }

/-- The constructor `NewPaginationResponse`: `HasMore: int64(offset+limit) < total`. -/
def NewPaginationResponse (total : Int) (limit offset : Int) : PaginationResponse :=
  { Total := total, Limit := limit, Offset := offset,
    HasMore := decide (wrapInt (offset + limit) < total) }

end entities

/-! ## internal/repositories/inmemory -/

namespace inmemory

open entities

/-- The method `(*PostRepository).GetByID`: a copy of the stored post, or nil. -/
def PostRepository.GetByID (posts : GoMap Post) (id : UUID) : Except GoError (Option Post) :=
  .ok (posts.get id)

/-- The method `(*PostRepository).Update`; `now` is the reading of `time.Now()`. -/
def PostRepository.Update (posts : GoMap Post) (now : Time) (post : Post) :
    Except GoError (GoMap Post) :=
  match posts.get post.ID with
  | none => .ok posts
  | some _ => .ok (posts.set post.ID { post with UpdatedAt := now })

/-- The method `(*UserRepository).GetByID`: a copy of the stored user, or nil. -/
def UserRepository.GetByID (users : GoMap User) (id : UUID) : Except GoError (Option User) :=
  .ok (users.get id)

/-- The method `(*CommentRepository).Create`; `t1` and `t2` are its two readings of
`time.Now()`.  The comment is written through the pointer, so the updated comment
is returned next to the new map. -/
def CommentRepository.Create (comments : GoMap Comment) (t1 t2 : Time) (comment : Comment) :
    Except GoError (GoMap Comment × Comment) :=
  let comment := { comment with CreatedAt := t1 }
  let comment := { comment with UpdatedAt := t2 }
  .ok (comments.set comment.ID comment, comment)

/-- The method `(*CommentRepository).GetByID`: a copy of the stored comment, or nil. -/
def CommentRepository.GetByID (comments : GoMap Comment) (id : UUID) :
    Except GoError (Option Comment) :=
  .ok (comments.get id)

/-- The method `(*CommentRepository).Delete`. -/
def CommentRepository.Delete (comments : GoMap Comment) (id : UUID) :
    Except GoError (GoMap Comment) :=
  .ok (comments.delete id)

/-- The method `(*CommentRepository).Exists`. -/
def CommentRepository.Exists (comments : GoMap Comment) (id : UUID) : Except GoError Bool :=
  .ok (comments.get id).isSome

/-- The method `(*CommentRepository).Update`; `now` is the reading of `time.Now()`. -/
def CommentRepository.Update (comments : GoMap Comment) (now : Time) (comment : Comment) :
    Except GoError (GoMap Comment × Comment) :=
  match comments.get comment.ID with
  | none => .ok (comments, comment)
  | some _ =>
    let comment := { comment with UpdatedAt := now }
    .ok (comments.set comment.ID comment, comment)

/-- The method `(*PostRepository).Exists`. -/
def PostRepository.Exists (posts : GoMap Post) (id : UUID) : Except GoError Bool :=
  .ok (posts.get id).isSome

/-- The pagination block that `GetByPostID`, `GetByParentID` and `GetByPath` repeat
word for word after sorting: `start`, `end`, the early return for `start >= len`, the
cut of `end`, the slice expression and the response. -/
def CommentRepository.paginate (items : List Comment) (pagination : PaginationRequest) :
    Option (List Comment × PaginationResponse) :=
  let total : Int := items.length
  let start := pagination.Offset
  let end1 := wrapInt (start + pagination.Limit)
  if start ≥ (items.length : Int) then
    some ([], { Total := total, Limit := pagination.Limit, Offset := pagination.Offset,
                HasMore := false })
  else
    let end2 := if end1 > (items.length : Int) then (items.length : Int) else end1
    match sliceRange items start end2 with
    | none => none
    | some result =>
      some (result, { Total := total, Limit := pagination.Limit, Offset := pagination.Offset,
                      HasMore := decide (end2 < (items.length : Int)) })

/-- The method `(*CommentRepository).GetByPostID`: the root comments of the post, sorted
by `CreatedAt`, one page of them. -/
def CommentRepository.GetByPostID (S : SliceSorter Comment) (comments : GoMap Comment)
    (postID : UUID) (pagination : PaginationRequest) :
    Option (Except GoError (List Comment × PaginationResponse)) :=
  let postComments := comments.values.filter
    (fun comment => decide (comment.PostID = postID) && comment.ParentID.isNone)
  let postComments := S.Slice postComments (fun a b => decide (a.CreatedAt < b.CreatedAt))
  match CommentRepository.paginate postComments pagination with
  | none => none
  | some r => some (.ok r)

/-- The method `(*CommentRepository).CountByPostID`. -/
def CommentRepository.CountByPostID (comments : GoMap Comment) (postID : UUID) :
    Except GoError Int :=
  .ok ((comments.values.filter
    (fun comment => decide (comment.PostID = postID) && comment.ParentID.isNone)).length : Int)

/-- The method `(*CommentRepository).GetThread`: the start comment and every comment
whose path begins with its path and a slash and whose level is at most
`startComment.Level + maxDepth`, sorted by path, then by `CreatedAt`. -/
def CommentRepository.GetThread (S : SliceSorter Comment) (comments : GoMap Comment)
    (commentID : UUID) (maxDepth : Int) : Except GoError (List Comment) :=
  match comments.get commentID with
  | none => .ok []
  | some startComment =>
    let maxLevel := wrapInt (startComment.Level + maxDepth)
    let pathPrefix := startComment.Path ++ "/"
    let threadComments := startComment :: comments.values.filter
      (fun comment => strings.HasPrefix comment.Path pathPrefix &&
        decide (comment.Level ≤ maxLevel))
    .ok (S.Slice threadComments (fun a b =>
      if a.Path = b.Path then decide (a.CreatedAt < b.CreatedAt)
      else stringLess a.Path b.Path))

/-- The method `(*CommentRepository).GetByPath`: the comments whose path begins with
`pathPrefix`, sorted by `CreatedAt`, one page of them. -/
def CommentRepository.GetByPath (S : SliceSorter Comment) (comments : GoMap Comment)
    (pathPrefix : String) (pagination : PaginationRequest) :
    Option (Except GoError (List Comment × PaginationResponse)) :=
  let pathComments := comments.values.filter
    (fun comment => strings.HasPrefix comment.Path pathPrefix)
  let pathComments := S.Slice pathComments (fun a b => decide (a.CreatedAt < b.CreatedAt))
  match CommentRepository.paginate pathComments pagination with
  | none => none
  | some r => some (.ok r)

/-- The method `(*CommentRepository).GetByParentID`: the comments whose parent is
`parentID`, sorted by `CreatedAt`, one page of them. -/
def CommentRepository.GetByParentID (S : SliceSorter Comment) (comments : GoMap Comment)
    (parentID : UUID) (pagination : PaginationRequest) :
    Option (Except GoError (List Comment × PaginationResponse)) :=
  let replies := comments.values.filter
    (fun comment => match comment.ParentID with
      | none => false
      | some p => decide (p = parentID))
  let replies := S.Slice replies (fun a b => decide (a.CreatedAt < b.CreatedAt))
  match CommentRepository.paginate replies pagination with
  | none => none
  | some r => some (.ok r)

/-- The method `(*CommentRepository).CountByParentID`. -/
def CommentRepository.CountByParentID (comments : GoMap Comment) (parentID : UUID) :
    Except GoError Int :=
  .ok ((comments.values.filter
    (fun comment => match comment.ParentID with
      | none => false
      | some p => decide (p = parentID))).length : Int)

end inmemory

/-! ## internal/services -/

namespace services

open entities errors inmemory

/-- The struct `CommentEvent`; `Type_` is its field `Type`. -/
structure CommentEvent where
  Type_ : String
  PostID : UUID
  Comment : Comment
deriving DecidableEq, Repr

/-- A buffered channel `chan *CommentEvent`: capacity, pending events (oldest first)
and whether it has been closed. -/
structure Chan where
  cap : Nat
  buf : List CommentEvent
  closed : Bool
deriving DecidableEq, Repr

/-- The statement `select { case ch <- event: default: }`.  A send on a closed
channel panics (`none`); a full buffer drops the event. -/
def Chan.trySend (c : Chan) (event : CommentEvent) : Option Chan :=
  if c.closed then none
  else if c.buf.length < c.cap then some { c with buf := c.buf ++ [event] }
  else some c

/-- The struct `CommentService` over the in-memory repositories, together with the
heap of channels its subscriber map points into. -/
structure CommentService where
  commentRepo : GoMap Comment
  postRepo : GoMap Post
  userRepo : GoMap User
  chans : List Chan
  subscribers : GoMap (List Nat)
deriving DecidableEq, Repr

/-- The loop `for _, ch := range subscribers` of `notifySubscribers`. -/
def sendAll (chans : List Chan) (event : CommentEvent) : List Nat → Option (List Chan)
  | [] => some chans
  | ch :: rest =>
    match chans[ch]? with
    | none => none
    | some c =>
      match c.trySend event with
      | none => none
      | some c1 => sendAll (chans.set ch c1) event rest

/-- The method `(*CommentService).notifySubscribers`. -/
def CommentService.notifySubscribers (s : CommentService) (postID : UUID)
    (event : CommentEvent) : Option CommentService :=
  let subscribers := (s.subscribers.get postID).getD []
  if subscribers.length = 0 then some s
  else
    match sendAll s.chans event subscribers with
    | none => none
    | some chans => some { s with chans := chans }

/-- The method `(*CommentService).CreateComment`.  `newID` is the value of `uuid.New()`,
`now` the clock reading of `NewComment`, `t1` and `t2` those of the repository. -/
def CommentService.CreateComment (s : CommentService) (newID : UUID) (now t1 t2 : Time)
    (postID authorID : UUID) (content : String) (parentID : Option UUID) :
    Option (CommentService × Except AppError Comment) :=
  match PostRepository.GetByID s.postRepo postID with
  | .error err => some (s, .error (NewDatabaseError err))
  | .ok none => some (s, .error (NewPostNotFoundError postID.String))
  | .ok (some post) =>
    if post.CommentsDisabled then some (s, .error NewCommentsDisabledError)
    else
      match UserRepository.GetByID s.userRepo authorID with
      | .error err => some (s, .error (NewDatabaseError err))
      | .ok none => some (s, .error (NewUserNotFoundError authorID.String))
      | .ok (some _author) =>
        let parentLookup : Except AppError (Option Comment) :=
          match parentID with
          | none => .ok none
          | some pid =>
            match CommentRepository.GetByID s.commentRepo pid with
            | .error err => .error (NewDatabaseError err)
            | .ok none => .error (NewCommentNotFoundError pid.String)
            | .ok (some parentComment) =>
              if parentComment.PostID ≠ postID then
                .error (NewInvalidCommentDataError
                  "Родительский комментарий принадлежит другому посту")
              else .ok (some parentComment)
        match parentLookup with
        | .error e => some (s, .error e)
        | .ok parentComment =>
          match NewComment newID now postID authorID content parentComment with
          | .error err => some (s, .error err)
          | .ok comment =>
            match CommentRepository.Create s.commentRepo t1 t2 comment with
            | .error err => some (s, .error (NewDatabaseError err))
            | .ok (comments, comment) =>
              let s1 := { s with commentRepo := comments }
              match s1.notifySubscribers postID
                  { Type_ := "comment_created", PostID := postID, Comment := comment } with
              | none => none
              | some s2 => some (s2, .ok comment)

/-- The method `(*CommentService).GetCommentByID`. -/
def CommentService.GetCommentByID (s : CommentService) (id : UUID) : Except AppError Comment :=
  match CommentRepository.GetByID s.commentRepo id with
  | .error err => .error (NewDatabaseError err)
  | .ok none => .error (NewCommentNotFoundError id.String)
  | .ok (some comment) => .ok comment

/-- The method `(*CommentService).GetPostComments`; `loadCommentsRelations` only fills
hydration fields. -/
def CommentService.GetPostComments (S : SliceSorter Comment) (s : CommentService)
    (postID : UUID) (pagination : PaginationRequest) :
    Option (Except AppError (List Comment × PaginationResponse)) :=
  match PostRepository.Exists s.postRepo postID with
  | .error err => some (.error (NewDatabaseError err))
  | .ok false => some (.error (NewPostNotFoundError postID.String))
  | .ok true =>
    match CommentRepository.GetByPostID S s.commentRepo postID pagination with
    | none => none
    | some (.error err) => some (.error (NewDatabaseError err))
    | some (.ok (comments, paginationResponse)) => some (.ok (comments, paginationResponse))

/-- The method `(*CommentService).GetCommentReplies`; `loadCommentsRelations` only fills
hydration fields. -/
def CommentService.GetCommentReplies (S : SliceSorter Comment) (s : CommentService)
    (parentID : UUID) (pagination : PaginationRequest) :
    Option (Except AppError (List Comment × PaginationResponse)) :=
  match CommentRepository.Exists s.commentRepo parentID with
  | .error err => some (.error (NewDatabaseError err))
  | .ok false => some (.error (NewCommentNotFoundError parentID.String))
  | .ok true =>
    match CommentRepository.GetByParentID S s.commentRepo parentID pagination with
    | none => none
    | some (.error err) => some (.error (NewDatabaseError err))
    | some (.ok (replies, paginationResponse)) => some (.ok (replies, paginationResponse))

/-- The method `(*CommentService).GetCommentThread`; `loadCommentsRelations` only fills
hydration fields. -/
def CommentService.GetCommentThread (S : SliceSorter Comment) (s : CommentService)
    (commentID : UUID) (maxDepth : Int) : Except AppError (List Comment) :=
  match CommentRepository.Exists s.commentRepo commentID with
  | .error err => .error (NewDatabaseError err)
  | .ok false => .error (NewCommentNotFoundError commentID.String)
  | .ok true =>
    match CommentRepository.GetThread S s.commentRepo commentID maxDepth with
    | .error err => .error (NewDatabaseError err)
    | .ok comments => .ok comments

/-- The method `(*CommentService).DeleteComment`. -/
def CommentService.DeleteComment (s : CommentService) (commentID authorID : UUID) :
    CommentService × Option AppError :=
  match CommentRepository.GetByID s.commentRepo commentID with
  | .error err => (s, some (NewDatabaseError err))
  | .ok none => (s, some (NewCommentNotFoundError commentID.String))
  | .ok (some comment) =>
    if comment.AuthorID ≠ authorID then
      (s, some (NewCommentAccessDeniedError commentID.String))
    else
      match CommentRepository.Delete s.commentRepo commentID with
      | .error err => (s, some (NewDatabaseError err))
      | .ok comments => ({ s with commentRepo := comments }, none)

/-- The method `(*CommentService).UpdateComment`; `now` is the clock reading of the
repository. -/
def CommentService.UpdateComment (s : CommentService) (now : Time)
    (commentID authorID : UUID) (content : String) :
    CommentService × Except AppError Comment :=
  if strings.TrimSpace content = "" then (s, .error NewCommentEmptyError)
  else if len content > MaxCommentLength then
    (s, .error (NewCommentTooLongError MaxCommentLength))
  else
    match CommentRepository.GetByID s.commentRepo commentID with
    | .error err => (s, .error (NewDatabaseError err))
    | .ok none => (s, .error (NewCommentNotFoundError commentID.String))
    | .ok (some comment) =>
      if comment.AuthorID ≠ authorID then
        (s, .error (NewCommentAccessDeniedError commentID.String))
      else
        let comment := { comment with Content := content }
        match CommentRepository.Update s.commentRepo now comment with
        | .error err => (s, .error (NewDatabaseError err))
        | .ok (comments, comment) => ({ s with commentRepo := comments }, .ok comment)

/-- The constructor `NewCommentService`: no subscriber, no channel allocated yet. -/
def NewCommentService (commentRepo : GoMap Comment) (postRepo : GoMap Post)
    (userRepo : GoMap User) : CommentService :=
  { commentRepo := commentRepo, postRepo := postRepo, userRepo := userRepo, chans := [],
    subscribers := [] }

/-- The method `(*CommentService).SubscribeToPost`: `make(chan *CommentEvent, 10)`
allocates the next channel of the heap, which is appended to the list of the post. -/
def CommentService.SubscribeToPost (s : CommentService) (postID : UUID) :
    CommentService × Nat :=
  let ch := s.chans.length
  let chans := s.chans ++ [{ cap := 10, buf := [], closed := false }]
  let subscribers :=
    match s.subscribers.get postID with
    | none => s.subscribers.set postID []
    | some _ => s.subscribers
  let subscribers := subscribers.set postID ((subscribers.get postID).getD [] ++ [ch])
  ({ s with chans := chans, subscribers := subscribers }, ch)

/-- The builtin `close(ch)`: closing a closed channel panics (`none`). -/
def closeChan (chans : List Chan) (ch : Nat) : Option (List Chan) :=
  match chans[ch]? with
  | none => none
  | some c => if c.closed then none else some (chans.set ch { c with closed := true })

/-- The method `(*CommentService).UnsubscribeFromPost`: the first occurrence of `ch` in
the list of the post is cut out and the channel closed; a post left without subscriber
loses its map entry. -/
def CommentService.UnsubscribeFromPost (s : CommentService) (postID : UUID) (ch : Nat) :
    Option CommentService :=
  let subscribers := (s.subscribers.get postID).getD []
  let afterLoop : Option CommentService :=
    if ch ∈ subscribers then
      match closeChan s.chans ch with
      | none => none
      | some chans =>
        some { s with subscribers := s.subscribers.set postID (subscribers.erase ch),
                      chans := chans }
    else some s
  match afterLoop with
  | none => none
  | some s1 =>
    if ((s1.subscribers.get postID).getD []).length = 0 then
      some { s1 with subscribers := s1.subscribers.delete postID }
    else some s1

/-- The method `(*PostService).ToggleComments` on the post repository the comment
service shares; `now` is the clock reading of the entity, `t` that of the repository. -/
def PostService.ToggleComments (posts : GoMap Post) (now t : Time)
    (postID authorID : UUID) (disable : Bool) : GoMap Post × Option AppError :=
  match PostRepository.GetByID posts postID with
  | .error err => (posts, some (NewDatabaseError err))
  | .ok none => (posts, some (NewPostNotFoundError postID.String))
  | .ok (some post) =>
    if post.AuthorID ≠ authorID then (posts, some (NewPostAccessDeniedError postID.String))
    else
      let post := if disable then post.DisableComments now else post.EnableComments now
      match PostRepository.Update posts t post with
      | .error err => (posts, some (NewDatabaseError err))
      | .ok posts1 => (posts1, none)

end services

/-! ## Auxiliary definitions for the statements -/

namespace entities

open errors

/-- The arguments of one call of `NewComment`, the parent apart. -/
structure NewCommentArgs where
  newID : UUID
  now : Time
  postID : UUID
  authorID : UUID
  content : String
deriving DecidableEq, Repr

/-- Repeated application of `NewComment` as in `TestNewComment_DeepNesting`: the first
comment is created under `parent`, every further one under the comment created just
before it. -/
def replyChain : Option Comment → List NewCommentArgs → Except AppError (List Comment)
  | _, [] => .ok []
  | parent, a :: rest =>
    match NewComment a.newID a.now a.postID a.authorID a.content parent with
    | .error e => .error e
    | .ok c =>
      match replyChain (some c) rest with
      | .error e => .error e
      | .ok cs => .ok (c :: cs)

end entities

namespace services

open entities errors

/-- Every channel registered for `postID` exists in the heap and is open.  The methods
of the service maintain this for every post (`BusInv_liveSubscribers`): a channel is
closed only when it is taken out of the map. -/
def CommentService.liveSubscribers (s : CommentService) (postID : UUID) : Bool :=
  ((s.subscribers.get postID).getD []).all
    (fun ch => match s.chans[ch]? with
      | some c => !c.closed
      | none => false)

/-- A channel index that refers to an open channel of the heap. -/
def liveChan (chans : List Chan) (ch : Nat) : Prop :=
  ∃ c, chans[ch]? = some c ∧ c.closed = false

/-- The invariant of the subscriber map: the list of a post names no channel twice,
names only open channels of the heap, and shares no channel with the list of another
post. -/
def BusInv (s : CommentService) : Prop :=
  ∀ p l, s.subscribers.get p = some l →
    l.Nodup ∧ (∀ ch ∈ l, liveChan s.chans ch) ∧
    ∀ q l1, q ≠ p → s.subscribers.get q = some l1 → ∀ ch ∈ l, ch ∉ l1

/-- The invariant of the comment store, relative to the identifiers issued so far:
every comment is stored under its own ID, which has been issued; every parent reference
has been issued; roots and replies carry the level and path `NewComment` gave them. -/
def StoreInv (used : List UUID) (m : GoMap Comment) : Prop :=
  (∀ id c, m.get id = some c → c.ID = id ∧ id ∈ used) ∧
  (∀ id c p, m.get id = some c → c.ParentID = some p → p ∈ used) ∧
  (∀ id c, m.get id = some c → c.ParentID = none → c.Level = 0 ∧ c.Path = c.ID.String) ∧
  (∀ id c p P, m.get id = some c → c.ParentID = some p → m.get p = some P →
    P.PostID = c.PostID ∧ c.Level = P.Level + 1 ∧ c.Path = P.Path ++ "/" ++ c.ID.String)

/-- Two comments with the same structural fields. -/
def SameStructure (c d : Comment) : Prop :=
  c.ID = d.ID ∧ c.PostID = d.PostID ∧ c.ParentID = d.ParentID ∧ c.Level = d.Level ∧
    c.Path = d.Path

/-- The states of the comment service reachable from an empty comment store through
`CreateComment`, `UpdateComment` and `DeleteComment`.  The index lists the identifiers
`uuid.New()` has handed out so far: it never returns the same identifier twice, and
fewer than 2^63 identifiers are handed out in all (the level of a comment, a 64-bit
`int`, counts comments created before it).  Posts, users and subscriptions are owned by
other components and may change between two calls (`other`). -/
inductive Reachable : List UUID → CommentService → Prop
  | init (s : CommentService) (h : s.commentRepo = []) : Reachable [] s
  | create (used : List UUID) (s s1 : CommentService) (newID : UUID) (now t1 t2 : Time)
      (postID authorID : UUID) (content : String) (parentID : Option UUID)
      (r : Except AppError Comment) (hs : Reachable used s) (hfresh : newID ∉ used)
      (hcap : used.length < 2 ^ 63)
      (h : s.CreateComment newID now t1 t2 postID authorID content parentID = some (s1, r)) :
      Reachable (newID :: used) s1
  | update (used : List UUID) (s s1 : CommentService) (now : Time)
      (commentID authorID : UUID) (content : String) (r : Except AppError Comment)
      (hs : Reachable used s)
      (h : s.UpdateComment now commentID authorID content = (s1, r)) : Reachable used s1
  | delete (used : List UUID) (s s1 : CommentService) (commentID authorID : UUID)
      (r : Option AppError) (hs : Reachable used s)
      (h : s.DeleteComment commentID authorID = (s1, r)) : Reachable used s1
  | other (used : List UUID) (s s1 : CommentService) (hs : Reachable used s)
      (h : s1.commentRepo = s.commentRepo) : Reachable used s1

end services

namespace services

open entities

/-- A post written by user 5, with comments enabled, as built by `CreateTestPost`. -/
def testPost : Post :=
  { ID := 1, AuthorID := 5, Title := "Test Post", Content := "Content",
    CommentsDisabled := false, CreatedAt := 0, UpdatedAt := 0 }

/-- A user as built by `CreateTestUser`. -/
def testUser : User :=
  { ID := 5, Username := "testuser", Email := "test@example.com", CreatedAt := 0,
    UpdatedAt := 0 }

/-- A root comment of post 1 and a root comment of post 9, both written by user 5. -/
def testComments : GoMap Comment :=
  [(100, { ID := 100, PostID := 1, AuthorID := 5, ParentID := none, Content := "Root",
           Path := "00000000-0000-0000-0000-000000000064", Level := 0,
           CreatedAt := 1, UpdatedAt := 1 }),
   (200, { ID := 200, PostID := 9, AuthorID := 5, ParentID := none,
           Content := "Parent comment",
           Path := "00000000-0000-0000-0000-0000000000c8", Level := 0,
           CreatedAt := 2, UpdatedAt := 2 })]

/-- A service state: post 1 with one open, empty subscription stream, user 5, and the
two comments of `testComments`. -/
def testService : CommentService :=
  { commentRepo := testComments, postRepo := [(1, testPost)], userRepo := [(5, testUser)],
    chans := [{ cap := 10, buf := [], closed := false }], subscribers := [(1, [0])] }

/-- The state `testService` with an empty comment store. -/
def testServiceEmpty : CommentService := { testService with commentRepo := [] }

/-- A thread of post 1: the root 100, its reply 101 and the reply 102 to 101, as in
`TestIntegration_CommentHierarchy`. -/
def testThread : GoMap Comment :=
  [(100, { ID := 100, PostID := 1, AuthorID := 5, ParentID := none, Content := "Root",
           Path := "00000000-0000-0000-0000-000000000064", Level := 0,
           CreatedAt := 1, UpdatedAt := 1 }),
   (101, { ID := 101, PostID := 1, AuthorID := 5, ParentID := some 100, Content := "Reply",
           Path := "00000000-0000-0000-0000-000000000064/00000000-0000-0000-0000-000000000065",
           Level := 1, CreatedAt := 2, UpdatedAt := 2 }),
   (102, { ID := 102, PostID := 1, AuthorID := 5, ParentID := some 101, Content := "Deep",
           Path := "00000000-0000-0000-0000-000000000064/00000000-0000-0000-0000-000000000065/00000000-0000-0000-0000-000000000066",
           Level := 2, CreatedAt := 3, UpdatedAt := 3 })]

/-- The state `testService` with the comments of `testThread`. -/
def testThreadService : CommentService := { testService with commentRepo := testThread }

/-- The state `testService` after the author of post 1 has disabled its comments. -/
def testServiceDisabled : CommentService :=
  { testService with postRepo := [(1, { testPost with CommentsDisabled := true })] }

end services

namespace services

open entities errors

/-- The states of the comment service reachable from `NewCommentService` through the
methods that touch the subscriber map or a subscription stream: `SubscribeToPost`,
`UnsubscribeFromPost`, `CreateComment` (which publishes), a consumer receiving the
oldest pending event of a stream (`<-ch` in `CommentAddedSubscription`), and any other
method, which leaves streams and subscriber map alone (`other`). -/
inductive BusReachable : CommentService → Prop
  | init (commentRepo : GoMap Comment) (postRepo : GoMap Post) (userRepo : GoMap User) :
      BusReachable (NewCommentService commentRepo postRepo userRepo)
  | subscribe (s : CommentService) (postID : UUID) (hs : BusReachable s) :
      BusReachable (s.SubscribeToPost postID).1
  | unsubscribe (s s1 : CommentService) (postID : UUID) (ch : Nat) (hs : BusReachable s)
      (h : s.UnsubscribeFromPost postID ch = some s1) : BusReachable s1
  | create (s s1 : CommentService) (newID : UUID) (now t1 t2 : Time)
      (postID authorID : UUID) (content : String) (parentID : Option UUID)
      (r : Except AppError Comment) (hs : BusReachable s)
      (h : s.CreateComment newID now t1 t2 postID authorID content parentID = some (s1, r)) :
      BusReachable s1
  | receive (s : CommentService) (ch : Nat) (c : Chan) (event : CommentEvent)
      (rest : List CommentEvent) (hs : BusReachable s) (hc : s.chans[ch]? = some c)
      (hbuf : c.buf = event :: rest) :
      BusReachable { s with chans := s.chans.set ch { c with buf := rest } }
  | other (s s1 : CommentService) (hs : BusReachable s) (h1 : s1.chans = s.chans)
      (h2 : s1.subscribers = s.subscribers) : BusReachable s1

/-- The progress of one call of `notifySubscribers`: before its read of the subscriber
map, inside its loop with the streams of its snapshot that are still to be served, or
returned. -/
inductive Publisher where
  | start
  | sending (rest : List Nat)
  | done
deriving DecidableEq, Repr

/-- One atomic action of a schedule: the next action of the publishing goroutine, or a
whole call of `UnsubscribeFromPost` by another goroutine (it runs under `s.mu.Lock()`). -/
inductive Action where
  | publish
  | unsubscribe (postID : UUID) (ch : Nat)
deriving DecidableEq, Repr

/-- The next atomic action of `notifySubscribers(postID, event)`: first the read
`subscribers := s.subscribers[postID]` between `RLock` and `RUnlock` (the snapshot is
taken as a copy here) with the test `len(subscribers) == 0`, then, with no lock held,
one `select { case ch <- event: default: }` per stream of the snapshot. -/
def stepPublisher (s : CommentService) (postID : UUID) (event : CommentEvent) :
    Publisher → Option (CommentService × Publisher)
  | .start =>
    let subscribers := (s.subscribers.get postID).getD []
    if subscribers.length = 0 then some (s, .done) else some (s, .sending subscribers)
  | .sending [] => some (s, .done)
  | .sending (ch :: rest) =>
    match s.chans[ch]? with
    | none => none
    | some c =>
      match c.trySend event with
      | none => none
      | some c1 => some ({ s with chans := s.chans.set ch c1 }, .sending rest)
  | .done => some (s, .done)

/-- A run of one `notifySubscribers(postID, event)` interleaved with calls of
`UnsubscribeFromPost`, in the order of the schedule; `none` is a panic. -/
def runSchedule (postID : UUID) (event : CommentEvent) :
    CommentService × Publisher → List Action → Option (CommentService × Publisher)
  | st, [] => some st
  | (s, p), .publish :: rest =>
    match stepPublisher s postID event p with
    | none => none
    | some st => runSchedule postID event st rest
  | (s, p), .unsubscribe q ch :: rest =>
    match s.UnsubscribeFromPost q ch with
    | none => none
    | some s1 => runSchedule postID event (s1, p) rest

/-- The service as constructed for post 1 and user 5: no comment, no subscriber. -/
def testServiceNew : CommentService := NewCommentService [] [(1, testPost)] [(5, testUser)]

/-- The root comment 100 of post 1 with the replies 102, created at time 2, and 101,
created at time 3: the younger sibling has the smaller identifier. -/
def testSiblings : GoMap Comment :=
  [(101, { ID := 101, PostID := 1, AuthorID := 5, ParentID := some 100, Content := "Later",
           Path := "00000000-0000-0000-0000-000000000064/00000000-0000-0000-0000-000000000065",
           Level := 1, CreatedAt := 3, UpdatedAt := 3 }),
   (102, { ID := 102, PostID := 1, AuthorID := 5, ParentID := some 100, Content := "Earlier",
           Path := "00000000-0000-0000-0000-000000000064/00000000-0000-0000-0000-000000000066",
           Level := 1, CreatedAt := 2, UpdatedAt := 2 }),
   (100, { ID := 100, PostID := 1, AuthorID := 5, ParentID := none, Content := "Root",
           Path := "00000000-0000-0000-0000-000000000064", Level := 0,
           CreatedAt := 1, UpdatedAt := 1 })]

/-- The root comment 100 of post 1 and two replies to its reply 101, which has been
deleted: 103, created at time 3, and 102, created at time 4. -/
def testOrphans : GoMap Comment :=
  [(102, { ID := 102, PostID := 1, AuthorID := 5, ParentID := some 101, Content := "Later",
           Path := "00000000-0000-0000-0000-000000000064/00000000-0000-0000-0000-000000000065/00000000-0000-0000-0000-000000000066",
           Level := 2, CreatedAt := 4, UpdatedAt := 4 }),
   (103, { ID := 103, PostID := 1, AuthorID := 5, ParentID := some 101, Content := "Earlier",
           Path := "00000000-0000-0000-0000-000000000064/00000000-0000-0000-0000-000000000065/00000000-0000-0000-0000-000000000067",
           Level := 2, CreatedAt := 3, UpdatedAt := 3 }),
   (100, { ID := 100, PostID := 1, AuthorID := 5, ParentID := none, Content := "Root",
           Path := "00000000-0000-0000-0000-000000000064", Level := 0,
           CreatedAt := 1, UpdatedAt := 1 })]

/-- The root comment of post 1 that `CreateComment` builds at time 1 for the identifier
`100 + i`. -/
def testRoot (i : Nat) : Comment :=
  { ID := ((100 + i : Nat) : UUID), PostID := 1, AuthorID := 5, ParentID := none,
    Content := "Root", Path := UUID.String ((100 + i : Nat) : UUID), Level := 0,
    CreatedAt := 1, UpdatedAt := 1 }

/-- The event `CreateComment` publishes for `testRoot i`. -/
def testEvent (i : Nat) : CommentEvent :=
  { Type_ := "comment_created", PostID := 1, Comment := testRoot i }

/-- Post 1 after two subscriptions, ten comments that no consumer has received yet, and
a third subscription: the streams 0 and 1 hold ten pending events each, stream 2 holds
none. -/
def testServiceFull : CommentService :=
  { commentRepo := ((List.range 10).map (fun i => (((100 + i : Nat) : UUID), testRoot i))).reverse,
    postRepo := [(1, testPost)], userRepo := [(5, testUser)],
    chans := [{ cap := 10, buf := (List.range 10).map testEvent, closed := false },
              { cap := 10, buf := (List.range 10).map testEvent, closed := false },
              { cap := 10, buf := [], closed := false }],
    subscribers := [(1, [0, 1, 2])] }

end services

/-! ## internal/services over the repository interfaces -/

namespace entities

/-- The struct `Comment` in full: the persisted fields together with the relation fields
`Author`, `Post` and `Parent` that the service fills in (of a parent, the persisted
fields are kept).  The field `Children` is never assigned. -/
structure LoadedComment where
  Fields : Comment
  Author : Option User
  Post : Option Post
  Parent : Option Comment
deriving DecidableEq, Repr

end entities

namespace contract

open entities errors

/-- The interface `CommentRepository` of contract.go, its methods that the read paths of
the service call.  A method returns a value or an error; a batch fetch returns both,
since its caller drops the error and ranges over the value. -/
structure CommentRepository where
  GetByID : UUID → Except GoError (Option LoadedComment)
  GetByPostID : UUID → PaginationRequest →
    Except GoError (List LoadedComment × PaginationResponse)
  GetByParentID : UUID → PaginationRequest →
    Except GoError (List LoadedComment × PaginationResponse)
  GetThread : UUID → Int → Except GoError (List LoadedComment)
  Exists : UUID → Except GoError Bool
  GetByIDs : List UUID → List LoadedComment × Option GoError

/-- The interface `PostRepository` of contract.go, its methods that the read paths call. -/
structure PostRepository where
  GetByID : UUID → Except GoError (Option Post)
  Exists : UUID → Except GoError Bool
  GetByIDs : List UUID → List Post × Option GoError

/-- The interface `UserRepository` of contract.go, its methods that the read paths call. -/
structure UserRepository where
  GetByID : UUID → Except GoError (Option User)
  GetByIDs : List UUID → List User × Option GoError

/-- The struct `CommentService`, its repositories. -/
structure CommentService where
  commentRepo : CommentRepository
  postRepo : PostRepository
  userRepo : UserRepository

/-- A call of one of the three batch fetches `GetByIDs`, with the list it is given. -/
inductive BatchCall where
  | users (ids : List UUID)
  | posts (ids : List UUID)
  | comments (ids : List UUID)
deriving DecidableEq, Repr

/-- The three ID slices and the three sets of the first loop of
`loadCommentsRelations`. -/
structure IDLists where
  userIDs : List UUID
  postIDs : List UUID
  parentIDs : List UUID
  userIDSet : GoMap Bool
  postIDSet : GoMap Bool
  parentIDSet : GoMap Bool
deriving DecidableEq, Repr

/-- The body of the first loop of `loadCommentsRelations`. -/
def collectStep (acc : IDLists) (comment : LoadedComment) : IDLists :=
  let acc :=
    if !((acc.userIDSet.get comment.Fields.AuthorID).getD false) then
      { acc with userIDs := acc.userIDs ++ [comment.Fields.AuthorID],
                 userIDSet := acc.userIDSet.set comment.Fields.AuthorID true }
    else acc
  let acc :=
    if !((acc.postIDSet.get comment.Fields.PostID).getD false) then
      { acc with postIDs := acc.postIDs ++ [comment.Fields.PostID],
                 postIDSet := acc.postIDSet.set comment.Fields.PostID true }
    else acc
  match comment.Fields.ParentID with
  | none => acc
  | some parentID =>
    if !((acc.parentIDSet.get parentID).getD false) then
      { acc with parentIDs := acc.parentIDs ++ [parentID],
                 parentIDSet := acc.parentIDSet.set parentID true }
    else acc

/-- The first loop of `loadCommentsRelations`, from the empty slices and sets. -/
def collectIDs (comments : List LoadedComment) : IDLists :=
  comments.foldl collectStep
    { userIDs := [], postIDs := [], parentIDs := [], userIDSet := [], postIDSet := [],
      parentIDSet := [] }

/-- The method `(*CommentService).loadCommentRelations`. -/
def CommentService.loadCommentRelations (s : CommentService) (comment : LoadedComment) :
    LoadedComment :=
  let comment :=
    match s.userRepo.GetByID comment.Fields.AuthorID with
    | .ok (some author) => { comment with Author := some author }
    | _ => comment
  let comment :=
    match s.postRepo.GetByID comment.Fields.PostID with
    | .ok (some post) => { comment with Post := some post }
    | _ => comment
  match comment.Fields.ParentID with
  | none => comment
  | some parentID =>
    match s.commentRepo.GetByID parentID with
    | .ok (some parent) => { comment with Parent := some parent.Fields }
    | _ => comment

/-- The method `(*CommentService).loadCommentsRelations`: the comments with their
relation fields filled where the batch fetches delivered the entity, and the batch
fetches that were called, in the order of the calls.  The method returns nil always. -/
def CommentService.loadCommentsRelations (s : CommentService)
    (comments : List LoadedComment) : List LoadedComment × List BatchCall :=
  if comments.length = 0 then (comments, [])
  else
    let ids := collectIDs comments
    let users := (s.userRepo.GetByIDs ids.userIDs).1
    let userMap : GoMap User := users.foldl (fun m user => m.set user.ID user) []
    let posts := (s.postRepo.GetByIDs ids.postIDs).1
    let postMap : GoMap Post := posts.foldl (fun m post => m.set post.ID post) []
    let parentMap : GoMap LoadedComment :=
      if ids.parentIDs.length > 0 then
        (s.commentRepo.GetByIDs ids.parentIDs).1.foldl
          (fun m parent => m.set parent.Fields.ID parent) []
      else []
    let calls := [BatchCall.users ids.userIDs, BatchCall.posts ids.postIDs] ++
      (if ids.parentIDs.length > 0 then [BatchCall.comments ids.parentIDs] else [])
    (comments.map (fun comment =>
      let comment :=
        match userMap.get comment.Fields.AuthorID with
        | some user => { comment with Author := some user }
        | none => comment
      let comment :=
        match postMap.get comment.Fields.PostID with
        | some post => { comment with Post := some post }
        | none => comment
      match comment.Fields.ParentID with
      | none => comment
      | some parentID =>
        match parentMap.get parentID with
        | some parent => { comment with Parent := some parent.Fields }
        | none => comment), calls)

/-- The method `(*CommentService).GetCommentByID`. -/
def CommentService.GetCommentByID (s : CommentService) (id : UUID) :
    Except AppError LoadedComment :=
  match s.commentRepo.GetByID id with
  | .error err => .error (NewDatabaseError err)
  | .ok none => .error (NewCommentNotFoundError id.String)
  | .ok (some comment) => .ok (s.loadCommentRelations comment)

/-- The method `(*CommentService).GetPostComments`. -/
def CommentService.GetPostComments (s : CommentService) (postID : UUID)
    (pagination : PaginationRequest) :
    Except AppError (List LoadedComment × PaginationResponse) :=
  match s.postRepo.Exists postID with
  | .error err => .error (NewDatabaseError err)
  | .ok false => .error (NewPostNotFoundError postID.String)
  | .ok true =>
    match s.commentRepo.GetByPostID postID pagination with
    | .error err => .error (NewDatabaseError err)
    | .ok (comments, paginationResponse) =>
      .ok ((s.loadCommentsRelations comments).1, paginationResponse)

/-- The method `(*CommentService).GetCommentReplies`. -/
def CommentService.GetCommentReplies (s : CommentService) (parentID : UUID)
    (pagination : PaginationRequest) :
    Except AppError (List LoadedComment × PaginationResponse) :=
  match s.commentRepo.Exists parentID with
  | .error err => .error (NewDatabaseError err)
  | .ok false => .error (NewCommentNotFoundError parentID.String)
  | .ok true =>
    match s.commentRepo.GetByParentID parentID pagination with
    | .error err => .error (NewDatabaseError err)
    | .ok (replies, paginationResponse) =>
      .ok ((s.loadCommentsRelations replies).1, paginationResponse)

/-- The method `(*CommentService).GetCommentThread`. -/
def CommentService.GetCommentThread (s : CommentService) (commentID : UUID)
    (maxDepth : Int) : Except AppError (List LoadedComment) :=
  match s.commentRepo.Exists commentID with
  | .error err => .error (NewDatabaseError err)
  | .ok false => .error (NewCommentNotFoundError commentID.String)
  | .ok true =>
    match s.commentRepo.GetThread commentID maxDepth with
    | .error err => .error (NewDatabaseError err)
    | .ok comments => .ok (s.loadCommentsRelations comments).1

/-- Specification of a deduplicated list: each distinct element once, in the order of
its first occurrence. -/
def distinctInOrder : List UUID → List UUID
  | [] => []
  | x :: xs => x :: (distinctInOrder xs).filter (fun y => decide (y ≠ x))

/-- Repositories for the tests with mocks: user 5 and post 1 are known, every batch
fetch fails with an error and delivers nothing. -/
def testFailingRelations (page : List LoadedComment) (resp : PaginationResponse) :
    CommentService :=
  { commentRepo :=
      { GetByID := fun _ => .error "db error",
        GetByPostID := fun _ _ => .ok (page, resp),
        GetByParentID := fun _ _ => .ok (page, resp),
        GetThread := fun _ _ => .ok page,
        Exists := fun _ => .ok true,
        GetByIDs := fun _ => ([], some "comment load error") },
    postRepo :=
      { GetByID := fun _ => .error "db error",
        Exists := fun _ => .ok true,
        GetByIDs := fun _ => ([], some "post load error") },
    userRepo :=
      { GetByID := fun _ => .error "db error",
        GetByIDs := fun _ => ([], some "user load error") } }

end contract

/-! ## Users: internal/entities/user.go, inmemory/user.go, services/user.go -/

namespace strings

/-- The function `strings.Contains`. -/
def Contains (s substr : String) : Bool :=
  s.data.tails.any (fun t => substr.data.isPrefixOf t)

end strings

namespace errors

def NewUserExistsError (username : String) : AppError :=
  (NewAppError ErrUserExists "Пользователь уже существует" 409 none).WithDetails
    ("Username: " ++ username)

def NewInvalidUserDataError (message : String) : AppError :=
  NewAppError ErrInvalidUserData message 400 none

end errors

namespace entities

open errors

/-- The function `validateUserData`: the error, or nil. -/
def validateUserData (username email : String) : Option AppError :=
  if username = "" then
    some (NewInvalidUserDataError "имя пользователя не может быть пустым")
  else if len username < 3 then
    some (NewInvalidUserDataError "имя пользователя должно содержать минимум 3 символа")
  else if len username > 50 then
    some (NewInvalidUserDataError "имя пользователя не должно превышать 50 символов")
  else if strings.Contains username " " then
    some (NewInvalidUserDataError "имя пользователя не должно содержать пробелы")
  else if email = "" then
    some (NewInvalidUserDataError "email не может быть пустым")
  else if !strings.Contains email "@" || !strings.Contains email "." then
    some (NewInvalidUserDataError "некорректный формат email")
  else none

/-- The constructor `NewUser`; `newID` is the value of `uuid.New()` and `now` the reading
of `time.Now()`. -/
def NewUser (newID : UUID) (now : Time) (username email : String) : Except AppError User :=
  match validateUserData username email with
  | some err => .error err
  | none =>
    .ok { ID := newID, Username := username, Email := email, CreatedAt := now,
          UpdatedAt := now }

end entities

namespace inmemory

open entities

/-- The method `(*UserRepository).Create`. -/
def UserRepository.Create (users : GoMap User) (user : User) : Except GoError (GoMap User) :=
  .ok (users.set user.ID user)

/-- The method `(*UserRepository).GetByUsername`: a copy of the first user met in the
iteration over the map that has the username, or nil. -/
def UserRepository.GetByUsername (users : GoMap User) (username : String) :
    Except GoError (Option User) :=
  .ok (users.values.find? (fun user => decide (user.Username = username)))

/-- The method `(*UserRepository).GetByEmail`. -/
def UserRepository.GetByEmail (users : GoMap User) (email : String) :
    Except GoError (Option User) :=
  .ok (users.values.find? (fun user => decide (user.Email = email)))

/-- The method `(*UserRepository).Update`. -/
def UserRepository.Update (users : GoMap User) (user : User) : Except GoError (GoMap User) :=
  .ok (users.set user.ID user)

/-- The method `(*UserRepository).Delete`. -/
def UserRepository.Delete (users : GoMap User) (id : UUID) : Except GoError (GoMap User) :=
  .ok (users.delete id)

/-- The method `(*UserRepository).Exists`. -/
def UserRepository.Exists (users : GoMap User) (id : UUID) : Except GoError Bool :=
  .ok (users.get id).isSome

end inmemory

namespace services

open entities errors inmemory

/-- The method `(*UserService).CreateUser` over the in-memory repository. -/
def UserService.CreateUser (users : GoMap User) (newID : UUID) (now : Time)
    (username email : String) : GoMap User × Except AppError User :=
  match NewUser newID now username email with
  | .error err => (users, .error err)
  | .ok user =>
    match UserRepository.GetByUsername users username with
    | .error err => (users, .error (NewDatabaseError err))
    | .ok (some _) =>
      (users, .error (NewUserExistsError "пользователь с таким именем уже существует"))
    | .ok none =>
      match UserRepository.GetByEmail users email with
      | .error err => (users, .error (NewDatabaseError err))
      | .ok (some _) =>
        (users, .error (NewUserExistsError "пользователь с таким email уже существует"))
      | .ok none =>
        match UserRepository.Create users user with
        | .error err => (users, .error (NewDatabaseError err))
        | .ok users1 => (users1, .ok user)

/-- The method `(*UserService).UpdateUser` over the in-memory repository; `newID` and
`now` are the readings of the `NewUser` that validates the data and is dropped. -/
def UserService.UpdateUser (users : GoMap User) (newID : UUID) (now : Time) (userID : UUID)
    (username email : String) : GoMap User × Option AppError :=
  match NewUser newID now username email with
  | .error err => (users, some err)
  | .ok _ =>
    match UserRepository.GetByID users userID with
    | .error err => (users, some (NewDatabaseError err))
    | .ok none => (users, some (NewUserNotFoundError userID.String))
    | .ok (some user) =>
      let usernameCheck : Option AppError :=
        if user.Username ≠ username then
          match UserRepository.GetByUsername users username with
          | .error err => some (NewDatabaseError err)
          | .ok (some existingUser) =>
            if existingUser.ID ≠ userID then
              some (NewUserExistsError "пользователь с таким именем уже существует")
            else none
          | .ok none => none
        else none
      match usernameCheck with
      | some err => (users, some err)
      | none =>
        let emailCheck : Option AppError :=
          if user.Email ≠ email then
            match UserRepository.GetByEmail users email with
            | .error err => some (NewDatabaseError err)
            | .ok (some existingUser) =>
              if existingUser.ID ≠ userID then
                some (NewUserExistsError "пользователь с таким email уже существует")
              else none
            | .ok none => none
          else none
        match emailCheck with
        | some err => (users, some err)
        | none =>
          let user := { user with Username := username, Email := email }
          match UserRepository.Update users user with
          | .error err => (users, some (NewDatabaseError err))
          | .ok users1 => (users1, none)

/-- The method `(*UserService).DeleteUser` over the in-memory repository. -/
def UserService.DeleteUser (users : GoMap User) (userID : UUID) :
    GoMap User × Option AppError :=
  match UserRepository.Exists users userID with
  | .error err => (users, some (NewDatabaseError err))
  | .ok false => (users, some (NewUserNotFoundError userID.String))
  | .ok true =>
    match UserRepository.Delete users userID with
    | .error err => (users, some (NewDatabaseError err))
    | .ok users1 => (users1, none)

/-- The progress of one call of `CreateUser`: before its first repository call, after
`GetByUsername` has returned nil, after `GetByEmail` has returned nil, or returned. -/
inductive CreateUserCall where
  | start (newID : UUID) (now : Time) (username email : String)
  | checkedUsername (user : User) (email : String)
  | checkedEmail (user : User)
  | done (r : Except AppError User)

/-- The next atomic action of a call of `CreateUser`.  `NewUser` touches no shared state
and is taken together with the first repository call; each of `GetByUsername`,
`GetByEmail` and `Create` runs under its own acquisition of the mutex of the
repository, and `CreateUser` holds no lock from one to the next. -/
def stepCreateUser (users : GoMap User) : CreateUserCall → GoMap User × CreateUserCall
  | .start newID now username email =>
    match NewUser newID now username email with
    | .error err => (users, .done (.error err))
    | .ok user =>
      match UserRepository.GetByUsername users username with
      | .error err => (users, .done (.error (NewDatabaseError err)))
      | .ok (some _) =>
        (users, .done (.error
          (NewUserExistsError "пользователь с таким именем уже существует")))
      | .ok none => (users, .checkedUsername user email)
  | .checkedUsername user email =>
    match UserRepository.GetByEmail users email with
    | .error err => (users, .done (.error (NewDatabaseError err)))
    | .ok (some _) =>
      (users, .done (.error
        (NewUserExistsError "пользователь с таким email уже существует")))
    | .ok none => (users, .checkedEmail user)
  | .checkedEmail user =>
    match UserRepository.Create users user with
    | .error err => (users, .done (.error (NewDatabaseError err)))
    | .ok users1 => (users1, .done (.ok user))
  | .done r => (users, .done r)

/-- A run of several calls of `CreateUser` made by different goroutines on one store:
the schedule names, action by action, the call that takes its next atomic action. -/
def runCreateUsers :
    GoMap User × List CreateUserCall → List Nat → GoMap User × List CreateUserCall
  | st, [] => st
  | (users, calls), i :: rest =>
    match calls[i]? with
    | none => runCreateUsers (users, calls) rest
    | some call =>
      runCreateUsers ((stepCreateUser users call).1, calls.set i (stepCreateUser users call).2)
        rest

/-- The states of the user store reachable from the empty store through calls of
`CreateUser`, `UpdateUser` and `DeleteUser` that run one after the other: each call
returns before the next one starts. -/
inductive UserReachable : GoMap User → Prop
  | init : UserReachable []
  | create (users users1 : GoMap User) (newID : UUID) (now : Time) (username email : String)
      (r : Except AppError User) (hs : UserReachable users)
      (h : UserService.CreateUser users newID now username email = (users1, r)) :
      UserReachable users1
  | update (users users1 : GoMap User) (newID : UUID) (now : Time) (userID : UUID)
      (username email : String) (r : Option AppError) (hs : UserReachable users)
      (h : UserService.UpdateUser users newID now userID username email = (users1, r)) :
      UserReachable users1
  | delete (users users1 : GoMap User) (userID : UUID) (r : Option AppError)
      (hs : UserReachable users) (h : UserService.DeleteUser users userID = (users1, r)) :
      UserReachable users1

/-- The invariant of the user store: every user is stored once, under its own ID, and
two entries with the same username, or the same email, are the same entry. -/
def UserInv (users : GoMap User) : Prop :=
  users.keys.Nodup ∧ (∀ k u, (k, u) ∈ users → u.ID = k) ∧
  (∀ k1 u1 k2 u2, (k1, u1) ∈ users → (k2, u2) ∈ users → u1.Username = u2.Username →
    k1 = k2) ∧
  (∀ k1 u1 k2 u2, (k1, u1) ∈ users → (k2, u2) ∈ users → u1.Email = u2.Email → k1 = k2)

/-- A user store with the one user alice, as created by `CreateUser`. -/
def testUsers : GoMap User :=
  [(5, { ID := 5, Username := "alice", Email := "alice@example.com", CreatedAt := 0,
         UpdatedAt := 0 })]

end services

/-! ## internal/repositories/postgres: the queries of `GetByPath` -/

namespace postgres

open entities

/-- The operator `LIKE` of SQL on code points: `%` matches any sequence, `_` any one
character, a backslash (code 92) makes the next pattern character literal.  The first
argument bounds the number of steps. -/
def likeSteps : Nat → List Char → List Char → Bool
  | 0, _, _ => false
  | _ + 1, [], s => s.isEmpty
  | n + 1, p :: ps, s =>
    if p = '%' then
      likeSteps n ps s ||
        (match s with
          | [] => false
          | _ :: rest => likeSteps n (p :: ps) rest)
    else if p = '_' then
      match s with
      | [] => false
      | _ :: rest => likeSteps n ps rest
    else if p = Char.ofNat 92 then
      match ps, s with
      | q :: qs, c :: rest => decide (q = c) && likeSteps n qs rest
      | _, _ => false
    else
      match s with
      | [] => false
      | c :: rest => decide (p = c) && likeSteps n ps rest

/-- The condition `s LIKE pattern`; every step of `likeSteps` shortens the pattern or
the string, so the bound is never reached. -/
def like (s pattern : String) : Bool :=
  likeSteps (pattern.data.length + s.data.length + 1) pattern.data s.data

/-- The method `(*CommentRepository).GetByPath` of the relational store, over the rows
of the table `comments`: `CommentCountByPathQuery` and `CommentSelectByPathQuery` with
the pattern `pathPrefix + "%"`, then `NewPaginationResponse`.  `ORDER BY path,
created_at ASC` compares paths bytewise; the database rejects a negative `LIMIT` or
`OFFSET`. -/
def CommentRepository.GetByPath (S : SliceSorter Comment) (rows : List Comment)
    (pathPrefix : String) (pagination : PaginationRequest) :
    Except GoError (List Comment × PaginationResponse) :=
  let pattern := pathPrefix ++ "%"
  let total : Int := ((rows.filter (fun row => like row.Path pattern)).length : Int)
  if pagination.Limit < 0 then .error "LIMIT must not be negative"
  else if pagination.Offset < 0 then .error "OFFSET must not be negative"
  else
    let selected := S.Slice (rows.filter (fun row => like row.Path pattern))
      (fun a b =>
        if a.Path = b.Path then decide (a.CreatedAt < b.CreatedAt)
        else stringLess a.Path b.Path)
    let comments := (selected.drop pagination.Offset.toNat).take pagination.Limit.toNat
    .ok (comments, NewPaginationResponse total pagination.Limit pagination.Offset)

end postgres

/-! ## Paths and ancestors -/

namespace services

open entities

/-- The path `NewComment` builds along a chain of identifiers, the comment's own first,
then its parent's, up to the root's: the root's ID string, a slash, ..., a slash, the
comment's ID string. -/
def pathOf : List UUID → String
  | [] => ""
  | [id] => id.String
  | id :: parent :: rest => pathOf (parent :: rest) ++ "/" ++ id.String

/-- The comment `R` is reached from `c` by following `ParentID` links through the store,
one or more times. -/
inductive Ancestor (m : GoMap Comment) (R : Comment) : Comment → Prop
  | parent (c : Comment) (p : UUID) (h : c.ParentID = some p) (hR : m.get p = some R) :
      Ancestor m R c
  | step (c P : Comment) (p : UUID) (h : c.ParentID = some p) (hP : m.get p = some P)
      (hrec : Ancestor m R P) : Ancestor m R c

/-- Every ancestor of the comment is still stored: following `ParentID` links from it
leads through stored comments to a root. -/
inductive AncestorsStored (m : GoMap Comment) : Comment → Prop
  | root (c : Comment) (h : c.ParentID = none) : AncestorsStored m c
  | reply (c P : Comment) (p : UUID) (h : c.ParentID = some p) (hP : m.get p = some P)
      (hrec : AncestorsStored m P) : AncestorsStored m c

end services

/-! ## Lemmas on the Go primitives -/

theorem wrapInt_eq (x : Int) (h1 : -(2 ^ 63) ≤ x) (h2 : x < 2 ^ 63) : wrapInt x = x := by
  unfold wrapInt
  omega

theorem hexDigit_ne_slash (n : Nat) (h : n < 16) : hexDigit n ≠ '/' := by
  interval_cases n <;> decide

theorem hexDigits_no_slash (k v : Nat) : '/' ∉ hexDigits v k := by
  induction k generalizing v with
  | zero => simp [hexDigits]
  | succ k ih =>
    simp only [hexDigits, List.mem_append, List.mem_singleton, not_or]
    exact ⟨ih _, fun h => hexDigit_ne_slash _ (Nat.mod_lt _ (by norm_num)) h.symm⟩

theorem UUID.String_no_slash (u : UUID) : '/' ∉ (UUID.String u).data := by
  have h := hexDigits_no_slash 32 u.val
  unfold UUID.String
  generalize hexDigits u.val 32 = d at h
  intro hm
  simp only [List.mem_append, List.mem_cons] at hm
  have e : ('/' : Char) ≠ '-' := by decide
  have h1 : '/' ∉ d.take 8 := fun hx => h (List.mem_of_mem_take hx)
  have h2 : '/' ∉ (d.drop 8).take 4 :=
    fun hx => h (List.mem_of_mem_drop (List.mem_of_mem_take hx))
  have h3 : '/' ∉ (d.drop 12).take 4 :=
    fun hx => h (List.mem_of_mem_drop (List.mem_of_mem_take hx))
  have h4 : '/' ∉ (d.drop 16).take 4 :=
    fun hx => h (List.mem_of_mem_drop (List.mem_of_mem_take hx))
  have h5 : '/' ∉ d.drop 20 := fun hx => h (List.mem_of_mem_drop hx)
  tauto

theorem String.mk_eq_empty_iff (l : List Char) : String.mk l = "" ↔ l = [] := by
  constructor
  · intro h
    exact congrArg String.data h
  · intro h
    subst h
    rfl

theorem strings.TrimSpace_eq_empty_iff (s : String) :
    strings.TrimSpace s = "" ↔ ∀ c ∈ s.data, unicode.IsSpace c = true := by
  unfold strings.TrimSpace
  rw [String.mk_eq_empty_iff, List.reverse_eq_nil_iff, List.dropWhile_eq_nil_iff]
  constructor
  · intro h
    have hnil : s.data.dropWhile unicode.IsSpace = [] := by
      by_contra hne
      have h1 := List.head_dropWhile_not unicode.IsSpace s.data hne
      have h2 := h _ (List.mem_reverse.mpr (List.head_mem hne))
      simp [h2] at h1
    exact List.dropWhile_eq_nil_iff.mp hnil
  · intro h
    have hnil : s.data.dropWhile unicode.IsSpace = [] := List.dropWhile_eq_nil_iff.mpr h
    simp [hnil]

theorem utf8Len_replicate (c : Char) (n : Nat) :
    String.utf8Len (List.replicate n c) = n * c.utf8Size := by
  induction n with
  | zero => simp
  | succ n ih => simp [List.replicate_succ, ih, Nat.succ_mul]

theorem len_Repeat (c : Char) (n : Nat) : len (strings.Repeat c n) = n * c.utf8Size := by
  simp [len, strings.Repeat, String.utf8ByteSize, utf8Len_replicate]

theorem runeCount_Repeat (c : Char) (n : Nat) : runeCount (strings.Repeat c n) = n := by
  simp [runeCount, strings.Repeat, String.length]

theorem TrimSpace_Repeat_space (c : Char) (n : Nat) (hc : unicode.IsSpace c = true) :
    strings.TrimSpace (strings.Repeat c n) = "" := by
  rw [strings.TrimSpace_eq_empty_iff]
  intro x hx
  simp only [strings.Repeat] at hx
  rw [List.eq_of_mem_replicate hx]
  exact hc

theorem TrimSpace_Repeat_ne (c : Char) (n : Nat) (hc : unicode.IsSpace c = false)
    (hn : 0 < n) : strings.TrimSpace (strings.Repeat c n) ≠ "" := by
  rw [Ne, strings.TrimSpace_eq_empty_iff]
  intro h
  have hm : c ∈ (strings.Repeat c n).data := by
    simp only [strings.Repeat]
    exact List.mem_replicate.mpr ⟨Nat.pos_iff_ne_zero.mp hn, rfl⟩
  rw [h c hm] at hc
  exact Bool.noConfusion hc

/-! ## Lemmas on `NewComment` -/

namespace entities

open errors

theorem NewComment_ok_iff (newID : UUID) (now : Time) (postID authorID : UUID)
    (content : String) (parent : Option Comment) :
    (∃ c, NewComment newID now postID authorID content parent = .ok c) ↔
      (strings.TrimSpace content ≠ "" ∧ len content ≤ MaxCommentLength) := by
  unfold NewComment
  constructor
  · rintro ⟨c, h⟩
    split_ifs at h with h1 h2
    exact ⟨h2, Nat.le_of_not_lt h1⟩
  · rintro ⟨h2, h1⟩
    rw [if_neg (Nat.not_lt.mpr h1), if_neg h2]
    cases parent <;> exact ⟨_, rfl⟩

theorem NewComment_fields (newID : UUID) (now : Time) (postID authorID : UUID)
    (content : String) (parent : Option Comment) (c : Comment)
    (h : NewComment newID now postID authorID content parent = .ok c) :
    c.ID = newID ∧ c.PostID = postID ∧ c.AuthorID = authorID ∧ c.Content = content ∧
      c.CreatedAt = now ∧ c.UpdatedAt = now ∧
      c.ParentID = parent.map (fun p => p.ID) ∧
      c.Level = parent.elim 0 (fun p => wrapInt (p.Level + 1)) ∧
      c.Path = parent.elim newID.String (fun p => p.Path ++ "/" ++ newID.String) := by
  unfold NewComment at h
  split_ifs at h with h1 h2
  cases parent with
  | none =>
    simp only [Except.ok.injEq] at h
    subst h
    simp
  | some p =>
    simp only [Except.ok.injEq] at h
    subst h
    simp

theorem replyChain_length (args : List NewCommentArgs) :
    ∀ (parent : Option Comment) (cs : List Comment),
      replyChain parent args = .ok cs → cs.length = args.length := by
  induction args with
  | nil =>
    intro parent cs h
    simp only [replyChain, Except.ok.injEq] at h
    subst h
    rfl
  | cons a rest ih =>
    intro parent cs h
    simp only [replyChain] at h
    split at h
    · exact absurd h (by simp)
    · rename_i c hc
      split at h
      · exact absurd h (by simp)
      · rename_i cs1 hcs
        simp only [Except.ok.injEq] at h
        subst h
        simp [ih _ _ hcs]

theorem replyChain_head (args : List NewCommentArgs) (parent : Option Comment)
    (cs : List Comment) (c : Comment) (h : replyChain parent args = .ok cs)
    (h0 : cs[0]? = some c) :
    c.ParentID = parent.map (fun p => p.ID) ∧
      c.Level = parent.elim 0 (fun p => wrapInt (p.Level + 1)) ∧
      c.Path = parent.elim c.ID.String (fun p => p.Path ++ "/" ++ c.ID.String) := by
  cases args with
  | nil =>
    simp only [replyChain, Except.ok.injEq] at h
    subst h
    simp at h0
  | cons a rest =>
    have key : NewComment a.newID a.now a.postID a.authorID a.content parent = .ok c := by
      simp only [replyChain] at h
      split at h
      · exact absurd h (by simp)
      · rename_i c1 hc
        split at h
        · exact absurd h (by simp)
        · rename_i cs1 hcs
          simp only [Except.ok.injEq] at h
          subst h
          simp only [List.getElem?_cons_zero, Option.some.injEq] at h0
          subst h0
          exact hc
    obtain ⟨hid, -, -, -, -, -, hp, hl, hpath⟩ := NewComment_fields _ _ _ _ _ _ _ key
    rw [hid]
    exact ⟨hp, hl, hpath⟩

theorem replyChain_step (args : List NewCommentArgs) :
    ∀ (parent : Option Comment) (cs : List Comment) (i : Nat) (p c : Comment),
      replyChain parent args = .ok cs → cs[i]? = some p → cs[i + 1]? = some c →
      c.ParentID = some p.ID ∧ c.Level = wrapInt (p.Level + 1) ∧
        c.Path = p.Path ++ "/" ++ c.ID.String := by
  induction args with
  | nil =>
    intro parent cs i p c h hp
    simp only [replyChain, Except.ok.injEq] at h
    subst h
    simp at hp
  | cons a rest ih =>
    intro parent cs i p c h hp hc
    simp only [replyChain] at h
    split at h
    · exact absurd h (by simp)
    · rename_i c1 hc1
      split at h
      · exact absurd h (by simp)
      · rename_i cs1 hcs
        simp only [Except.ok.injEq] at h
        subst h
        cases i with
        | zero =>
          simp only [List.getElem?_cons_zero, Option.some.injEq] at hp
          subst hp
          simp only [zero_add, List.getElem?_cons_succ] at hc
          have hh := replyChain_head rest (some c1) cs1 c hcs hc
          simpa using hh
        | succ j =>
          simp only [List.getElem?_cons_succ] at hp hc
          exact ih (some c1) cs1 j p c hcs hp hc

theorem replyChain_level (args : List NewCommentArgs) :
    ∀ (parent : Option Comment) (cs : List Comment) (i : Nat) (c : Comment),
      replyChain parent args = .ok cs → cs[i]? = some c →
      0 ≤ parent.elim 0 (fun p => p.Level + 1) →
      parent.elim 0 (fun p => p.Level + 1) + i < 2 ^ 63 →
      c.Level = parent.elim 0 (fun p => p.Level + 1) + i := by
  induction args with
  | nil =>
    intro parent cs i c h hc
    simp only [replyChain, Except.ok.injEq] at h
    subst h
    simp at hc
  | cons a rest ih =>
    intro parent cs i c h hc h0 hi
    have hhead : ∀ c1 : Comment, cs[0]? = some c1 →
        c1.Level = parent.elim 0 (fun p => p.Level + 1) := by
      intro c1 hc1
      have hh := (replyChain_head (a :: rest) parent cs c1 h hc1).2.1
      cases parent with
      | none => exact hh
      | some p =>
        simp only [Option.elim] at hh h0 hi ⊢
        rw [hh]
        exact wrapInt_eq _ (by omega) (by omega)
    cases i with
    | zero =>
      rw [hhead c hc]
      simp
    | succ j =>
      have hcs := h
      simp only [replyChain] at h
      split at h
      · exact absurd h (by simp)
      · rename_i c1 hc1
        split at h
        · exact absurd h (by simp)
        · rename_i cs1 hcs1
          simp only [Except.ok.injEq] at h
          subst h
          simp only [List.getElem?_cons_succ] at hc
          have hl1 := hhead c1 (by simp)
          have hl := ih (some c1) cs1 j c hcs1 hc
            (by simp only [Option.elim]; omega)
            (by simp only [Option.elim]; push_cast at hi; omega)
          simp only [Option.elim] at hl
          rw [hl, hl1]
          push_cast
          ring

end entities

/-! ## Claims on `NewComment` -/

namespace entities

open errors

/-- C1: every successful `NewComment` called without a parent returns a comment whose
ParentID is absent, whose Level is 0, whose Path is the string form of its own ID, and
which carries the given postID, authorID and content unchanged. -/
theorem NewComment_without_parent (newID : UUID) (now : Time) (postID authorID : UUID)
    (content : String) (c : Comment)
    (h : NewComment newID now postID authorID content none = .ok c) :
    c.ParentID = none ∧ c.Level = 0 ∧ c.Path = c.ID.String ∧
      c.PostID = postID ∧ c.AuthorID = authorID ∧ c.Content = content := by
  obtain ⟨hid, hpost, hauthor, hcontent, -, -, hp, hl, hpath⟩ :=
    NewComment_fields _ _ _ _ _ _ _ h
  rw [hid]
  exact ⟨hp, hl, hpath, hpost, hauthor, hcontent⟩

theorem NewComment_without_parent_witness :
    NewComment 255 7 1 2 "Test comment content" none =
        .ok { ID := 255, PostID := 1, AuthorID := 2, ParentID := none,
              Content := "Test comment content",
              Path := "00000000-0000-0000-0000-0000000000ff", Level := 0,
              CreatedAt := 7, UpdatedAt := 7 } ∧
      (255 : UUID).String = "00000000-0000-0000-0000-0000000000ff" :=
  ⟨rfl,
    ((NewComment_without_parent 255 7 1 2 "Test comment content"
      { ID := 255, PostID := 1, AuthorID := 2, ParentID := none,
        Content := "Test comment content",
        Path := "00000000-0000-0000-0000-0000000000ff", Level := 0,
        CreatedAt := 7, UpdatedAt := 7 } rfl).2.2.1).symm⟩

/-- C2 fails as stated: `Level` is a 64-bit `int`.  Called with a parent snapshot whose
level is 2^63 - 1, `NewComment` succeeds and returns a comment of level -2^63, not
2^63. -/
theorem NewComment_level_overflow_counterexample :
    ∃ P c : Comment, P.Level = 2 ^ 63 - 1 ∧
      NewComment 11 0 1 2 "Level 1" (some P) = .ok c ∧
      c.ParentID = some P.ID ∧ c.Level = -(2 ^ 63) ∧ c.Level ≠ P.Level + 1 :=
  ⟨{ ID := 10, PostID := 1, AuthorID := 2, ParentID := none, Content := "Level 0",
     Path := "00000000-0000-0000-0000-00000000000a", Level := 9223372036854775807,
     CreatedAt := 0, UpdatedAt := 0 }, _, rfl, rfl, rfl, by decide, by decide⟩

/-- C2, amended: every successful `NewComment` called with a parent snapshot `P` returns
a comment with ParentID = P.ID, Level = P.Level + 1 computed in 64 bits, which is
P.Level + 1 whenever P.Level is a 64-bit integer below the largest one, 2^63 - 1, and
Path = P.Path + "/" + (string form of its own ID), the appended segment containing no
"/"; and in a chain built by repeated application from a root, the comment at a position
`i` below 2^63 has level `i` (levels 0..n for n replies), the first one is a root, and
every later one extends the path of the one before it by exactly that one segment. -/
theorem NewComment_with_parent_chain :
    (∀ (newID : UUID) (now : Time) (postID authorID : UUID) (content : String)
        (P c : Comment),
        NewComment newID now postID authorID content (some P) = .ok c →
        c.ParentID = some P.ID ∧ c.Level = wrapInt (P.Level + 1) ∧
          (-(2 ^ 63) ≤ P.Level → P.Level < 2 ^ 63 - 1 → c.Level = P.Level + 1) ∧
          c.Path = P.Path ++ "/" ++ c.ID.String ∧ '/' ∉ c.ID.String.data) ∧
    (∀ (args : List NewCommentArgs) (cs : List Comment),
        replyChain none args = .ok cs →
        cs.length = args.length ∧
        (∀ (i : Nat) (c : Comment), cs[i]? = some c → i < 2 ^ 63 → c.Level = i) ∧
        (∀ c : Comment, cs[0]? = some c → c.ParentID = none ∧ c.Path = c.ID.String) ∧
        (∀ (i : Nat) (p c : Comment), cs[i]? = some p → cs[i + 1]? = some c →
          c.ParentID = some p.ID ∧ c.Path = p.Path ++ "/" ++ c.ID.String ∧
            '/' ∉ c.ID.String.data)) := by
  refine ⟨?_, ?_⟩
  · intro newID now postID authorID content P c h
    obtain ⟨hid, -, -, -, -, -, hp, hl, hpath⟩ := NewComment_fields _ _ _ _ _ _ _ h
    rw [hid]
    refine ⟨hp, hl, ?_, hpath, UUID.String_no_slash _⟩
    intro h1 h2
    rw [hl]
    exact wrapInt_eq _ (by omega) (by omega)
  · intro args cs h
    refine ⟨replyChain_length _ _ _ h, ?_, ?_, ?_⟩
    · intro i c hc hi
      have hl := replyChain_level args none cs i c h hc (le_refl _)
        (by simp only [Option.elim]; exact_mod_cast (by omega : 0 + i < 2 ^ 63))
      simpa using hl
    · intro c hc
      have hh := replyChain_head args none cs c h hc
      exact ⟨hh.1, hh.2.2⟩
    · intro i p c hp hc
      have hh := replyChain_step args none cs i p c h hp hc
      exact ⟨hh.1, hh.2.2, UUID.String_no_slash _⟩

theorem NewComment_with_parent_chain_witness :
    (∃ c : Comment,
        NewComment 11 0 1 2 "Level 1" (some
          { ID := 10, PostID := 1, AuthorID := 2, ParentID := none, Content := "Level 0",
            Path := "00000000-0000-0000-0000-00000000000a", Level := 0,
            CreatedAt := 0, UpdatedAt := 0 }) = .ok c ∧
        c.Level = 1 ∧
        c.Path = "00000000-0000-0000-0000-00000000000a/00000000-0000-0000-0000-00000000000b") ∧
    (∃ cs : List Comment,
        replyChain none
          [⟨10, 0, 1, 2, "Level 0"⟩, ⟨11, 0, 1, 2, "Level 1"⟩, ⟨12, 0, 1, 2, "Level 2"⟩]
          = .ok cs ∧
        cs.length = 3 ∧ ∀ (i : Nat) (c : Comment), cs[i]? = some c → i < 2 ^ 63 →
          c.Level = i) := by
  have hchain := NewComment_with_parent_chain.2
    [⟨10, 0, 1, 2, "Level 0"⟩, ⟨11, 0, 1, 2, "Level 1"⟩, ⟨12, 0, 1, 2, "Level 2"⟩] _ rfl
  refine ⟨⟨_, rfl, ?_, rfl⟩, ⟨_, rfl, hchain.1, hchain.2.1⟩⟩
  exact (NewComment_with_parent_chain.1 11 0 1 2 "Level 1" _ _ rfl).2.2.1
    (by decide) (by decide)

/-- C3 fails as stated: 1001 Cyrillic letters are non-blank and have at most 2000 code
points, yet `NewComment` rejects them (they take 2002 bytes). -/
theorem NewComment_code_points_counterexample :
    strings.TrimSpace (strings.Repeat 'я' 1001) ≠ "" ∧
      runeCount (strings.Repeat 'я' 1001) ≤ 2000 ∧
      NewComment 1 0 1 1 (strings.Repeat 'я' 1001) none =
        .error (NewCommentTooLongError MaxCommentLength) := by
  refine ⟨TrimSpace_Repeat_ne _ _ (by decide) (by norm_num), ?_, ?_⟩
  · rw [runeCount_Repeat]
    norm_num
  · have hlen : len (strings.Repeat 'я' 1001) > MaxCommentLength := by
      rw [len_Repeat, show ('я' : Char).utf8Size = 2 by decide]
      norm_num [MaxCommentLength]
    unfold NewComment
    rw [if_pos hlen]

/-- C3, amended: `NewComment` succeeds if and only if the content is non-blank after
trimming white space and its length in bytes (UTF-8) is at most 2000; on success the
stored Content equals the input exactly. -/
theorem NewComment_succeeds_iff (newID : UUID) (now : Time) (postID authorID : UUID)
    (content : String) (parent : Option Comment) :
    ((∃ c, NewComment newID now postID authorID content parent = .ok c) ↔
      (strings.TrimSpace content ≠ "" ∧ len content ≤ 2000)) ∧
    (∀ c, NewComment newID now postID authorID content parent = .ok c →
      c.Content = content) :=
  ⟨NewComment_ok_iff _ _ _ _ _ _,
    fun _ h => (NewComment_fields _ _ _ _ _ _ _ h).2.2.2.1⟩

theorem NewComment_succeeds_iff_witness :
    (∃ c, NewComment 3 0 1 2 " padded\n" none = .ok c ∧ c.Content = " padded\n") ∧
      strings.TrimSpace " padded\n" ≠ "" ∧ len " padded\n" ≤ 2000 := by
  have h := NewComment_succeeds_iff 3 0 1 2 " padded\n" none
  have hv : strings.TrimSpace " padded\n" ≠ "" ∧ len " padded\n" ≤ 2000 := by decide
  obtain ⟨c, hc⟩ := h.1.mpr hv
  exact ⟨⟨c, hc, h.2 c hc⟩, hv⟩

/-- C4 fails as stated: 2001 spaces are blank after trimming, yet the error of
`NewComment` has code COMMENT_TOO_LONG, not COMMENT_EMPTY. -/
theorem NewComment_blank_counterexample :
    strings.TrimSpace (strings.Repeat ' ' 2001) = "" ∧
      NewComment 1 0 1 1 (strings.Repeat ' ' 2001) none =
        .error (NewCommentTooLongError MaxCommentLength) ∧
      (NewCommentTooLongError MaxCommentLength).Code ≠ ErrCommentEmpty := by
  refine ⟨TrimSpace_Repeat_space _ _ (by decide), ?_, by decide⟩
  have hlen : len (strings.Repeat ' ' 2001) > MaxCommentLength := by
    rw [len_Repeat, show (' ' : Char).utf8Size = 1 by decide]
    norm_num [MaxCommentLength]
  unfold NewComment
  rw [if_pos hlen]

/-- C4, amended: for every content that is blank after trimming white space and is at
most 2000 bytes long, `NewComment` returns no comment and an error whose code is
COMMENT_EMPTY; a blank content of more than 2000 bytes is rejected by the length guard,
which runs first, with code COMMENT_TOO_LONG. -/
theorem NewComment_blank (newID : UUID) (now : Time) (postID authorID : UUID)
    (content : String) (parent : Option Comment)
    (hb : strings.TrimSpace content = "") :
    (len content ≤ MaxCommentLength →
      NewComment newID now postID authorID content parent = .error NewCommentEmptyError ∧
        NewCommentEmptyError.Code = ErrCommentEmpty) ∧
    (len content > MaxCommentLength →
      NewComment newID now postID authorID content parent =
          .error (NewCommentTooLongError MaxCommentLength) ∧
        (NewCommentTooLongError MaxCommentLength).Code = ErrCommentTooLong) := by
  unfold NewComment
  refine ⟨fun h => ?_, fun h => ?_⟩
  · rw [if_neg (Nat.not_lt.mpr h), if_pos hb]
    exact ⟨rfl, rfl⟩
  · rw [if_pos h]
    exact ⟨rfl, rfl⟩

theorem NewComment_blank_witness :
    strings.TrimSpace "   " = "" ∧
      NewComment 1 0 1 1 "   " none = .error NewCommentEmptyError ∧
      NewComment 1 0 1 1 "" none = .error NewCommentEmptyError :=
  ⟨by decide, ((NewComment_blank 1 0 1 1 "   " none (by decide)).1 (by decide)).1,
    ((NewComment_blank 1 0 1 1 "" none (by decide)).1 (by decide)).1⟩

/-- C5: for every content that is not blank after trimming, `NewComment` fails with code
COMMENT_TOO_LONG exactly when the byte length of the content exceeds
MaxCommentLength = 2000, and otherwise succeeds; so 2000 bytes are accepted and 2001
bytes are rejected. -/
theorem NewComment_too_long_iff (newID : UUID) (now : Time) (postID authorID : UUID)
    (content : String) (parent : Option Comment)
    (hnb : strings.TrimSpace content ≠ "") :
    MaxCommentLength = 2000 ∧
    ((∃ e, NewComment newID now postID authorID content parent = .error e ∧
        e.Code = ErrCommentTooLong) ↔ len content > MaxCommentLength) ∧
    (¬ len content > MaxCommentLength →
      ∃ c, NewComment newID now postID authorID content parent = .ok c) ∧
    (len content = 2000 →
      ∃ c, NewComment newID now postID authorID content parent = .ok c) ∧
    (len content = 2001 →
      ∃ e, NewComment newID now postID authorID content parent = .error e ∧
        e.Code = ErrCommentTooLong) := by
  have hok : ¬ len content > MaxCommentLength →
      ∃ c, NewComment newID now postID authorID content parent = .ok c :=
    fun h => (NewComment_ok_iff _ _ _ _ _ _).mpr ⟨hnb, Nat.le_of_not_lt h⟩
  have hlong : len content > MaxCommentLength →
      ∃ e, NewComment newID now postID authorID content parent = .error e ∧
        e.Code = ErrCommentTooLong := by
    intro h
    unfold NewComment
    rw [if_pos h]
    exact ⟨_, rfl, rfl⟩
  refine ⟨rfl, ⟨?_, hlong⟩, hok, ?_, ?_⟩
  · rintro ⟨e, he, -⟩
    by_contra hn
    obtain ⟨c, hc⟩ := hok hn
    rw [hc] at he
    exact Except.noConfusion he
  · intro h
    exact hok (by rw [h]; norm_num [MaxCommentLength])
  · intro h
    exact hlong (by rw [h]; norm_num [MaxCommentLength])

theorem NewComment_too_long_iff_witness :
    (∃ c, NewComment 1 0 1 1 (strings.Repeat 'a' 2000) none = .ok c) ∧
      (∃ e, NewComment 1 0 1 1 (strings.Repeat 'a' 2001) none = .error e ∧
        e.Code = ErrCommentTooLong) := by
  have hs : ('a' : Char).utf8Size = 1 := by decide
  refine ⟨?_, ?_⟩
  · exact (NewComment_too_long_iff 1 0 1 1 (strings.Repeat 'a' 2000) none
      (TrimSpace_Repeat_ne _ _ (by decide) (by norm_num))).2.2.2.1
      (by rw [len_Repeat, hs])
  · exact (NewComment_too_long_iff 1 0 1 1 (strings.Repeat 'a' 2001) none
      (TrimSpace_Repeat_ne _ _ (by decide) (by norm_num))).2.2.2.2
      (by rw [len_Repeat, hs])

end entities

/-! ## Lemmas on maps and channels -/

namespace GoMap

theorem get_cons_same {V : Type} (m : GoMap V) (k : UUID) (v : V) :
    get ((k, v) :: m) k = some v := by
  simp [get]

theorem get_cons_ne {V : Type} (m : GoMap V) (k k1 : UUID) (v : V) (h : k1 ≠ k) :
    get ((k1, v) :: m) k = get m k := by
  simp [get, h]

theorem delete_cons_same {V : Type} (m : GoMap V) (k : UUID) (v : V) :
    delete ((k, v) :: m) k = delete m k := by
  simp [delete, List.filter_cons]

theorem delete_cons_ne {V : Type} (m : GoMap V) (k k1 : UUID) (v : V) (h : k1 ≠ k) :
    delete ((k1, v) :: m) k = (k1, v) :: delete m k := by
  simp [delete, List.filter_cons, h]

theorem get_delete_same {V : Type} (m : GoMap V) (k : UUID) : (m.delete k).get k = none := by
  induction m with
  | nil => rfl
  | cons kv m ih =>
    obtain ⟨k1, v1⟩ := kv
    by_cases h : k1 = k
    · subst h
      rw [delete_cons_same]
      exact ih
    · rw [delete_cons_ne _ _ _ _ h, get_cons_ne _ _ _ _ h]
      exact ih

theorem get_delete_ne {V : Type} (m : GoMap V) (k k1 : UUID) (h : k1 ≠ k) :
    (m.delete k).get k1 = m.get k1 := by
  induction m with
  | nil => rfl
  | cons kv m ih =>
    obtain ⟨k2, v2⟩ := kv
    by_cases h2 : k2 = k
    · subst h2
      rw [delete_cons_same, get_cons_ne _ _ _ _ (Ne.symm h)]
      exact ih
    · rw [delete_cons_ne _ _ _ _ h2]
      by_cases h3 : k2 = k1
      · subst h3
        rw [get_cons_same, get_cons_same]
      · rw [get_cons_ne _ _ _ _ h3, get_cons_ne _ _ _ _ h3]
        exact ih

theorem get_set_same {V : Type} (m : GoMap V) (k : UUID) (v : V) :
    (m.set k v).get k = some v := by
  simp [set, get]

theorem get_set_ne {V : Type} (m : GoMap V) (k k1 : UUID) (v : V) (h : k1 ≠ k) :
    (m.set k v).get k1 = m.get k1 := by
  unfold set
  rw [get_cons_ne _ _ _ _ (Ne.symm h)]
  exact get_delete_ne m k k1 h

theorem delete_of_get_none {V : Type} (m : GoMap V) (k : UUID) (h : m.get k = none) :
    m.delete k = m := by
  induction m with
  | nil => rfl
  | cons kv m ih =>
    obtain ⟨k1, v1⟩ := kv
    by_cases h1 : k1 = k
    · subst h1
      rw [get_cons_same] at h
      exact Option.noConfusion h
    · rw [get_cons_ne _ _ _ _ h1] at h
      rw [delete_cons_ne _ _ _ _ h1, ih h]

end GoMap

namespace services

open entities errors inmemory

theorem liveChan_set (chans : List Chan) (ch j : Nat) (c1 : Chan) (h1 : c1.closed = false)
    (hj : liveChan chans j) : liveChan (chans.set ch c1) j := by
  obtain ⟨c, hc, hcl⟩ := hj
  by_cases e : ch = j
  · subst e
    refine ⟨c1, ?_, h1⟩
    have hlt : ch < chans.length := by
      by_contra hn
      rw [List.getElem?_eq_none (Nat.le_of_not_lt hn)] at hc
      exact Option.noConfusion hc
    simp [List.getElem?_set, hlt]
  · exact ⟨c, by simp [List.getElem?_set, e, hc], hcl⟩

theorem sendAll_isSome (event : CommentEvent) (targets : List Nat) :
    ∀ chans : List Chan, (∀ ch ∈ targets, liveChan chans ch) →
      ∃ chans1, sendAll chans event targets = some chans1 := by
  induction targets with
  | nil => intro chans _; exact ⟨chans, rfl⟩
  | cons ch rest ih =>
    intro chans h
    obtain ⟨c, hc, hcl⟩ := h ch (List.mem_cons_self _ _)
    have hrest : ∀ c1 : Chan, c1.closed = false →
        ∃ chans1, sendAll (chans.set ch c1) event rest = some chans1 := fun c1 h1 =>
      ih _ (fun j hj => liveChan_set _ _ _ _ h1 (h j (List.mem_cons_of_mem _ hj)))
    simp only [sendAll, hc, Chan.trySend, hcl, Bool.false_eq_true, if_false]
    by_cases hfull : c.buf.length < c.cap
    · simp only [if_pos hfull]
      exact hrest _ rfl
    · simp only [if_neg hfull]
      exact hrest _ hcl

theorem liveSubscribers_iff (s : CommentService) (postID : UUID) :
    s.liveSubscribers postID = true ↔
      ∀ ch ∈ (s.subscribers.get postID).getD [], liveChan s.chans ch := by
  simp only [CommentService.liveSubscribers, List.all_eq_true, liveChan]
  constructor
  · intro h ch hch
    have := h ch hch
    split at this
    · rename_i c hc
      exact ⟨c, hc, by simpa using this⟩
    · exact absurd this (by simp)
  · intro h ch hch
    obtain ⟨c, hc, hcl⟩ := h ch hch
    simp [hc, hcl]

theorem notifySubscribers_isSome (s : CommentService) (postID : UUID) (event : CommentEvent)
    (h : ∀ ch ∈ (s.subscribers.get postID).getD [], liveChan s.chans ch) :
    ∃ s1, s.notifySubscribers postID event = some s1 ∧ s1.commentRepo = s.commentRepo ∧
      s1.postRepo = s.postRepo ∧ s1.userRepo = s.userRepo ∧
      s1.subscribers = s.subscribers := by
  unfold CommentService.notifySubscribers
  simp only
  split_ifs with h0
  · exact ⟨s, rfl, rfl, rfl, rfl, rfl⟩
  · obtain ⟨chans1, hch⟩ := sendAll_isSome event _ s.chans h
    rw [hch]
    exact ⟨_, rfl, rfl, rfl, rfl, rfl⟩

theorem notifySubscribers_frame (s s1 : CommentService) (postID : UUID) (event : CommentEvent)
    (h : s.notifySubscribers postID event = some s1) :
    s1.commentRepo = s.commentRepo ∧ s1.postRepo = s.postRepo ∧ s1.userRepo = s.userRepo ∧
      s1.subscribers = s.subscribers := by
  unfold CommentService.notifySubscribers at h
  simp only at h
  split_ifs at h with h0
  · simp only [Option.some.injEq] at h
    subst h
    exact ⟨rfl, rfl, rfl, rfl⟩
  · split at h
    · exact absurd h (by simp)
    · simp only [Option.some.injEq] at h
      subst h
      exact ⟨rfl, rfl, rfl, rfl⟩

end services

namespace services

open entities errors inmemory

theorem sendAll_live (event : CommentEvent) (targets : List Nat) :
    ∀ chans chans1 : List Chan, sendAll chans event targets = some chans1 →
      ∀ j, liveChan chans j → liveChan chans1 j := by
  induction targets with
  | nil =>
    intro chans chans1 h j hj
    simp only [sendAll, Option.some.injEq] at h
    rw [← h]
    exact hj
  | cons ch rest ih =>
    intro chans chans1 h j hj
    simp only [sendAll] at h
    split at h
    · exact absurd h (by simp)
    · rename_i c hc
      split at h
      · exact absurd h (by simp)
      · rename_i c1 hc1
        have hcl : c1.closed = false := by
          unfold Chan.trySend at hc1
          split_ifs at hc1 with h1 h2
          · simp only [Option.some.injEq] at hc1
            rw [← hc1]
            simpa using h1
          · simp only [Option.some.injEq] at hc1
            rw [← hc1]
            simpa using h1
        exact ih _ _ h j (liveChan_set _ _ _ _ hcl hj)

theorem notifySubscribers_live (s s1 : CommentService) (postID : UUID) (event : CommentEvent)
    (h : s.notifySubscribers postID event = some s1) :
    ∀ j, liveChan s.chans j → liveChan s1.chans j := by
  unfold CommentService.notifySubscribers at h
  simp only at h
  split_ifs at h with h0
  · simp only [Option.some.injEq] at h
    subst h
    exact fun _ hj => hj
  · split at h
    · exact absurd h (by simp)
    · rename_i chans1 hs
      simp only [Option.some.injEq] at h
      subst h
      exact sendAll_live event _ _ _ hs

end services

/-! ## Lemmas on `CreateComment` -/

namespace services

open entities errors inmemory

theorem CreateComment_success (s : CommentService) (newID : UUID) (now t1 t2 : Time)
    (postID authorID : UUID) (content : String) (parentID : Option UUID)
    (post : Post) (author : User) (parent : Option Comment)
    (hp : s.postRepo.get postID = some post) (hen : post.CommentsDisabled = false)
    (ha : s.userRepo.get authorID = some author)
    (hpar : (parentID = none ∧ parent = none) ∨
      ∃ pid P, parentID = some pid ∧ parent = some P ∧ s.commentRepo.get pid = some P ∧
        P.PostID = postID)
    (hnb : strings.TrimSpace content ≠ "") (hlen : len content ≤ MaxCommentLength)
    (hlive : s.liveSubscribers postID = true) :
    ∃ s2 nc, NewComment newID now postID authorID content parent = .ok nc ∧
      s.CreateComment newID now t1 t2 postID authorID content parentID =
        some (s2, .ok { nc with CreatedAt := t1, UpdatedAt := t2 }) ∧
      s2.commentRepo = s.commentRepo.set newID { nc with CreatedAt := t1, UpdatedAt := t2 } ∧
      s2.postRepo = s.postRepo ∧ s2.userRepo = s.userRepo ∧
      s2.subscribers = s.subscribers := by
  obtain ⟨nc, hnc⟩ := (NewComment_ok_iff newID now postID authorID content parent).mpr ⟨hnb, hlen⟩
  have hid : nc.ID = newID := (NewComment_fields _ _ _ _ _ _ _ hnc).1
  subst hid
  have hlive1 := (liveSubscribers_iff s postID).mp hlive
  obtain ⟨s2, hs2, h1, h2, h3, h4⟩ := notifySubscribers_isSome
    { s with commentRepo := s.commentRepo.set nc.ID { nc with CreatedAt := t1, UpdatedAt := t2 } }
    postID { Type_ := "comment_created", PostID := postID,
             Comment := { nc with CreatedAt := t1, UpdatedAt := t2 } } hlive1
  refine ⟨s2, nc, hnc, ?_, h1, h2, h3, h4⟩
  rcases hpar with ⟨hpn, hpa⟩ | ⟨pid, P, hpn, hpa, hget, hpost⟩
  · subst hpn hpa
    simp only [CommentService.CreateComment, PostRepository.GetByID, UserRepository.GetByID,
      CommentRepository.Create, hp, ha, hen, hnc, Bool.false_eq_true, if_false]
    rw [hs2]
  · subst hpn hpa
    simp only [CommentService.CreateComment, PostRepository.GetByID, UserRepository.GetByID,
      CommentRepository.GetByID, CommentRepository.Create, hp, ha, hen, hget, hpost, hnc,
      Bool.false_eq_true, if_false, ne_eq, not_true_eq_false]
    rw [hs2]

theorem CreateComment_inv (s s1 : CommentService) (newID : UUID) (now t1 t2 : Time)
    (postID authorID : UUID) (content : String) (parentID : Option UUID)
    (r : Except AppError Comment)
    (h : s.CreateComment newID now t1 t2 postID authorID content parentID = some (s1, r)) :
    (s1 = s ∧ ∃ e, r = .error e) ∨
    ∃ (nc : Comment) (parent : Option Comment),
      ((parentID = none ∧ parent = none) ∨
        ∃ pid P, parentID = some pid ∧ parent = some P ∧ s.commentRepo.get pid = some P ∧
          P.PostID = postID) ∧
      NewComment newID now postID authorID content parent = .ok nc ∧
      r = .ok { nc with CreatedAt := t1, UpdatedAt := t2 } ∧
      s1.commentRepo = s.commentRepo.set newID { nc with CreatedAt := t1, UpdatedAt := t2 } ∧
      s1.postRepo = s.postRepo ∧ s1.userRepo = s.userRepo ∧
      s1.subscribers = s.subscribers ∧
      ∀ j, liveChan s.chans j → liveChan s1.chans j := by
  have fail : ∀ e : AppError, some (s, Except.error e) = some (s1, r) →
      (s1 = s ∧ ∃ e, r = .error e) ∨
      ∃ (nc : Comment) (parent : Option Comment),
        ((parentID = none ∧ parent = none) ∨
          ∃ pid P, parentID = some pid ∧ parent = some P ∧ s.commentRepo.get pid = some P ∧
            P.PostID = postID) ∧
        NewComment newID now postID authorID content parent = .ok nc ∧
        r = .ok { nc with CreatedAt := t1, UpdatedAt := t2 } ∧
        s1.commentRepo = s.commentRepo.set newID { nc with CreatedAt := t1, UpdatedAt := t2 } ∧
        s1.postRepo = s.postRepo ∧ s1.userRepo = s.userRepo ∧
        s1.subscribers = s.subscribers ∧
      ∀ j, liveChan s.chans j → liveChan s1.chans j := by
    intro e he
    simp only [Option.some.injEq, Prod.mk.injEq] at he
    exact Or.inl ⟨he.1.symm, e, he.2.symm⟩
  have good : ∀ (parent : Option Comment),
      ((parentID = none ∧ parent = none) ∨
        ∃ pid P, parentID = some pid ∧ parent = some P ∧ s.commentRepo.get pid = some P ∧
          P.PostID = postID) →
      (match NewComment newID now postID authorID content parent with
        | .error err => some (s, Except.error err)
        | .ok comment =>
          match CommentRepository.Create s.commentRepo t1 t2 comment with
          | .error err => some (s, .error (NewDatabaseError err))
          | .ok (comments, comment) =>
            match ({ s with commentRepo := comments } : CommentService).notifySubscribers postID
                { Type_ := "comment_created", PostID := postID, Comment := comment } with
            | none => none
            | some s2 => some (s2, .ok comment)) = some (s1, r) →
      (s1 = s ∧ ∃ e, r = .error e) ∨
      ∃ (nc : Comment) (parent : Option Comment),
        ((parentID = none ∧ parent = none) ∨
          ∃ pid P, parentID = some pid ∧ parent = some P ∧ s.commentRepo.get pid = some P ∧
            P.PostID = postID) ∧
        NewComment newID now postID authorID content parent = .ok nc ∧
        r = .ok { nc with CreatedAt := t1, UpdatedAt := t2 } ∧
        s1.commentRepo = s.commentRepo.set newID { nc with CreatedAt := t1, UpdatedAt := t2 } ∧
        s1.postRepo = s.postRepo ∧ s1.userRepo = s.userRepo ∧
        s1.subscribers = s.subscribers ∧
      ∀ j, liveChan s.chans j → liveChan s1.chans j := by
    intro parent hpar hm
    cases hnc : NewComment newID now postID authorID content parent with
    | error e =>
      rw [hnc] at hm
      exact fail e hm
    | ok nc =>
      rw [hnc] at hm
      have hid : nc.ID = newID := (NewComment_fields _ _ _ _ _ _ _ hnc).1
      simp only [CommentRepository.Create] at hm
      split at hm
      · exact absurd hm (by simp)
      · rename_i s2 hs2
        simp only [Option.some.injEq, Prod.mk.injEq] at hm
        obtain ⟨hs, hr⟩ := hm
        subst hs
        obtain ⟨f1, f2, f3, f4⟩ := notifySubscribers_frame _ _ _ _ hs2
        have f5 := notifySubscribers_live _ _ _ _ hs2
        refine Or.inr ⟨nc, parent, hpar, hnc, hr.symm, ?_, f2, f3, f4, f5⟩
        rw [f1, hid]
  unfold CommentService.CreateComment at h
  simp only [PostRepository.GetByID, UserRepository.GetByID, CommentRepository.GetByID] at h
  cases hp : s.postRepo.get postID with
  | none =>
    rw [hp] at h
    exact fail _ h
  | some post =>
    rw [hp] at h
    simp only at h
    split_ifs at h with hdis
    · exact fail _ h
    · cases ha : s.userRepo.get authorID with
      | none =>
        rw [ha] at h
        exact fail _ h
      | some author =>
        rw [ha] at h
        simp only at h
        cases parentID with
        | none =>
          simp only at h
          exact good none (Or.inl ⟨rfl, rfl⟩) h
        | some pid =>
          simp only at h
          cases hget : s.commentRepo.get pid with
          | none =>
            rw [hget] at h
            exact fail _ h
          | some P =>
            rw [hget] at h
            simp only at h
            by_cases hpost : P.PostID = postID
            · simp only [hpost, ne_eq, not_true_eq_false, if_false] at h
              exact good (some P) (Or.inr ⟨pid, P, rfl, rfl, hget, hpost⟩) h
            · simp only [ne_eq, hpost, not_false_eq_true, if_true] at h
              exact fail _ h

end services

/-! ## Claims on `CreateComment` -/

namespace services

open entities errors inmemory

theorem ToggleComments_enable (posts : GoMap Post) (now t : Time) (postID : UUID)
    (post : Post) (hp : posts.get postID = some post) (hid : post.ID = postID) :
    PostService.ToggleComments posts now t postID post.AuthorID false =
      (posts.set postID { post with CommentsDisabled := false, UpdatedAt := t }, none) := by
  subst hid
  simp [PostService.ToggleComments, PostRepository.GetByID, PostRepository.Update, hp,
    Post.EnableComments]

/-- C6: in every state in which post P exists with commentsDisabled = true,
`CreateComment` on P fails with code COMMENTS_DISABLED for every author, content and
parentID, and returns the state unchanged (comment store untouched, no event in any
stream); after the post's author has re-enabled comments through `ToggleComments`, the
same call succeeds whenever its arguments are valid (the author exists, the content is
non-blank and at most 2000 bytes, the parent, if given, is a stored comment of P) and
the streams subscribed to P are open. -/
theorem CreateComment_comments_disabled (s : CommentService) (newID : UUID)
    (now t1 t2 : Time) (postID authorID : UUID) (content : String)
    (parentID : Option UUID) (post : Post)
    (hp : s.postRepo.get postID = some post) (hd : post.CommentsDisabled = true) :
    s.CreateComment newID now t1 t2 postID authorID content parentID =
        some (s, .error NewCommentsDisabledError) ∧
      NewCommentsDisabledError.Code = ErrCommentsDisabled ∧
      ∀ (tn tu : Time) (newID1 : UUID) (now1 t3 t4 : Time) (author : User),
        post.ID = postID →
        s.userRepo.get authorID = some author →
        strings.TrimSpace content ≠ "" → len content ≤ MaxCommentLength →
        (parentID = none ∨
          ∃ pid P, parentID = some pid ∧ s.commentRepo.get pid = some P ∧
            P.PostID = postID) →
        s.liveSubscribers postID = true →
        (PostService.ToggleComments s.postRepo tn tu postID post.AuthorID false).2 = none ∧
        ∃ s2 c,
          ({ s with postRepo :=
              (PostService.ToggleComments s.postRepo tn tu postID post.AuthorID false).1 }
            : CommentService).CreateComment newID1 now1 t3 t4 postID authorID content parentID
            = some (s2, .ok c) := by
  refine ⟨?_, rfl, ?_⟩
  · simp [CommentService.CreateComment, PostRepository.GetByID, hp, hd]
  · intro tn tu newID1 now1 t3 t4 author hid ha hnb hlen hpar hlive
    rw [ToggleComments_enable s.postRepo tn tu postID post hp hid]
    refine ⟨rfl, ?_⟩
    have hpar1 : ∃ parent : Option Comment, (parentID = none ∧ parent = none) ∨
        ∃ pid P, parentID = some pid ∧ parent = some P ∧ s.commentRepo.get pid = some P ∧
          P.PostID = postID := by
      rcases hpar with hn | ⟨pid, P, h1, h2, h3⟩
      · exact ⟨none, Or.inl ⟨hn, rfl⟩⟩
      · exact ⟨some P, Or.inr ⟨pid, P, h1, rfl, h2, h3⟩⟩
    obtain ⟨parent, hpar2⟩ := hpar1
    obtain ⟨s2, nc, -, hc, -⟩ := CreateComment_success
      ({ s with postRepo :=
          s.postRepo.set postID { post with CommentsDisabled := false, UpdatedAt := tu } })
      newID1 now1 t3 t4 postID authorID content parentID
      { post with CommentsDisabled := false, UpdatedAt := tu } author parent
      (GoMap.get_set_same _ _ _) rfl ha hpar2 hnb hlen hlive
    exact ⟨s2, _, hc⟩

theorem CreateComment_comments_disabled_witness :
    testServiceDisabled.CreateComment 300 3 4 5 1 5 "Этот комментарий не должен создаться"
        none = some (testServiceDisabled, .error NewCommentsDisabledError) ∧
      ∃ s2 c,
        ({ testServiceDisabled with postRepo :=
            (PostService.ToggleComments testServiceDisabled.postRepo 6 7 1 5 false).1 }
          : CommentService).CreateComment 301 8 9 10 1 5
            "Этот комментарий не должен создаться" none = some (s2, .ok c) := by
  have h := CreateComment_comments_disabled testServiceDisabled 300 3 4 5 1 5
    "Этот комментарий не должен создаться" none { testPost with CommentsDisabled := true }
    rfl rfl
  exact ⟨h.1, (h.2.2 6 7 301 8 9 10 testUser rfl rfl (by decide) (by decide)
    (Or.inl rfl) (by decide)).2⟩

/-- C7: when the post exists with comments enabled and the author exists, `CreateComment`
with a parentID that refers to a stored comment whose postID differs from the target
postID fails with code INVALID_COMMENT_DATA and returns the state unchanged: nothing is
written to the comment store and no event is published. -/
theorem CreateComment_parent_from_different_post (s : CommentService) (newID : UUID)
    (now t1 t2 : Time) (postID authorID : UUID) (content : String) (pid : UUID)
    (post : Post) (author : User) (P : Comment)
    (hp : s.postRepo.get postID = some post) (hen : post.CommentsDisabled = false)
    (ha : s.userRepo.get authorID = some author)
    (hP : s.commentRepo.get pid = some P) (hne : P.PostID ≠ postID) :
    ∃ e, s.CreateComment newID now t1 t2 postID authorID content (some pid) =
        some (s, .error e) ∧ e.Code = ErrInvalidCommentData := by
  refine ⟨NewInvalidCommentDataError "Родительский комментарий принадлежит другому посту",
    ?_, rfl⟩
  simp [CommentService.CreateComment, PostRepository.GetByID, UserRepository.GetByID,
    CommentRepository.GetByID, hp, hen, ha, hP, hne]

theorem CreateComment_parent_from_different_post_witness :
    ∃ e, testService.CreateComment 300 3 4 5 1 5 "Test comment" (some 200) =
        some (testService, .error e) ∧ e.Code = ErrInvalidCommentData :=
  CreateComment_parent_from_different_post testService 300 3 4 5 1 5 "Test comment" 200
    testPost testUser
    { ID := 200, PostID := 9, AuthorID := 5, ParentID := none, Content := "Parent comment",
      Path := "00000000-0000-0000-0000-0000000000c8", Level := 0, CreatedAt := 2,
      UpdatedAt := 2 }
    rfl rfl rfl rfl (by decide)

/-- C8: `CreateComment` fails with POST_NOT_FOUND when the post is absent; with
USER_NOT_FOUND when the post exists with comments enabled but the author is absent; and
with COMMENT_NOT_FOUND when the post (with comments enabled) and the author exist and a
parentID is given that is not in the comment store; in each case the state is returned
unchanged, so the comment store is unchanged and no event is published. -/
theorem CreateComment_not_found (s : CommentService) (newID : UUID) (now t1 t2 : Time)
    (postID authorID : UUID) (content : String) (parentID : Option UUID) :
    (s.postRepo.get postID = none →
      ∃ e, s.CreateComment newID now t1 t2 postID authorID content parentID =
        some (s, .error e) ∧ e.Code = ErrPostNotFound) ∧
    (∀ post : Post, s.postRepo.get postID = some post → post.CommentsDisabled = false →
      s.userRepo.get authorID = none →
      ∃ e, s.CreateComment newID now t1 t2 postID authorID content parentID =
        some (s, .error e) ∧ e.Code = ErrUserNotFound) ∧
    (∀ (post : Post) (author : User) (pid : UUID),
      s.postRepo.get postID = some post → post.CommentsDisabled = false →
      s.userRepo.get authorID = some author →
      parentID = some pid → s.commentRepo.get pid = none →
      ∃ e, s.CreateComment newID now t1 t2 postID authorID content parentID =
        some (s, .error e) ∧ e.Code = ErrCommentNotFound) := by
  refine ⟨?_, ?_, ?_⟩
  · intro hp
    refine ⟨NewPostNotFoundError postID.String, ?_, rfl⟩
    simp [CommentService.CreateComment, PostRepository.GetByID, hp]
  · intro post hp hen ha
    refine ⟨NewUserNotFoundError authorID.String, ?_, rfl⟩
    simp [CommentService.CreateComment, PostRepository.GetByID, UserRepository.GetByID, hp,
      hen, ha]
  · intro post author pid hp hen ha hpid hget
    subst hpid
    refine ⟨NewCommentNotFoundError pid.String, ?_, rfl⟩
    simp [CommentService.CreateComment, PostRepository.GetByID, UserRepository.GetByID,
      CommentRepository.GetByID, hp, hen, ha, hget]

theorem CreateComment_not_found_witness :
    (∃ e, testService.CreateComment 300 3 4 5 2 5 "Test comment" none =
        some (testService, .error e) ∧ e.Code = ErrPostNotFound) ∧
    (∃ e, testService.CreateComment 300 3 4 5 1 6 "Test comment" none =
        some (testService, .error e) ∧ e.Code = ErrUserNotFound) ∧
    (∃ e, testService.CreateComment 300 3 4 5 1 5 "Test comment" (some 400) =
        some (testService, .error e) ∧ e.Code = ErrCommentNotFound) :=
  ⟨(CreateComment_not_found testService 300 3 4 5 2 5 "Test comment" none).1 rfl,
    (CreateComment_not_found testService 300 3 4 5 1 6 "Test comment" none).2.1
      testPost rfl rfl rfl,
    (CreateComment_not_found testService 300 3 4 5 1 5 "Test comment" (some 400)).2.2
      testPost testUser 400 rfl rfl rfl rfl rfl⟩

/-- C9: when the post exists with comments enabled, the author exists, the parent (if
given) is a stored comment of the same post, the content is valid, the identifier drawn
by `uuid.New()` is not yet in the store and the streams subscribed to the post are open,
`CreateComment` over the in-memory store succeeds; afterwards the store holds exactly the
previous comments, unchanged, plus the new one, and `GetCommentByID` of the new ID
returns the comment `CreateComment` returned (same ID, postID, authorID, parentID,
content, path and level). -/
theorem CreateComment_success_store (s : CommentService) (newID : UUID) (now t1 t2 : Time)
    (postID authorID : UUID) (content : String) (parentID : Option UUID)
    (post : Post) (author : User)
    (hp : s.postRepo.get postID = some post) (hen : post.CommentsDisabled = false)
    (ha : s.userRepo.get authorID = some author)
    (hpar : parentID = none ∨
      ∃ pid P, parentID = some pid ∧ s.commentRepo.get pid = some P ∧ P.PostID = postID)
    (hnb : strings.TrimSpace content ≠ "") (hlen : len content ≤ MaxCommentLength)
    (hfresh : s.commentRepo.get newID = none)
    (hlive : s.liveSubscribers postID = true) :
    ∃ s2 c, s.CreateComment newID now t1 t2 postID authorID content parentID =
        some (s2, .ok c) ∧
      c.ID = newID ∧ c.PostID = postID ∧ c.AuthorID = authorID ∧ c.Content = content ∧
      s2.commentRepo = (newID, c) :: s.commentRepo ∧
      s2.commentRepo.get newID = some c ∧
      (∀ id, id ≠ newID → s2.commentRepo.get id = s.commentRepo.get id) ∧
      (∃ g, s2.GetCommentByID newID = .ok g ∧ g.ID = c.ID ∧ g.PostID = c.PostID ∧
        g.AuthorID = c.AuthorID ∧ g.ParentID = c.ParentID ∧ g.Content = c.Content ∧
        g.Path = c.Path ∧ g.Level = c.Level) := by
  have hpar1 : ∃ parent : Option Comment, (parentID = none ∧ parent = none) ∨
      ∃ pid P, parentID = some pid ∧ parent = some P ∧ s.commentRepo.get pid = some P ∧
        P.PostID = postID := by
    rcases hpar with hn | ⟨pid, P, h1, h2, h3⟩
    · exact ⟨none, Or.inl ⟨hn, rfl⟩⟩
    · exact ⟨some P, Or.inr ⟨pid, P, h1, rfl, h2, h3⟩⟩
  obtain ⟨parent, hpar2⟩ := hpar1
  obtain ⟨s2, nc, hnc, hc, hrepo, -, -, -⟩ := CreateComment_success s newID now t1 t2 postID
    authorID content parentID post author parent hp hen ha hpar2 hnb hlen hlive
  obtain ⟨hid, hpost, hauthor, hcontent, -⟩ := NewComment_fields _ _ _ _ _ _ _ hnc
  have hstore : s2.commentRepo =
      (newID, { nc with CreatedAt := t1, UpdatedAt := t2 }) :: s.commentRepo := by
    rw [hrepo, GoMap.set, GoMap.delete_of_get_none _ _ hfresh]
  have hget : s2.commentRepo.get newID = some { nc with CreatedAt := t1, UpdatedAt := t2 } := by
    rw [hstore, GoMap.get_cons_same]
  refine ⟨s2, { nc with CreatedAt := t1, UpdatedAt := t2 }, hc, hid, hpost, hauthor, hcontent,
    hstore, hget, ?_, ?_⟩
  · intro id hne
    rw [hstore, GoMap.get_cons_ne _ _ _ _ (Ne.symm hne)]
  · refine ⟨{ nc with CreatedAt := t1, UpdatedAt := t2 }, ?_, rfl, rfl, rfl, rfl, rfl, rfl, rfl⟩
    simp [CommentService.GetCommentByID, CommentRepository.GetByID, hget]

theorem CreateComment_success_store_witness :
    ∃ s2 c, testService.CreateComment 101 3 4 5 1 5 "Ответ на первый комментарий" (some 100)
        = some (s2, .ok c) ∧
      c.ID = 101 ∧ s2.commentRepo = (101, c) :: testService.commentRepo ∧
      s2.commentRepo.get 101 = some c ∧
      ∃ g, s2.GetCommentByID 101 = .ok g ∧ g.Path = c.Path ∧ g.Level = c.Level := by
  obtain ⟨s2, c, h, hid, -, -, -, hstore, hget, -, g, hg, -, -, -, -, -, hpath, hlevel⟩ :=
    CreateComment_success_store testService 101 3 4 5 1 5 "Ответ на первый комментарий"
      (some 100) testPost testUser rfl rfl rfl
      (Or.inr ⟨100, _, rfl, rfl, rfl⟩) (by decide) (by decide) rfl (by decide)
  exact ⟨s2, c, h, hid, hstore, hget, g, hg, hpath, hlevel⟩

end services

/-! ## The path invariant of the comment store -/

namespace services

open entities errors inmemory

theorem StoreInv_of_sim (used : List UUID) (m m1 : GoMap Comment) (h : StoreInv used m)
    (hsim : ∀ id d, m1.get id = some d → ∃ c, m.get id = some c ∧ SameStructure c d) :
    StoreInv used m1 := by
  obtain ⟨ha, hb, hc, hd⟩ := h
  refine ⟨?_, ?_, ?_, ?_⟩
  · intro id d hget
    obtain ⟨c, hc1, e1, -⟩ := hsim id d hget
    rw [← e1]
    exact ha id c hc1
  · intro id d p hget hpar
    obtain ⟨c, hc1, -, -, e3, -⟩ := hsim id d hget
    exact hb id c p hc1 (e3.trans hpar)
  · intro id d hget hpar
    obtain ⟨c, hc1, e1, -, e3, e4, e5⟩ := hsim id d hget
    rw [← e1, ← e4, ← e5]
    exact hc id c hc1 (e3.trans hpar)
  · intro id d p Q hget hpar hQ
    obtain ⟨c, hc1, e1, e2, e3, e4, e5⟩ := hsim id d hget
    obtain ⟨P, hP1, -, f2, -, f4, f5⟩ := hsim p Q hQ
    rw [← e1, ← e2, ← e4, ← e5, ← f2, ← f4, ← f5]
    exact hd id c p P hc1 (e3.trans hpar) hP1

theorem get_of_get_delete {V : Type} (m : GoMap V) (k id : UUID) (v : V)
    (h : (m.delete k).get id = some v) : m.get id = some v := by
  by_cases e : id = k
  · subst e
    rw [GoMap.get_delete_same] at h
    exact Option.noConfusion h
  · rwa [GoMap.get_delete_ne _ _ _ e] at h

theorem DeleteComment_store (s s1 : CommentService) (commentID authorID : UUID)
    (r : Option AppError) (h : s.DeleteComment commentID authorID = (s1, r)) :
    s1.commentRepo = s.commentRepo ∨ s1.commentRepo = s.commentRepo.delete commentID := by
  unfold CommentService.DeleteComment at h
  simp only [CommentRepository.GetByID, CommentRepository.Delete] at h
  split at h
  · simp only [Prod.mk.injEq] at h
    exact Or.inl (by rw [← h.1])
  · simp only [Prod.mk.injEq] at h
    exact Or.inl (by rw [← h.1])
  · split_ifs at h
    · simp only [Prod.mk.injEq] at h
      exact Or.inl (by rw [← h.1])
    · simp only [Prod.mk.injEq] at h
      exact Or.inr (by rw [← h.1])

theorem UpdateComment_store (s s1 : CommentService) (now : Time) (commentID authorID : UUID)
    (content : String) (r : Except AppError Comment)
    (h : s.UpdateComment now commentID authorID content = (s1, r)) :
    s1.commentRepo = s.commentRepo ∨
      ∃ c, s.commentRepo.get commentID = some c ∧
        s1.commentRepo =
          s.commentRepo.set c.ID { c with Content := content, UpdatedAt := now } := by
  unfold CommentService.UpdateComment at h
  simp only [CommentRepository.GetByID, CommentRepository.Update] at h
  split_ifs at h with h1 h2
  · simp only [Prod.mk.injEq] at h
    exact Or.inl (by rw [← h.1])
  · simp only [Prod.mk.injEq] at h
    exact Or.inl (by rw [← h.1])
  · cases hget : s.commentRepo.get commentID with
    | none =>
      rw [hget] at h
      simp only [Prod.mk.injEq] at h
      exact Or.inl (by rw [← h.1])
    | some c =>
      rw [hget] at h
      simp only at h
      split_ifs at h with h3
      · simp only [Prod.mk.injEq] at h
        exact Or.inl (by rw [← h.1])
      · cases hold : s.commentRepo.get c.ID with
        | none =>
          rw [hold] at h
          simp only [Prod.mk.injEq] at h
          exact Or.inl (by rw [← h.1])
        | some old =>
          rw [hold] at h
          simp only [Prod.mk.injEq] at h
          exact Or.inr ⟨c, rfl, by rw [← h.1]⟩

end services

namespace services

open entities errors inmemory

theorem NewComment_level (newID : UUID) (now : Time) (postID authorID : UUID)
    (content : String) (parent : Option Comment) (c : Comment)
    (h : NewComment newID now postID authorID content parent = .ok c)
    (hb : ∀ P, parent = some P → 0 ≤ P.Level ∧ P.Level + 1 < 2 ^ 63) :
    c.Level = parent.elim 0 (fun p => p.Level + 1) := by
  have hl := (NewComment_fields _ _ _ _ _ _ _ h).2.2.2.2.2.2.2.1
  cases parent with
  | none => exact hl
  | some P =>
    obtain ⟨h1, h2⟩ := hb P rfl
    simp only [Option.elim] at hl ⊢
    rw [hl]
    exact wrapInt_eq _ (by omega) h2

theorem Reachable_level_bound (used : List UUID) (s : CommentService) (h : Reachable used s) :
    ∀ id c, s.commentRepo.get id = some c → 0 ≤ c.Level ∧ c.Level < (used.length : Int) := by
  induction h with
  | init s h =>
    intro id c hc
    rw [h] at hc
    simp [GoMap.get] at hc
  | create used s s1 newID now t1 t2 postID authorID content parentID r hs hfresh hcap h ih =>
    have hmono : ∀ id c, s.commentRepo.get id = some c →
        0 ≤ c.Level ∧ c.Level < ((newID :: used).length : Int) := by
      intro id c hc
      have := ih id c hc
      rw [List.length_cons]
      push_cast
      omega
    rcases CreateComment_inv _ _ _ _ _ _ _ _ _ _ _ h with ⟨e, -⟩ |
      ⟨nc, parent, hpar, hnc, -, hrepo, -⟩
    · rw [e]
      exact hmono
    · intro id c hc
      rw [hrepo] at hc
      by_cases e : id = newID
      · subst e
        rw [GoMap.get_set_same] at hc
        simp only [Option.some.injEq] at hc
        subst hc
        have hcap1 : (used.length : Int) < 2 ^ 63 := by exact_mod_cast hcap
        simp only
        rw [List.length_cons]
        push_cast
        rcases hpar with ⟨-, hp⟩ | ⟨pid, P, -, hp, hget, -⟩
        · have hlev := NewComment_level _ _ _ _ _ _ _ hnc (by
            intro P hP
            rw [hp] at hP
            exact Option.noConfusion hP)
          rw [hlev, hp]
          simp only [Option.elim]
          omega
        · have hP := ih pid P hget
          have hlev := NewComment_level _ _ _ _ _ _ _ hnc (by
            intro Q hQ
            rw [hp] at hQ
            rw [← Option.some.inj hQ]
            omega)
          rw [hlev, hp]
          simp only [Option.elim]
          omega
      · rw [GoMap.get_set_ne _ _ _ _ e] at hc
        exact hmono id c hc
  | update used s s1 now commentID authorID content r hs h ih =>
    rcases UpdateComment_store _ _ _ _ _ _ _ h with e | ⟨c0, hc0, e⟩
    · rw [e]
      exact ih
    · intro id c hc
      rw [e] at hc
      by_cases e1 : id = c0.ID
      · subst e1
        rw [GoMap.get_set_same] at hc
        simp only [Option.some.injEq] at hc
        subst hc
        exact ih commentID c0 hc0
      · rw [GoMap.get_set_ne _ _ _ _ e1] at hc
        exact ih id c hc
  | delete used s s1 commentID authorID r hs h ih =>
    rcases DeleteComment_store _ _ _ _ _ h with e | e
    · rw [e]
      exact ih
    · intro id c hc
      rw [e] at hc
      exact ih id c (get_of_get_delete _ _ _ _ hc)
  | other used s s1 hs h ih =>
    rw [h]
    exact ih

theorem StoreInv_mono (used : List UUID) (x : UUID) (m : GoMap Comment)
    (h : StoreInv used m) : StoreInv (x :: used) m := by
  obtain ⟨ha, hb, hc, hd⟩ := h
  exact ⟨fun id c hg => ⟨(ha id c hg).1, List.mem_cons_of_mem _ (ha id c hg).2⟩,
    fun id c p hg hp => List.mem_cons_of_mem _ (hb id c p hg hp), hc, hd⟩

theorem StoreInv_create (used : List UUID) (m : GoMap Comment) (newID : UUID) (now t1 t2 : Time)
    (postID authorID : UUID) (content : String) (parentID : Option UUID)
    (parent : Option Comment) (nc : Comment) (h : StoreInv used m) (hfresh : newID ∉ used)
    (hpar : (parentID = none ∧ parent = none) ∨
      ∃ pid P, parentID = some pid ∧ parent = some P ∧ m.get pid = some P ∧
        P.PostID = postID)
    (hnc : NewComment newID now postID authorID content parent = .ok nc)
    (hbound : ∀ P, parent = some P → 0 ≤ P.Level ∧ P.Level + 1 < 2 ^ 63) :
    StoreInv (newID :: used) (m.set newID { nc with CreatedAt := t1, UpdatedAt := t2 }) := by
  obtain ⟨ha, hb, hc, hd⟩ := h
  obtain ⟨hid, hpost, -, -, -, -, hparent, -, hpath⟩ := NewComment_fields _ _ _ _ _ _ _ hnc
  have hlevel := NewComment_level _ _ _ _ _ _ _ hnc hbound
  have hstored : ∀ id c, m.get id = some c → id ≠ newID := by
    intro id c hg e
    exact hfresh (e ▸ (ha id c hg).2)
  have hlook : ∀ id d, (m.set newID { nc with CreatedAt := t1, UpdatedAt := t2 }).get id = some d →
      (newID = id ∧ d = { nc with CreatedAt := t1, UpdatedAt := t2 }) ∨
        (id ≠ newID ∧ m.get id = some d) := by
    intro id d hg
    by_cases e : id = newID
    · rw [e, GoMap.get_set_same] at hg
      exact Or.inl ⟨e.symm, (Option.some.inj hg).symm⟩
    · rw [GoMap.get_set_ne _ _ _ _ e] at hg
      exact Or.inr ⟨e, hg⟩
  have hparentUsed : ∀ p, nc.ParentID = some p → p ∈ used ∧ ∃ P, parent = some P ∧
      m.get p = some P ∧ P.ID = p ∧ P.PostID = postID := by
    intro p hp
    rcases hpar with ⟨-, h2⟩ | ⟨pid, P, -, h2, h3, h4⟩
    · rw [hparent, h2] at hp
      exact Option.noConfusion hp
    · rw [hparent, h2] at hp
      simp only [Option.map_some', Option.some.injEq] at hp
      obtain ⟨k1, k2⟩ := ha pid P h3
      rw [k1] at hp
      subst hp
      exact ⟨k2, P, h2, h3, k1, h4⟩
  refine ⟨?_, ?_, ?_, ?_⟩
  · intro id d hg
    rcases hlook id d hg with ⟨e1, e2⟩ | ⟨-, hg1⟩
    · subst e1 e2
      exact ⟨hid, List.mem_cons_self _ _⟩
    · exact ⟨(ha id d hg1).1, List.mem_cons_of_mem _ (ha id d hg1).2⟩
  · intro id d p hg hp
    rcases hlook id d hg with ⟨e1, e2⟩ | ⟨-, hg1⟩
    · subst e1 e2
      exact List.mem_cons_of_mem _ (hparentUsed p hp).1
    · exact List.mem_cons_of_mem _ (hb id d p hg1 hp)
  · intro id d hg hp
    rcases hlook id d hg with ⟨e1, e2⟩ | ⟨-, hg1⟩
    · subst e1 e2
      simp only at hp ⊢
      rw [hparent] at hp
      cases parent with
      | none =>
        rw [hlevel, hpath, hid]
        exact ⟨rfl, rfl⟩
      | some P => exact Option.noConfusion hp
    · exact hc id d hg1 hp
  · intro id d p Q hg hp hQ
    rcases hlook id d hg with ⟨e1, e2⟩ | ⟨-, hg1⟩
    · subst e1 e2
      simp only at hp ⊢
      obtain ⟨hu, P, hP1, hP2, hP3, hP4⟩ := hparentUsed p hp
      have hne : p ≠ newID := fun e => hfresh (e ▸ hu)
      rw [GoMap.get_set_ne _ _ _ _ hne, hP2] at hQ
      have hPQ : P = Q := Option.some.inj hQ
      subst hPQ
      subst hP1
      simp only [Option.elim] at hlevel hpath
      rw [hlevel, hpath, hpost, hid]
      exact ⟨hP4, rfl, rfl⟩
    · have hu := hb id d p hg1 hp
      have hne : p ≠ newID := fun e => hfresh (e ▸ hu)
      rw [GoMap.get_set_ne _ _ _ _ hne] at hQ
      exact hd id d p Q hg1 hp hQ

theorem StoreInv_update (used : List UUID) (m : GoMap Comment) (id : UUID) (c : Comment)
    (content : String) (now : Time) (h : StoreInv used m) (hget : m.get id = some c) :
    StoreInv used (m.set c.ID { c with Content := content, UpdatedAt := now }) := by
  have hcid : c.ID = id := (h.1 id c hget).1
  refine StoreInv_of_sim used m _ h ?_
  intro x d hx
  by_cases e : x = c.ID
  · subst e
    rw [GoMap.get_set_same] at hx
    have hd : d = { c with Content := content, UpdatedAt := now } := (Option.some.inj hx).symm
    subst hd
    refine ⟨c, ?_, rfl, rfl, rfl, rfl, rfl⟩
    rw [hcid]
    exact hget
  · rw [GoMap.get_set_ne _ _ _ _ e] at hx
    exact ⟨d, hx, rfl, rfl, rfl, rfl, rfl⟩

theorem Reachable_StoreInv (used : List UUID) (s : CommentService) (h : Reachable used s) :
    StoreInv used s.commentRepo := by
  induction h with
  | init s h =>
    rw [h]
    refine ⟨?_, ?_, ?_, ?_⟩ <;> intros <;> simp_all [GoMap.get]
  | create used s s1 newID now t1 t2 postID authorID content parentID r hs hfresh hcap h ih =>
    rcases CreateComment_inv _ _ _ _ _ _ _ _ _ _ _ h with ⟨e, -⟩ |
      ⟨nc, parent, hpar, hnc, -, hrepo, -⟩
    · rw [e]
      exact StoreInv_mono _ _ _ ih
    · rw [hrepo]
      refine StoreInv_create used s.commentRepo newID now t1 t2 postID authorID content
        parentID parent nc ih hfresh hpar hnc ?_
      intro P hP
      have hcap1 : (used.length : Int) < 2 ^ 63 := by exact_mod_cast hcap
      rcases hpar with ⟨-, hp⟩ | ⟨pid, Q, -, hp, hget, -⟩
      · rw [hp] at hP
        exact Option.noConfusion hP
      · rw [hp] at hP
        rw [← Option.some.inj hP]
        have := Reachable_level_bound used s hs pid Q hget
        omega
  | update used s s1 now commentID authorID content r hs h ih =>
    rcases UpdateComment_store _ _ _ _ _ _ _ h with e | ⟨c, hget, e⟩
    · rw [e]
      exact ih
    · rw [e]
      exact StoreInv_update used _ commentID c content now ih hget
  | delete used s s1 commentID authorID r hs h ih =>
    rcases DeleteComment_store _ _ _ _ _ h with e | e
    · rw [e]
      exact ih
    · rw [e]
      exact StoreInv_of_sim used _ _ ih
        (fun id d hd => ⟨d, get_of_get_delete _ _ _ _ hd, rfl, rfl, rfl, rfl, rfl⟩)
  | other used s s1 hs h ih =>
    rw [h]
    exact ih

end services

namespace GoMap

theorem keys_delete {V : Type} (m : GoMap V) (k : UUID) :
    (m.delete k).keys = m.keys.filter (fun x => decide (x ≠ k)) := by
  induction m with
  | nil => rfl
  | cons kv m ih =>
    obtain ⟨k1, v1⟩ := kv
    by_cases h : k1 = k
    · subst h
      rw [delete_cons_same, ih]
      simp [keys, List.filter_cons]
    · rw [delete_cons_ne _ _ _ _ h]
      simp only [keys, List.map_cons] at ih ⊢
      rw [ih]
      simp [List.filter_cons, h]

theorem nodup_keys_delete {V : Type} (m : GoMap V) (k : UUID) (h : m.keys.Nodup) :
    (m.delete k).keys.Nodup := by
  rw [keys_delete]
  exact h.filter _

theorem nodup_keys_set {V : Type} (m : GoMap V) (k : UUID) (v : V) (h : m.keys.Nodup) :
    (m.set k v).keys.Nodup := by
  have hd := nodup_keys_delete m k h
  have hk : k ∉ (m.delete k).keys := by
    rw [keys_delete]
    simp
  simp only [set, keys, List.map_cons] at hd hk ⊢
  exact List.nodup_cons.mpr ⟨hk, hd⟩

theorem get_of_mem {V : Type} (m : GoMap V) (k : UUID) (v : V) (h : m.keys.Nodup)
    (hm : (k, v) ∈ m) : m.get k = some v := by
  induction m with
  | nil => simp at hm
  | cons kv m ih =>
    obtain ⟨k1, v1⟩ := kv
    simp only [keys, List.map_cons, List.nodup_cons] at h
    rcases List.mem_cons.mp hm with e | hm1
    · simp only [Prod.mk.injEq] at e
      rw [e.1, e.2, get_cons_same]
    · have hne : k1 ≠ k := by
        intro e
        apply h.1
        rw [e]
        exact List.mem_map.mpr ⟨(k, v), hm1, rfl⟩
      rw [get_cons_ne _ _ _ _ hne]
      exact ih h.2 hm1

end GoMap

namespace services

open entities errors inmemory

theorem Reachable_nodup_keys (used : List UUID) (s : CommentService) (h : Reachable used s) :
    s.commentRepo.keys.Nodup := by
  induction h with
  | init s h =>
    rw [h]
    exact List.nodup_nil
  | create used s s1 newID now t1 t2 postID authorID content parentID r hs hfresh hcap h ih =>
    rcases CreateComment_inv _ _ _ _ _ _ _ _ _ _ _ h with ⟨e, -⟩ |
      ⟨nc, parent, -, -, -, hrepo, -⟩
    · rw [e]
      exact ih
    · rw [hrepo]
      exact GoMap.nodup_keys_set _ _ _ ih
  | update used s s1 now commentID authorID content r hs h ih =>
    rcases UpdateComment_store _ _ _ _ _ _ _ h with e | ⟨c, -, e⟩
    · rw [e]
      exact ih
    · rw [e]
      exact GoMap.nodup_keys_set _ _ _ ih
  | delete used s s1 commentID authorID r hs h ih =>
    rcases DeleteComment_store _ _ _ _ _ h with e | e
    · rw [e]
      exact ih
    · rw [e]
      exact GoMap.nodup_keys_delete _ _ ih
  | other used s s1 hs h ih =>
    rw [h]
    exact ih

/-- C10: in every state reachable from the empty comment store through `CreateComment`,
`UpdateComment` and `DeleteComment`, every stored comment without a parentID has level 0
and path = its own ID, and every stored comment with a parentID whose parent is still
stored has the parent's postID, level = parent.level + 1 and
path = parent.path + "/" + its own ID. -/
theorem Reachable_path_invariant (used : List UUID) (s : CommentService)
    (h : Reachable used s) (id : UUID) (c : Comment) (hc : (id, c) ∈ s.commentRepo) :
    (c.ParentID = none → c.Level = 0 ∧ c.Path = c.ID.String) ∧
    (∀ (p : UUID) (P : Comment), c.ParentID = some p → (p, P) ∈ s.commentRepo →
      P.PostID = c.PostID ∧ c.Level = P.Level + 1 ∧
        c.Path = P.Path ++ "/" ++ c.ID.String) := by
  have hn := Reachable_nodup_keys used s h
  obtain ⟨-, -, hroot, hreply⟩ := Reachable_StoreInv used s h
  have hget := GoMap.get_of_mem _ _ _ hn hc
  exact ⟨hroot id c hget,
    fun p P hp hP => hreply id c p P hget hp (GoMap.get_of_mem _ _ _ hn hP)⟩

theorem Reachable_path_invariant_witness :
    ∃ (s : CommentService) (c P : Comment), Reachable [101, 100] s ∧
      (101, c) ∈ s.commentRepo ∧ (100, P) ∈ s.commentRepo ∧ c.ParentID = some 100 ∧
      P.PostID = c.PostID ∧ c.Level = P.Level + 1 ∧
      c.Path = P.Path ++ "/" ++ c.ID.String := by
  have h0 : Reachable [] testServiceEmpty := Reachable.init _ rfl
  have h1 := Reachable.create [] testServiceEmpty _ 100 1 2 3 1 5 "Root" none _ h0
    (by simp) (by decide) rfl
  have h2 := Reachable.create [100] _ _ 101 4 5 6 1 5 "Reply" (some 100) _ h1
    (by decide) (by decide) rfl
  refine ⟨_, _, _, h2, List.mem_cons_self _ _,
    List.mem_cons_of_mem _ (List.mem_cons_self _ _), rfl, ?_⟩
  exact (Reachable_path_invariant _ _ h2 101 _ (List.mem_cons_self _ _)).2 100 _ rfl
    (List.mem_cons_of_mem _ (List.mem_cons_self _ _))

end services

/-! ## The invariant of the subscriber map -/

namespace services

open entities errors inmemory

theorem set_set {V : Type} (m : GoMap V) (k : UUID) (v0 v : V) :
    (m.set k v0).set k v = m.set k v := by
  unfold GoMap.set
  rw [GoMap.delete_cons_same, GoMap.delete_of_get_none _ _ (GoMap.get_delete_same m k)]

theorem liveChan_lt (chans : List Chan) (j : Nat) (h : liveChan chans j) : j < chans.length := by
  obtain ⟨c, hc, -⟩ := h
  by_contra hn
  rw [List.getElem?_eq_none (Nat.le_of_not_lt hn)] at hc
  exact Option.noConfusion hc

theorem liveChan_append (chans : List Chan) (c : Chan) (j : Nat) (h : liveChan chans j) :
    liveChan (chans ++ [c]) j := by
  have hlt := liveChan_lt chans j h
  obtain ⟨d, hd, hcl⟩ := h
  exact ⟨d, by rw [List.getElem?_append_left hlt, hd], hcl⟩

theorem liveChan_new (chans : List Chan) (c : Chan) (hc : c.closed = false) :
    liveChan (chans ++ [c]) chans.length :=
  ⟨c, by simp, hc⟩

theorem BusInv_of_frame (s s1 : CommentService) (h : BusInv s)
    (hsub : s1.subscribers = s.subscribers)
    (hlive : ∀ j, liveChan s.chans j → liveChan s1.chans j) : BusInv s1 := by
  intro p l hl
  rw [hsub] at hl
  obtain ⟨h1, h2, h3⟩ := h p l hl
  refine ⟨h1, fun ch hch => hlive ch (h2 ch hch), ?_⟩
  intro q l1 hq hl1
  rw [hsub] at hl1
  exact h3 q l1 hq hl1

theorem BusInv_NewCommentService (commentRepo : GoMap Comment) (postRepo : GoMap Post)
    (userRepo : GoMap User) : BusInv (NewCommentService commentRepo postRepo userRepo) := by
  intro p l hl
  simp [NewCommentService, GoMap.get] at hl

theorem BusInv_liveSubscribers (s : CommentService) (h : BusInv s) (postID : UUID) :
    s.liveSubscribers postID = true := by
  rw [liveSubscribers_iff]
  intro ch hch
  cases hl : s.subscribers.get postID with
  | none =>
    rw [hl] at hch
    simp at hch
  | some l =>
    rw [hl] at hch
    exact (h postID l hl).2.1 ch hch

theorem BusInv_SubscribeToPost (s : CommentService) (postID : UUID) (h : BusInv s) :
    BusInv (s.SubscribeToPost postID).1 := by
  have hnew : ∀ l0 : List Nat, s.subscribers.get postID = some l0 ∨
      (s.subscribers.get postID = none ∧ l0 = []) →
      BusInv { s with chans := s.chans ++ [{ cap := 10, buf := [], closed := false }],
                      subscribers := s.subscribers.set postID (l0 ++ [s.chans.length]) } := by
    intro l0 hl0 p l hl
    have hold : l0.Nodup ∧ (∀ ch ∈ l0, liveChan s.chans ch) ∧
        ∀ q l1, q ≠ postID → s.subscribers.get q = some l1 → ∀ ch ∈ l0, ch ∉ l1 := by
      rcases hl0 with e | ⟨-, e⟩
      · exact h postID l0 e
      · subst e
        exact ⟨List.nodup_nil, fun _ hc => absurd hc (List.not_mem_nil _),
          fun _ _ _ _ _ hc => absurd hc (List.not_mem_nil _)⟩
    obtain ⟨o1, o2, o3⟩ := hold
    have hfreshIn : ∀ q l1, s.subscribers.get q = some l1 → s.chans.length ∉ l1 := by
      intro q l1 hq hm
      exact Nat.lt_irrefl _ (liveChan_lt _ _ ((h q l1 hq).2.1 _ hm))
    have hfresh0 : s.chans.length ∉ l0 := fun hm =>
      Nat.lt_irrefl _ (liveChan_lt _ _ (o2 _ hm))
    by_cases e : p = postID
    · subst e
      simp only [GoMap.get_set_same, Option.some.injEq] at hl
      subst hl
      refine ⟨?_, ?_, ?_⟩
      · exact List.nodup_append.mpr ⟨o1, List.nodup_singleton _, by
          intro a ha hb
          rw [List.mem_singleton] at hb
          exact hfresh0 (hb ▸ ha)⟩
      · intro ch hch
        rcases List.mem_append.mp hch with hc | hc
        · exact liveChan_append _ _ _ (o2 ch hc)
        · rw [List.mem_singleton.mp hc]
          exact liveChan_new _ _ rfl
      · intro q l1 hq hl1 ch hch
        simp only [GoMap.get_set_ne _ _ _ _ hq] at hl1
        rcases List.mem_append.mp hch with hc | hc
        · exact o3 q l1 hq hl1 ch hc
        · rw [List.mem_singleton.mp hc]
          exact hfreshIn q l1 hl1
    · simp only [GoMap.get_set_ne _ _ _ _ e] at hl
      obtain ⟨h1, h2, h3⟩ := h p l hl
      refine ⟨h1, fun ch hch => liveChan_append _ _ _ (h2 ch hch), ?_⟩
      intro q l1 hq hl1 ch hch
      by_cases e1 : q = postID
      · subst e1
        simp only [GoMap.get_set_same, Option.some.injEq] at hl1
        subst hl1
        intro hm
        rcases List.mem_append.mp hm with hc | hc
        · exact o3 p l e hl ch hc hch
        · rw [List.mem_singleton.mp hc] at hch
          exact hfreshIn p l hl hch
      · simp only [GoMap.get_set_ne _ _ _ _ e1] at hl1
        exact h3 q l1 hq hl1 ch hch
  unfold CommentService.SubscribeToPost
  cases hg : s.subscribers.get postID with
  | none =>
    have := hnew [] (Or.inr ⟨hg, rfl⟩)
    simpa [set_set, GoMap.get_set_same] using this
  | some l0 =>
    have := hnew l0 (Or.inl hg)
    simpa [hg] using this

end services

namespace services

open entities errors inmemory

theorem liveChan_closeChan (chans chans1 : List Chan) (ch j : Nat)
    (h : closeChan chans ch = some chans1) (hne : j ≠ ch) (hj : liveChan chans j) :
    liveChan chans1 j := by
  unfold closeChan at h
  split at h
  · exact absurd h (by simp)
  · split_ifs at h
    simp only [Option.some.injEq] at h
    subst h
    obtain ⟨c, hc, hcl⟩ := hj
    exact ⟨c, by simp [List.getElem?_set, Ne.symm hne, hc], hcl⟩

theorem BusInv_delete_key (s : CommentService) (k : UUID) (h : BusInv s) :
    BusInv { s with subscribers := s.subscribers.delete k } := by
  intro p l hl
  obtain ⟨h1, h2, h3⟩ := h p l (get_of_get_delete _ _ _ _ hl)
  exact ⟨h1, h2, fun q l1 hq hl1 => h3 q l1 hq (get_of_get_delete _ _ _ _ hl1)⟩

theorem BusInv_remove (s : CommentService) (postID : UUID) (ch : Nat) (l0 : List Nat)
    (chans1 : List Chan) (h : BusInv s) (hl0 : s.subscribers.get postID = some l0)
    (hmem : ch ∈ l0)
    (hclose : closeChan s.chans ch = some chans1) :
    BusInv { s with subscribers := s.subscribers.set postID (l0.erase ch),
                    chans := chans1 } := by
  obtain ⟨o1, o2, o3⟩ := h postID l0 hl0
  intro p l hl
  by_cases e : p = postID
  · subst e
    simp only [GoMap.get_set_same, Option.some.injEq] at hl
    subst hl
    refine ⟨o1.erase _, ?_, ?_⟩
    · intro x hx
      have hx1 := (List.Nodup.mem_erase_iff o1).mp hx
      exact liveChan_closeChan _ _ _ _ hclose hx1.1 (o2 x hx1.2)
    · intro q l1 hq hl1 x hx
      simp only [GoMap.get_set_ne _ _ _ _ hq] at hl1
      exact o3 q l1 hq hl1 x (List.mem_of_mem_erase hx)
  · simp only [GoMap.get_set_ne _ _ _ _ e] at hl
    obtain ⟨h1, h2, h3⟩ := h p l hl
    refine ⟨h1, ?_, ?_⟩
    · intro x hx
      by_cases ex : x = ch
      · subst ex
        exact absurd hx (o3 p l e hl x hmem)
      · exact liveChan_closeChan _ _ _ _ hclose ex (h2 x hx)
    · intro q l1 hq hl1 x hx
      by_cases e1 : q = postID
      · subst e1
        simp only [GoMap.get_set_same, Option.some.injEq] at hl1
        subst hl1
        exact fun hm => h3 q l0 hq hl0 x hx (List.mem_of_mem_erase hm)
      · simp only [GoMap.get_set_ne _ _ _ _ e1] at hl1
        exact h3 q l1 hq hl1 x hx

theorem BusInv_UnsubscribeFromPost (s s1 : CommentService) (postID : UUID) (ch : Nat)
    (h : BusInv s) (hu : s.UnsubscribeFromPost postID ch = some s1) : BusInv s1 := by
  have final : ∀ s2 : CommentService, BusInv s2 →
      (if ((s2.subscribers.get postID).getD []).length = 0 then
        some { s2 with subscribers := s2.subscribers.delete postID }
      else some s2) = some s1 → BusInv s1 := by
    intro s2 h2 he
    split_ifs at he
    · simp only [Option.some.injEq] at he
      rw [← he]
      exact BusInv_delete_key s2 postID h2
    · simp only [Option.some.injEq] at he
      rw [← he]
      exact h2
  unfold CommentService.UnsubscribeFromPost at hu
  simp only at hu
  by_cases hm : ch ∈ (s.subscribers.get postID).getD []
  · rw [if_pos hm] at hu
    cases hc : closeChan s.chans ch with
    | none =>
      rw [hc] at hu
      exact absurd hu (by simp)
    | some chans1 =>
      rw [hc] at hu
      cases hl : s.subscribers.get postID with
      | none =>
        rw [hl] at hm
        simp at hm
      | some l0 =>
        rw [hl] at hm hu
        simp only [Option.getD_some] at hm hu
        exact final _ (BusInv_remove s postID ch l0 chans1 h hl hm hc) hu
  · rw [if_neg hm] at hu
    exact final s h hu

theorem BusInv_CreateComment (s s1 : CommentService) (newID : UUID) (now t1 t2 : Time)
    (postID authorID : UUID) (content : String) (parentID : Option UUID)
    (r : Except AppError Comment) (h : BusInv s)
    (hc : s.CreateComment newID now t1 t2 postID authorID content parentID = some (s1, r)) :
    BusInv s1 := by
  rcases CreateComment_inv _ _ _ _ _ _ _ _ _ _ _ hc with ⟨e, -⟩ |
    ⟨nc, parent, -, -, -, -, -, -, hsub, hlive⟩
  · rw [e]
    exact h
  · exact BusInv_of_frame s s1 h hsub hlive

end services

/-! ## Claims on `UpdateComment` and `DeleteComment` -/

namespace services

open entities errors inmemory

theorem UpdateComment_invalid_content (s : CommentService) (now : Time)
    (commentID authorID : UUID) (content : String) :
    (strings.TrimSpace content = "" →
      s.UpdateComment now commentID authorID content = (s, .error NewCommentEmptyError)) ∧
    (strings.TrimSpace content ≠ "" → len content > MaxCommentLength →
      s.UpdateComment now commentID authorID content =
        (s, .error (NewCommentTooLongError MaxCommentLength))) := by
  unfold CommentService.UpdateComment
  refine ⟨fun h => ?_, fun h1 h2 => ?_⟩
  · rw [if_pos h]
  · rw [if_neg h1, if_pos h2]

theorem UpdateComment_valid_content (s : CommentService) (now : Time)
    (commentID authorID : UUID) (content : String) (c : Comment)
    (hc : s.commentRepo.get commentID = some c)
    (hnb : strings.TrimSpace content ≠ "") (hlen : len content ≤ MaxCommentLength) :
    s.UpdateComment now commentID authorID content =
      if c.AuthorID ≠ authorID then (s, .error (NewCommentAccessDeniedError commentID.String))
      else
        match CommentRepository.Update s.commentRepo now { c with Content := content } with
        | .error err => (s, .error (NewDatabaseError err))
        | .ok (comments, comment) => ({ s with commentRepo := comments }, .ok comment) := by
  unfold CommentService.UpdateComment
  rw [if_neg hnb, if_neg (Nat.not_lt.mpr hlen)]
  simp only [CommentRepository.GetByID, hc]

theorem NewComment_long (newID : UUID) (t : Time) (postID authorID : UUID)
    (content : String) (parent : Option Comment) (hl : len content > MaxCommentLength) :
    NewComment newID t postID authorID content parent =
      .error (NewCommentTooLongError MaxCommentLength) := by
  unfold NewComment
  rw [if_pos hl]

theorem NewComment_blank_short (newID : UUID) (t : Time) (postID authorID : UUID)
    (content : String) (parent : Option Comment) (hb : strings.TrimSpace content = "")
    (hl : len content ≤ MaxCommentLength) :
    NewComment newID t postID authorID content parent = .error NewCommentEmptyError := by
  unfold NewComment
  rw [if_neg (Nat.not_lt.mpr hl), if_pos hb]

theorem UpdateComment_by_author (s : CommentService) (now : Time) (content : String)
    (c : Comment) (hc : s.commentRepo.get c.ID = some c)
    (hnb : strings.TrimSpace content ≠ "") (hlen : len content ≤ MaxCommentLength) :
    s.UpdateComment now c.ID c.AuthorID content =
      ({ s with commentRepo :=
          s.commentRepo.set c.ID { c with Content := content, UpdatedAt := now } },
        .ok { c with Content := content, UpdatedAt := now }) := by
  rw [UpdateComment_valid_content s now c.ID c.AuthorID content c hc hnb hlen]
  simp [CommentRepository.Update, hc]

/-- C11 fails as stated: the stored comment 100 belongs to user 5, yet `UpdateComment`
called by user 6 with an empty content fails with COMMENT_EMPTY, not with
COMMENT_ACCESS_DENIED. -/
theorem UpdateComment_access_denied_counterexample :
    testService.commentRepo.get 100 ≠ none ∧
      (testService.commentRepo.get 100).map (fun c => c.AuthorID) ≠ some 6 ∧
      testService.UpdateComment 9 100 6 "" = (testService, .error NewCommentEmptyError) ∧
      NewCommentEmptyError.Code ≠ ErrCommentAccessDenied := by
  refine ⟨by decide, by decide, rfl, by decide⟩

/-- C11, amended: for every stored comment c and every requester different from
c.authorID, `UpdateComment` fails for every content string and returns the state
unchanged (the stored comment and the rest of the store are as before); the error code
is COMMENT_ACCESS_DENIED whenever the content is valid (non-blank, at most 2000 bytes);
an invalid content is rejected by the content guards, which run first, with
COMMENT_EMPTY or COMMENT_TOO_LONG. -/
theorem UpdateComment_access_denied (s : CommentService) (now : Time) (id requester : UUID)
    (content : String) (c : Comment) (hc : s.commentRepo.get id = some c)
    (hne : requester ≠ c.AuthorID) :
    (∃ e, s.UpdateComment now id requester content = (s, .error e)) ∧
    (strings.TrimSpace content ≠ "" → len content ≤ MaxCommentLength →
      ∃ e, s.UpdateComment now id requester content = (s, .error e) ∧
        e.Code = ErrCommentAccessDenied) ∧
    (¬ (strings.TrimSpace content ≠ "" ∧ len content ≤ MaxCommentLength) →
      ∃ e, s.UpdateComment now id requester content = (s, .error e) ∧
        (e.Code = ErrCommentEmpty ∨ e.Code = ErrCommentTooLong)) := by
  have hvalid : strings.TrimSpace content ≠ "" → len content ≤ MaxCommentLength →
      ∃ e, s.UpdateComment now id requester content = (s, .error e) ∧
        e.Code = ErrCommentAccessDenied := by
    intro hnb hlen
    rw [UpdateComment_valid_content s now id requester content c hc hnb hlen,
      if_pos (Ne.symm hne)]
    exact ⟨_, rfl, rfl⟩
  have hinvalid : ¬ (strings.TrimSpace content ≠ "" ∧ len content ≤ MaxCommentLength) →
      ∃ e, s.UpdateComment now id requester content = (s, .error e) ∧
        (e.Code = ErrCommentEmpty ∨ e.Code = ErrCommentTooLong) := by
    intro h
    by_cases hb : strings.TrimSpace content = ""
    · exact ⟨_, (UpdateComment_invalid_content s now id requester content).1 hb, Or.inl rfl⟩
    · have hl : len content > MaxCommentLength := by
        by_contra hn
        exact h ⟨hb, Nat.le_of_not_lt hn⟩
      exact ⟨_, (UpdateComment_invalid_content s now id requester content).2 hb hl,
        Or.inr rfl⟩
  refine ⟨?_, hvalid, hinvalid⟩
  by_cases hv : strings.TrimSpace content ≠ "" ∧ len content ≤ MaxCommentLength
  · obtain ⟨e, he, -⟩ := hvalid hv.1 hv.2
    exact ⟨e, he⟩
  · obtain ⟨e, he, -⟩ := hinvalid hv
    exact ⟨e, he⟩

theorem UpdateComment_access_denied_witness :
    ∃ e, testService.UpdateComment 9 100 6 "Updated content" = (testService, .error e) ∧
      e.Code = ErrCommentAccessDenied :=
  (UpdateComment_access_denied testService 9 100 6 "Updated content"
    { ID := 100, PostID := 1, AuthorID := 5, ParentID := none, Content := "Root",
      Path := "00000000-0000-0000-0000-000000000064", Level := 0, CreatedAt := 1,
      UpdatedAt := 1 } rfl (by decide)).2.1 (by decide) (by decide)

/-- C12: for every stored comment c and every requester different from c.authorID,
`DeleteComment` fails with code COMMENT_ACCESS_DENIED and returns the state unchanged:
the comment store is as before and c is still stored with identical fields. -/
theorem DeleteComment_access_denied (s : CommentService) (id requester : UUID) (c : Comment)
    (hc : s.commentRepo.get id = some c) (hne : requester ≠ c.AuthorID) :
    (∃ e, s.DeleteComment id requester = (s, some e) ∧ e.Code = ErrCommentAccessDenied) ∧
      (s.DeleteComment id requester).1.commentRepo = s.commentRepo ∧
      (s.DeleteComment id requester).1.commentRepo.get id = some c := by
  have h : s.DeleteComment id requester =
      (s, some (NewCommentAccessDeniedError id.String)) := by
    simp [CommentService.DeleteComment, CommentRepository.GetByID, hc, Ne.symm hne]
  rw [h]
  exact ⟨⟨_, rfl, rfl⟩, rfl, hc⟩

theorem DeleteComment_access_denied_witness :
    ∃ e, testService.DeleteComment 100 6 = (testService, some e) ∧
      e.Code = ErrCommentAccessDenied :=
  (DeleteComment_access_denied testService 100 6
    { ID := 100, PostID := 1, AuthorID := 5, ParentID := none, Content := "Root",
      Path := "00000000-0000-0000-0000-000000000064", Level := 0, CreatedAt := 1,
      UpdatedAt := 1 } rfl (by decide)).1

/-- C13: for every stored comment c and every valid content, `UpdateComment` called by
c's author succeeds; afterwards the comment stored under that ID has Content = content
and the same ID, postID, authorID, parentID, path, level and createdAt as before, and
every other stored comment is unchanged. -/
theorem UpdateComment_success (s : CommentService) (now : Time) (content : String)
    (c : Comment) (hc : s.commentRepo.get c.ID = some c)
    (hnb : strings.TrimSpace content ≠ "") (hlen : len content ≤ MaxCommentLength) :
    ∃ s1 c1, s.UpdateComment now c.ID c.AuthorID content = (s1, .ok c1) ∧
      s1.commentRepo.get c.ID = some c1 ∧
      c1.Content = content ∧ c1.ID = c.ID ∧ c1.PostID = c.PostID ∧
      c1.AuthorID = c.AuthorID ∧ c1.ParentID = c.ParentID ∧ c1.Path = c.Path ∧
      c1.Level = c.Level ∧ c1.CreatedAt = c.CreatedAt ∧
      (∀ id, id ≠ c.ID → s1.commentRepo.get id = s.commentRepo.get id) ∧
      s1.postRepo = s.postRepo ∧ s1.userRepo = s.userRepo := by
  refine ⟨{ s with commentRepo :=
      s.commentRepo.set c.ID { c with Content := content, UpdatedAt := now } },
    { c with Content := content, UpdatedAt := now }, ?_, ?_, rfl, rfl, rfl, rfl, rfl, rfl,
    rfl, rfl, ?_, rfl, rfl⟩
  · exact UpdateComment_by_author s now content c hc hnb hlen
  · exact GoMap.get_set_same _ _ _
  · intro id hne
    exact GoMap.get_set_ne _ _ _ _ hne

theorem UpdateComment_success_witness :
    ∃ s1 c1, testService.UpdateComment 9 100 5 "Обновленный первый комментарий" = (s1, .ok c1) ∧
      c1.Content = "Обновленный первый комментарий" ∧
      c1.Path = "00000000-0000-0000-0000-000000000064" ∧
      s1.commentRepo.get 200 = testService.commentRepo.get 200 := by
  obtain ⟨s1, c1, h, -, h1, -, -, -, -, h2, -, -, h3, -⟩ :=
    UpdateComment_success testService 9 "Обновленный первый комментарий"
      { ID := 100, PostID := 1, AuthorID := 5, ParentID := none, Content := "Root",
        Path := "00000000-0000-0000-0000-000000000064", Level := 0, CreatedAt := 1,
        UpdatedAt := 1 } rfl (by decide) (by decide)
  exact ⟨s1, c1, h, h1, h2, h3 200 (by decide)⟩

/-- C14 fails as stated: 2001 spaces are rejected by `UpdateComment` (called by the
author of the stored comment 100) with COMMENT_EMPTY and by `NewComment` with
COMMENT_TOO_LONG. -/
theorem UpdateComment_same_rules_counterexample :
    testService.UpdateComment 9 100 5 (strings.Repeat ' ' 2001) =
        (testService, .error NewCommentEmptyError) ∧
      NewComment 1 0 1 5 (strings.Repeat ' ' 2001) none =
        .error (NewCommentTooLongError MaxCommentLength) ∧
      NewCommentEmptyError.Code ≠ (NewCommentTooLongError MaxCommentLength).Code := by
  have hlen : len (strings.Repeat ' ' 2001) > MaxCommentLength := by
    rw [len_Repeat, show (' ' : Char).utf8Size = 1 by decide]
    norm_num [MaxCommentLength]
  exact ⟨(UpdateComment_invalid_content _ _ _ _ _).1
    (TrimSpace_Repeat_space _ _ (by decide)), NewComment_long _ _ _ _ _ _ hlen, by decide⟩

/-- C14, amended: `UpdateComment` called by the author of a stored comment rejects a
content exactly when `NewComment` rejects it; both return the same error (COMMENT_EMPTY
or COMMENT_TOO_LONG) unless the content is both blank after trimming and longer than
2000 bytes, where `UpdateComment`, which tests blankness first, returns COMMENT_EMPTY
and `NewComment`, which tests the length first, returns COMMENT_TOO_LONG. -/
theorem UpdateComment_same_rules (s : CommentService) (now : Time) (content : String)
    (c : Comment) (hc : s.commentRepo.get c.ID = some c)
    (newID : UUID) (t : Time) (postID authorID : UUID) (parent : Option Comment) :
    ((∃ e, (s.UpdateComment now c.ID c.AuthorID content).2 = .error e) ↔
      (∃ e, NewComment newID t postID authorID content parent = .error e)) ∧
    (¬ (strings.TrimSpace content = "" ∧ len content > MaxCommentLength) →
      ∀ e1 e2, (s.UpdateComment now c.ID c.AuthorID content).2 = .error e1 →
        NewComment newID t postID authorID content parent = .error e2 →
        e1 = e2 ∧ (e1.Code = ErrCommentEmpty ∨ e1.Code = ErrCommentTooLong)) ∧
    (strings.TrimSpace content = "" → len content > MaxCommentLength →
      (s.UpdateComment now c.ID c.AuthorID content).2 = .error NewCommentEmptyError ∧
      NewComment newID t postID authorID content parent =
        .error (NewCommentTooLongError MaxCommentLength)) := by
  by_cases hb : strings.TrimSpace content = ""
  · have hu := (UpdateComment_invalid_content s now c.ID c.AuthorID content).1 hb
    by_cases hl : len content > MaxCommentLength
    · have hn := NewComment_long newID t postID authorID content parent hl
      rw [hu, hn]
      exact ⟨⟨fun _ => ⟨_, rfl⟩, fun _ => ⟨_, rfl⟩⟩, fun h => absurd ⟨hb, hl⟩ h,
        fun _ _ => ⟨rfl, rfl⟩⟩
    · have hn := NewComment_blank_short newID t postID authorID content parent hb
        (Nat.le_of_not_lt hl)
      rw [hu, hn]
      refine ⟨⟨fun _ => ⟨_, rfl⟩, fun _ => ⟨_, rfl⟩⟩, ?_, fun _ h => absurd h hl⟩
      intro _ e1 e2 h1 h2
      simp only [Except.error.injEq] at h1 h2
      rw [← h1, ← h2]
      exact ⟨rfl, Or.inl rfl⟩
  · by_cases hl : len content > MaxCommentLength
    · have hu := (UpdateComment_invalid_content s now c.ID c.AuthorID content).2 hb hl
      have hn := NewComment_long newID t postID authorID content parent hl
      rw [hu, hn]
      refine ⟨⟨fun _ => ⟨_, rfl⟩, fun _ => ⟨_, rfl⟩⟩, ?_, fun h => absurd h hb⟩
      intro _ e1 e2 h1 h2
      simp only [Except.error.injEq] at h1 h2
      rw [← h1, ← h2]
      exact ⟨rfl, Or.inr rfl⟩
    · have hs := UpdateComment_by_author s now content c hc hb (Nat.le_of_not_lt hl)
      obtain ⟨nc, hnc⟩ := (NewComment_ok_iff newID t postID authorID content parent).mpr
        ⟨hb, Nat.le_of_not_lt hl⟩
      rw [hs, hnc]
      refine ⟨⟨?_, ?_⟩, ?_, fun h => absurd h hb⟩
      · rintro ⟨e, he⟩
        exact Except.noConfusion he
      · rintro ⟨e, he⟩
        exact Except.noConfusion he
      · intro _ e1 e2 h1
        exact Except.noConfusion h1

theorem UpdateComment_same_rules_witness :
    (∃ e, (testService.UpdateComment 9 100 5 "   ").2 = .error e) ∧
      (∃ e, NewComment 1 0 1 5 "   " none = .error e) := by
  have h := (UpdateComment_same_rules testService 9 "   "
    { ID := 100, PostID := 1, AuthorID := 5, ParentID := none, Content := "Root",
      Path := "00000000-0000-0000-0000-000000000064", Level := 0, CreatedAt := 1,
      UpdatedAt := 1 } rfl 1 0 1 5 none).1
  have hn : ∃ e, NewComment 1 0 1 5 "   " none = .error e := ⟨_, rfl⟩
  exact ⟨h.mpr hn, hn⟩

end services

/-! ## Lemmas on slices, pagination and the list queries -/

namespace inmemory

open entities

theorem paginate_in_range (items : List Comment) (limit offset : Int) (hl : 0 ≤ limit)
    (ho : 0 ≤ offset)
    (hsum : offset + limit < 2 ^ 63 ∨ (items.length : Int) + limit < 2 ^ 63) :
    CommentRepository.paginate items { Limit := limit, Offset := offset } =
      some ((items.drop offset.toNat).take limit.toNat,
        { Total := (items.length : Int), Limit := limit, Offset := offset,
          HasMore := decide (offset + limit < (items.length : Int)) }) := by
  unfold CommentRepository.paginate
  simp only
  by_cases hge : offset ≥ (items.length : Int)
  · rw [if_pos hge]
    have hdrop : items.drop offset.toNat = [] := List.drop_eq_nil_of_le (by omega)
    have hm : decide (offset + limit < (items.length : Int)) = false := by
      simp only [decide_eq_false_iff_not]
      omega
    rw [hdrop, hm]
    simp
  · rw [if_neg hge]
    have hlt : offset < (items.length : Int) := by omega
    rw [wrapInt_eq _ (by omega) (by omega)]
    by_cases hend : offset + limit > (items.length : Int)
    · simp only [if_pos hend]
      have hs : sliceRange items offset (items.length : Int) =
          some ((items.drop offset.toNat).take ((items.length : Int) - offset).toNat) := by
        unfold sliceRange
        rw [if_pos ⟨ho, by omega, le_refl _⟩]
      rw [hs]
      have e1 : (items.drop offset.toNat).take ((items.length : Int) - offset).toNat =
          items.drop offset.toNat :=
        List.take_of_length_le (by rw [List.length_drop]; omega)
      have e2 : (items.drop offset.toNat).take limit.toNat = items.drop offset.toNat :=
        List.take_of_length_le (by rw [List.length_drop]; omega)
      have hm : decide (offset + limit < (items.length : Int)) = false := by
        simp only [decide_eq_false_iff_not]
        omega
      rw [e1, e2, hm]
      simp
    · simp only [if_neg hend]
      have hs : sliceRange items offset (offset + limit) =
          some ((items.drop offset.toNat).take (offset + limit - offset).toNat) := by
        unfold sliceRange
        rw [if_pos ⟨ho, by omega, by omega⟩]
      rw [hs]
      have e1 : offset + limit - offset = limit := by omega
      rw [e1]

theorem paginate_negative_offset (items : List Comment) (limit offset : Int)
    (ho : offset < 0) :
    CommentRepository.paginate items { Limit := limit, Offset := offset } = none := by
  unfold CommentRepository.paginate
  simp only
  have hge : ¬ offset ≥ (items.length : Int) := by omega
  rw [if_neg hge]
  have hs : ∀ hi : Int, sliceRange items offset hi = none := by
    intro hi
    unfold sliceRange
    rw [if_neg (fun h => absurd h.1 (by omega))]
  rw [hs]

theorem paginate_mem (items page : List Comment) (pagination : PaginationRequest)
    (resp : PaginationResponse)
    (h : CommentRepository.paginate items pagination = some (page, resp)) :
    page.Sublist items ∧ resp.Total = (items.length : Int) ∧
      resp.Limit = pagination.Limit ∧ resp.Offset = pagination.Offset := by
  unfold CommentRepository.paginate at h
  simp only at h
  by_cases h1 : pagination.Offset ≥ (items.length : Int)
  · rw [if_pos h1] at h
    simp only [Option.some.injEq, Prod.mk.injEq] at h
    obtain ⟨hp, hr⟩ := h
    rw [← hp, ← hr]
    exact ⟨List.nil_sublist _, rfl, rfl, rfl⟩
  · rw [if_neg h1] at h
    generalize (if wrapInt (pagination.Offset + pagination.Limit) > (items.length : Int)
      then (items.length : Int) else wrapInt (pagination.Offset + pagination.Limit)) = end2 at h
    cases hres : sliceRange items pagination.Offset end2 with
    | none =>
      rw [hres] at h
      exact absurd h (by simp)
    | some result =>
      rw [hres] at h
      simp only [Option.some.injEq, Prod.mk.injEq] at h
      obtain ⟨hp, hr⟩ := h
      rw [← hp, ← hr]
      refine ⟨?_, rfl, rfl, rfl⟩
      unfold sliceRange at hres
      split_ifs at hres
      simp only [Option.some.injEq] at hres
      rw [← hres]
      exact (List.take_sublist _ _).trans (List.drop_sublist _ _)

end inmemory

namespace GoMap

theorem mem_delete {V : Type} (m : GoMap V) (id k : UUID) (v : V) (h : (k, v) ∈ m)
    (hne : k ≠ id) : (k, v) ∈ m.delete id := by
  unfold delete
  exact List.mem_filter.mpr ⟨h, by simpa using hne⟩

theorem mem_values_of_mem {V : Type} (m : GoMap V) (k : UUID) (v : V) (h : (k, v) ∈ m) :
    v ∈ m.values :=
  List.mem_map.mpr ⟨(k, v), h, rfl⟩

theorem length_values {V : Type} (m : GoMap V) : m.values.length = m.length := by
  simp [values]

theorem length_delete_le {V : Type} (m : GoMap V) (id : UUID) :
    (m.delete id).length ≤ m.length :=
  List.length_filter_le _ _

end GoMap

namespace inmemory

open entities

theorem paginate_whole (items : List Comment) (limit : Int)
    (h1 : (items.length : Int) ≤ limit) (h2 : limit < 2 ^ 63) :
    ∃ resp, CommentRepository.paginate items { Limit := limit, Offset := 0 } =
      some (items, resp) := by
  have hp := paginate_in_range items limit 0 (by omega) (le_refl _) (Or.inl (by omega))
  simp only [Int.toNat_zero, List.drop_zero] at hp
  rw [List.take_of_length_le (by omega)] at hp
  exact ⟨_, hp⟩

theorem GetByPath_whole (S : SliceSorter Comment) (m : GoMap Comment) (pre : String)
    (limit : Int) (h1 : (m.length : Int) ≤ limit) (h2 : limit < 2 ^ 63) :
    ∃ page resp, CommentRepository.GetByPath S m pre { Limit := limit, Offset := 0 } =
        some (.ok (page, resp)) ∧
      ∀ d, d ∈ m.values → strings.HasPrefix d.Path pre = true → d ∈ page := by
  have hperm := S.perm (m.values.filter (fun comment => strings.HasPrefix comment.Path pre))
    (fun a b => decide (a.CreatedAt < b.CreatedAt))
  have hlen : (S.Slice (m.values.filter (fun comment => strings.HasPrefix comment.Path pre))
      (fun a b => decide (a.CreatedAt < b.CreatedAt))).length ≤ m.length := by
    rw [hperm.length_eq, ← GoMap.length_values]
    exact List.length_filter_le _ _
  obtain ⟨resp, hp⟩ := paginate_whole
    (S.Slice (m.values.filter (fun comment => strings.HasPrefix comment.Path pre))
      (fun a b => decide (a.CreatedAt < b.CreatedAt))) limit (by omega) h2
  refine ⟨_, resp, ?_, fun d hd hpre => hperm.mem_iff.mpr (List.mem_filter.mpr ⟨hd, hpre⟩)⟩
  unfold CommentRepository.GetByPath
  simp only
  rw [hp]

theorem GetThread_mem_delete (S : SliceSorter Comment) (m : GoMap Comment) (id ka : UUID)
    (maxDepth : Int) (before after : List Comment) (hka : ka ≠ id)
    (hb : CommentRepository.GetThread S m ka maxDepth = .ok before)
    (ha : CommentRepository.GetThread S (m.delete id) ka maxDepth = .ok after)
    (k : UUID) (d : Comment) (hd : (k, d) ∈ m) (hk : k ≠ id) (hmem : d ∈ before) :
    d ∈ after := by
  unfold CommentRepository.GetThread at hb ha
  rw [GoMap.get_delete_ne _ _ _ hka] at ha
  cases hget : m.get ka with
  | none =>
    rw [hget] at hb
    simp only [Except.ok.injEq] at hb
    rw [← hb] at hmem
    exact absurd hmem (List.not_mem_nil _)
  | some a =>
    rw [hget] at hb ha
    simp only [Except.ok.injEq] at hb ha
    rw [← hb] at hmem
    rw [← ha]
    have h1 := (S.perm _ _).mem_iff.mp hmem
    apply (S.perm _ _).mem_iff.mpr
    rcases List.mem_cons.mp h1 with e | h2
    · exact List.mem_cons.mpr (Or.inl e)
    · have h3 := List.mem_filter.mp h2
      exact List.mem_cons.mpr (Or.inr (List.mem_filter.mpr
        ⟨GoMap.mem_values_of_mem _ _ _ (GoMap.mem_delete _ _ _ _ hd hk), h3.2⟩))

end inmemory

namespace services

open entities errors inmemory

/-- C15: `DeleteComment` called by the author of a stored comment c succeeds and removes
exactly c: afterwards c.ID is absent (`Exists` is false, `GetCommentByID` fails with
COMMENT_NOT_FOUND), every other stored comment, the descendants of c included, is still
stored with identical fields, is still in the page of `GetByPath` for every prefix of its
path (c's path for a descendant) when the page is large enough for the whole store, and
is still in the result of `GetThread` of every surviving comment that returned it
before. -/
theorem DeleteComment_success (s : CommentService) (c : Comment)
    (hc : s.commentRepo.get c.ID = some c) :
    ∃ s1, s.DeleteComment c.ID c.AuthorID = (s1, none) ∧
      s1.commentRepo = s.commentRepo.delete c.ID ∧
      CommentRepository.Exists s1.commentRepo c.ID = .ok false ∧
      (∃ e, s1.GetCommentByID c.ID = .error e ∧ e.Code = ErrCommentNotFound) ∧
      (∀ id, id ≠ c.ID → s1.commentRepo.get id = s.commentRepo.get id) ∧
      (∀ k d, (k, d) ∈ s.commentRepo → k ≠ c.ID → (k, d) ∈ s1.commentRepo) ∧
      (∀ (S : SliceSorter Comment) (pre : String) (limit : Int),
        (s.commentRepo.length : Int) ≤ limit → limit < 2 ^ 63 →
        ∃ page resp, CommentRepository.GetByPath S s1.commentRepo pre
            { Limit := limit, Offset := 0 } = some (.ok (page, resp)) ∧
          ∀ k d, (k, d) ∈ s.commentRepo → k ≠ c.ID →
            strings.HasPrefix d.Path pre = true → d ∈ page) ∧
      (∀ (S : SliceSorter Comment) (ka : UUID) (maxDepth : Int) (before after : List Comment),
        ka ≠ c.ID →
        CommentRepository.GetThread S s.commentRepo ka maxDepth = .ok before →
        CommentRepository.GetThread S s1.commentRepo ka maxDepth = .ok after →
        ∀ k d, (k, d) ∈ s.commentRepo → k ≠ c.ID → d ∈ before → d ∈ after) := by
  refine ⟨{ s with commentRepo := s.commentRepo.delete c.ID }, ?_, rfl, ?_, ?_, ?_, ?_, ?_, ?_⟩
  · simp [CommentService.DeleteComment, CommentRepository.GetByID, CommentRepository.Delete, hc]
  · simp [CommentRepository.Exists, GoMap.get_delete_same]
  · refine ⟨NewCommentNotFoundError c.ID.String, ?_, rfl⟩
    simp [CommentService.GetCommentByID, CommentRepository.GetByID, GoMap.get_delete_same]
  · intro id hne
    exact GoMap.get_delete_ne _ _ _ hne
  · intro k d hd hk
    exact GoMap.mem_delete _ _ _ _ hd hk
  · intro S pre limit h1 h2
    have hle := GoMap.length_delete_le s.commentRepo c.ID
    obtain ⟨page, resp, hq, hall⟩ := GetByPath_whole S (s.commentRepo.delete c.ID) pre limit
      (by omega) h2
    exact ⟨page, resp, hq, fun k d hd hk hpre =>
      hall d (GoMap.mem_values_of_mem _ _ _ (GoMap.mem_delete _ _ _ _ hd hk)) hpre⟩
  · intro S ka maxDepth before after hka hb ha k d hd hk hmem
    exact GetThread_mem_delete S s.commentRepo c.ID ka maxDepth before after hka hb ha k d hd
      hk hmem

theorem DeleteComment_success_witness :
    ∃ s1, testThreadService.DeleteComment 101 5 = (s1, none) ∧
      s1.commentRepo.get 101 = none ∧
      (∃ after, CommentRepository.GetThread (insertionSorter Comment) s1.commentRepo 100 10
          = .ok after ∧
        after.map (fun d => d.ID) = [100, 102]) ∧
      (∃ page resp, CommentRepository.GetByPath (insertionSorter Comment) s1.commentRepo
          "00000000-0000-0000-0000-000000000064/00000000-0000-0000-0000-000000000065"
          { Limit := 10, Offset := 0 } = some (.ok (page, resp)) ∧
        page.map (fun d => d.ID) = [102]) := by
  obtain ⟨s1, h, hrepo, -, -, -, -, -, -⟩ := DeleteComment_success testThreadService
    { ID := 101, PostID := 1, AuthorID := 5, ParentID := some 100, Content := "Reply",
      Path := "00000000-0000-0000-0000-000000000064/00000000-0000-0000-0000-000000000065",
      Level := 1, CreatedAt := 2, UpdatedAt := 2 } rfl
  refine ⟨s1, h, ?_, ?_, ?_⟩
  · rw [hrepo]
    rfl
  · rw [hrepo]
    exact ⟨_, rfl, by decide⟩
  · rw [hrepo]
    exact ⟨_, _, rfl, by decide⟩

end services

/-! ## Claims on pagination and `GetByPostID` -/

namespace inmemory

open entities

theorem strictWeak_createdAt :
    StrictWeak (fun a b : Comment => decide (a.CreatedAt < b.CreatedAt)) := by
  refine ⟨?_, ?_, ?_⟩
  · intro a
    simp
  · intro a b c h1 h2
    simp only [decide_eq_true_eq] at h1 h2 ⊢
    exact Nat.lt_trans h1 h2
  · intro a b c h1 h2
    simp only [decide_eq_false_iff_not, Nat.not_lt] at h1 h2 ⊢
    exact Nat.le_trans h2 h1

theorem Slice_createdAt_sorted (S : SliceSorter Comment) (x : List Comment) :
    (S.Slice x (fun a b => decide (a.CreatedAt < b.CreatedAt))).Pairwise
      (fun a b => a.CreatedAt ≤ b.CreatedAt) := by
  refine (S.sorted x _ strictWeak_createdAt).imp ?_
  intro a b h
  simpa using h

theorem GetByPostID_eq (S : SliceSorter Comment) (m : GoMap Comment) (postID : UUID)
    (pagination : PaginationRequest) :
    CommentRepository.GetByPostID S m postID pagination =
      (CommentRepository.paginate
        (S.Slice (m.values.filter
            (fun comment => decide (comment.PostID = postID) && comment.ParentID.isNone))
          (fun a b => decide (a.CreatedAt < b.CreatedAt))) pagination).map Except.ok := by
  unfold CommentRepository.GetByPostID
  simp only
  cases CommentRepository.paginate
    (S.Slice (m.values.filter
        (fun comment => decide (comment.PostID = postID) && comment.ParentID.isNone))
      (fun a b => decide (a.CreatedAt < b.CreatedAt))) pagination <;> rfl

theorem length_roots_le (S : SliceSorter Comment) (m : GoMap Comment) (postID : UUID) :
    (S.Slice (m.values.filter
        (fun comment => decide (comment.PostID = postID) && comment.ParentID.isNone))
      (fun a b => decide (a.CreatedAt < b.CreatedAt))).length ≤ m.length := by
  rw [(S.perm _ _).length_eq, ← GoMap.length_values]
  exact List.length_filter_le _ _

end inmemory

namespace services

open entities errors inmemory

theorem GetPostComments_eq (S : SliceSorter Comment) (s : CommentService) (postID : UUID)
    (pagination : PaginationRequest) (post : Post) (hp : s.postRepo.get postID = some post) :
    s.GetPostComments S postID pagination =
      (CommentRepository.paginate
        (S.Slice (s.commentRepo.values.filter
            (fun comment => decide (comment.PostID = postID) && comment.ParentID.isNone))
          (fun a b => decide (a.CreatedAt < b.CreatedAt))) pagination).map Except.ok := by
  unfold CommentService.GetPostComments
  simp only [PostRepository.Exists, hp, Option.isSome_some]
  rw [GetByPostID_eq]
  cases CommentRepository.paginate
    (S.Slice (s.commentRepo.values.filter
        (fun comment => decide (comment.PostID = postID) && comment.ParentID.isNone))
      (fun a b => decide (a.CreatedAt < b.CreatedAt))) pagination with
  | none => rfl
  | some r =>
    obtain ⟨page, resp⟩ := r
    rfl

/-- C16: for every store state, every existing post P and every pagination request with
0 < limit ≤ 100 and offset ≥ 0, every comment returned by `GetPostComments` has parentID
absent and postID = P, and the returned page is in non-decreasing createdAt order; the
call returns such a page (the store holding fewer than 2^63 − 100 comments, as every Go
map does). -/
theorem GetPostComments_roots_in_order (S : SliceSorter Comment) (s : CommentService)
    (postID : UUID) (limit offset : Int) (post : Post)
    (hp : s.postRepo.get postID = some post)
    (hl : 0 < limit) (hl2 : limit ≤ 100) (ho : 0 ≤ offset) :
    (∀ page resp, s.GetPostComments S postID { Limit := limit, Offset := offset } =
        some (.ok (page, resp)) →
      (∀ c ∈ page, c.ParentID = none ∧ c.PostID = postID) ∧
        page.Pairwise (fun a b => a.CreatedAt ≤ b.CreatedAt)) ∧
    ((s.commentRepo.length : Int) + 100 < 2 ^ 63 →
      ∃ page resp, s.GetPostComments S postID { Limit := limit, Offset := offset } =
        some (.ok (page, resp))) := by
  rw [GetPostComments_eq S s postID _ post hp]
  refine ⟨?_, ?_⟩
  · intro page resp h
    cases hpag : CommentRepository.paginate
      (S.Slice (s.commentRepo.values.filter
          (fun comment => decide (comment.PostID = postID) && comment.ParentID.isNone))
        (fun a b => decide (a.CreatedAt < b.CreatedAt)))
      { Limit := limit, Offset := offset } with
    | none =>
      rw [hpag] at h
      exact absurd h (by simp)
    | some r =>
      rw [hpag] at h
      simp only [Option.map_some', Option.some.injEq, Except.ok.injEq] at h
      rw [h] at hpag
      have hsub := (paginate_mem _ _ _ _ hpag).1
      refine ⟨?_, (Slice_createdAt_sorted S _).sublist hsub⟩
      intro c hc
      have h1 := (S.perm _ _).mem_iff.mp (hsub.subset hc)
      have h2 := (List.mem_filter.mp h1).2
      simp only [Bool.and_eq_true, decide_eq_true_eq, Option.isNone_iff_eq_none] at h2
      exact ⟨h2.2, h2.1⟩
  · intro hsize
    have hle := length_roots_le S s.commentRepo postID
    rw [paginate_in_range _ limit offset (by omega) ho (Or.inr (by omega))]
    exact ⟨_, _, rfl⟩

theorem GetPostComments_roots_in_order_witness :
    ∃ page resp, testThreadService.GetPostComments (insertionSorter Comment) 1
        { Limit := 10, Offset := 0 } = some (.ok (page, resp)) ∧
      (∀ c ∈ page, c.ParentID = none ∧ c.PostID = 1) ∧
      page.map (fun c => c.ID) = [100] := by
  have h := GetPostComments_roots_in_order (insertionSorter Comment) testThreadService 1 10 0
    testPost rfl (by decide) (by decide) (by decide)
  exact ⟨_, _, rfl, (h.1 _ _ rfl).1, by decide⟩

end services

namespace inmemory

open entities

/-- C17 fails as stated: for the one root of post 1, limit 1 and offset 2^63 − 1 the
in-memory `GetByPostID` answers hasMore = false, while
`NewPaginationResponse(1, 1, 2^63 − 1)` answers hasMore = true (its sum overflows). -/
theorem GetByPostID_agrees_counterexample :
    CommentRepository.GetByPostID (insertionSorter Comment) services.testComments 1
        { Limit := 1, Offset := 2 ^ 63 - 1 } =
      some (.ok ([], { Total := 1, Limit := 1, Offset := 2 ^ 63 - 1, HasMore := false })) ∧
    NewPaginationResponse 1 1 (2 ^ 63 - 1) =
      { Total := 1, Limit := 1, Offset := 2 ^ 63 - 1, HasMore := true } := by
  exact ⟨rfl, rfl⟩

/-- C17, amended: for every store state (of fewer than 2^63 − 100 comments, as every Go
map), post P and pagination with 0 < limit ≤ 100 and offset ≥ 0, the in-memory
`GetByPostID` returns total = the number of root comments of P (the value `CountByPostID`
returns), a page consisting of the elements at positions [offset, min(offset+limit,
total)) of the createdAt-sorted list of those roots (so its length is
min(limit, max(0, total − offset))), echoes limit and offset, and sets hasMore exactly
when offset + limit < total; it agrees with `NewPaginationResponse(total, limit, offset)`
whenever offset + limit does not overflow the 64-bit int. -/
theorem GetByPostID_page (S : SliceSorter Comment) (m : GoMap Comment) (postID : UUID)
    (limit offset : Int) (hl : 0 < limit) (hl2 : limit ≤ 100) (ho : 0 ≤ offset)
    (hsize : (m.length : Int) + 100 < 2 ^ 63) :
    ∃ (sortedRoots page : List Comment) (resp : PaginationResponse),
      sortedRoots.Perm (m.values.filter
        (fun comment => decide (comment.PostID = postID) && comment.ParentID.isNone)) ∧
      sortedRoots.Pairwise (fun a b => a.CreatedAt ≤ b.CreatedAt) ∧
      CommentRepository.GetByPostID S m postID { Limit := limit, Offset := offset } =
        some (.ok (page, resp)) ∧
      resp.Total = (sortedRoots.length : Int) ∧
      CommentRepository.CountByPostID m postID = .ok resp.Total ∧
      page = (sortedRoots.drop offset.toNat).take limit.toNat ∧
      (page.length : Int) = min limit (max 0 (resp.Total - offset)) ∧
      resp.Limit = limit ∧ resp.Offset = offset ∧
      (resp.HasMore = true ↔ offset + limit < resp.Total) ∧
      (offset + limit < 2 ^ 63 → resp = NewPaginationResponse resp.Total limit offset) := by
  have hperm := S.perm (m.values.filter
    (fun comment => decide (comment.PostID = postID) && comment.ParentID.isNone))
    (fun a b => decide (a.CreatedAt < b.CreatedAt))
  have hle := length_roots_le S m postID
  refine ⟨S.Slice (m.values.filter
      (fun comment => decide (comment.PostID = postID) && comment.ParentID.isNone))
      (fun a b => decide (a.CreatedAt < b.CreatedAt)),
    ((S.Slice (m.values.filter
      (fun comment => decide (comment.PostID = postID) && comment.ParentID.isNone))
      (fun a b => decide (a.CreatedAt < b.CreatedAt))).drop offset.toNat).take limit.toNat,
    { Total := ((S.Slice (m.values.filter
        (fun comment => decide (comment.PostID = postID) && comment.ParentID.isNone))
        (fun a b => decide (a.CreatedAt < b.CreatedAt))).length : Int),
      Limit := limit, Offset := offset,
      HasMore := decide (offset + limit < ((S.Slice (m.values.filter
        (fun comment => decide (comment.PostID = postID) && comment.ParentID.isNone))
        (fun a b => decide (a.CreatedAt < b.CreatedAt))).length : Int)) },
    hperm, Slice_createdAt_sorted S _, ?_, rfl, ?_, rfl, ?_, rfl, rfl, ?_, ?_⟩
  · rw [GetByPostID_eq, paginate_in_range _ limit offset (by omega) ho (Or.inr (by omega))]
    rfl
  · simp only [CommentRepository.CountByPostID]
    rw [hperm.length_eq]
  · simp only [List.length_take, List.length_drop]
    omega
  · simp
  · intro hsum
    simp only [NewPaginationResponse]
    rw [wrapInt_eq _ (by omega) hsum]

theorem GetByPostID_page_witness :
    ∃ (page : List Comment) (resp : PaginationResponse),
      CommentRepository.GetByPostID (insertionSorter Comment) services.testComments 1
        { Limit := 10, Offset := 0 } = some (.ok (page, resp)) ∧
      resp = NewPaginationResponse 1 10 0 ∧ page.length = 1 := by
  obtain ⟨sortedRoots, page, resp, hperm, -, hget, htotal, -, hpage, -, -, -, -, hagree⟩ :=
    GetByPostID_page (insertionSorter Comment) services.testComments 1 10 0 (by decide)
      (by decide) (by decide) (by decide)
  have hlen : sortedRoots.length = 1 := by
    rw [hperm.length_eq]
    decide
  refine ⟨page, resp, hget, ?_, ?_⟩
  · have := hagree (by decide)
    rw [htotal, hlen] at this
    exact this
  · rw [hpage]
    simp [hlen]

end inmemory

namespace entities

/-- C18 fails as stated: with total = 0, limit = 2^63 − 1 and offset = 1, both
non-negative, `NewPaginationResponse` sets HasMore although offset + limit < total is
false: the sum overflows the 64-bit int. -/
theorem NewPaginationResponse_counterexample :
    (NewPaginationResponse 0 (2 ^ 63 - 1) 1).HasMore = true ∧
      ¬ ((1 : Int) + (2 ^ 63 - 1) < 0) ∧ (0 : Int) ≤ 2 ^ 63 - 1 ∧ (2 ^ 63 - 1 : Int) < 2 ^ 63 := by
  exact ⟨by decide, by decide, by decide, by decide⟩

/-- C18, amended: for all int values (total, limit, offset), `NewPaginationResponse`
echoes total, limit and offset and sets HasMore exactly when the sum offset + limit,
wrapped to 64 bits, is below total; whenever the sum does not overflow this is exactly
when offset + limit < total, including total = 0, where HasMore is false for every
non-negative limit and offset whose sum does not overflow. -/
theorem NewPaginationResponse_hasMore (total limit offset : Int) :
    (NewPaginationResponse total limit offset).Total = total ∧
    (NewPaginationResponse total limit offset).Limit = limit ∧
    (NewPaginationResponse total limit offset).Offset = offset ∧
    ((NewPaginationResponse total limit offset).HasMore = true ↔
      wrapInt (offset + limit) < total) ∧
    (-(2 ^ 63) ≤ offset + limit → offset + limit < 2 ^ 63 →
      ((NewPaginationResponse total limit offset).HasMore = true ↔ offset + limit < total)) ∧
    (total = 0 → 0 ≤ limit → 0 ≤ offset → offset + limit < 2 ^ 63 →
      (NewPaginationResponse total limit offset).HasMore = false) := by
  refine ⟨rfl, rfl, rfl, ?_, ?_, ?_⟩
  · simp [NewPaginationResponse]
  · intro h1 h2
    simp [NewPaginationResponse, wrapInt_eq _ h1 h2]
  · intro ht hl ho hsum
    simp only [NewPaginationResponse, wrapInt_eq _ (by omega) hsum, decide_eq_false_iff_not]
    omega

theorem NewPaginationResponse_hasMore_witness :
    (NewPaginationResponse 100 20 0).HasMore = true ∧
      (NewPaginationResponse 20 20 0).HasMore = false ∧
      (NewPaginationResponse 0 20 0).HasMore = false := by
  refine ⟨?_, ?_, ?_⟩
  · exact ((NewPaginationResponse_hasMore 100 20 0).2.2.2.2.1 (by decide) (by decide)).mpr
      (by decide)
  · have h := (NewPaginationResponse_hasMore 20 20 0).2.2.2.2.1 (by decide) (by decide)
    cases hv : (NewPaginationResponse 20 20 0).HasMore with
    | false => rfl
    | true => exact absurd (h.mp hv) (by decide)
  · exact (NewPaginationResponse_hasMore 0 20 0).2.2.2.2.2 rfl (by decide) (by decide)
      (by decide)

/-- C19: `NewPaginationRequest(limit, offset)` returns Limit = limit when 0 < limit ≤ 100
and Limit = 20 otherwise, and Offset = offset when offset ≥ 0 and Offset = 0 otherwise;
so its result always satisfies 1 ≤ Limit ≤ 100 and Offset ≥ 0, and applying it to its own
output changes nothing. -/
theorem NewPaginationRequest_clamps (limit offset : Int) :
    (NewPaginationRequest limit offset).Limit =
        (if 0 < limit ∧ limit ≤ 100 then limit else 20) ∧
    (NewPaginationRequest limit offset).Offset = (if 0 ≤ offset then offset else 0) ∧
    1 ≤ (NewPaginationRequest limit offset).Limit ∧
    (NewPaginationRequest limit offset).Limit ≤ 100 ∧
    0 ≤ (NewPaginationRequest limit offset).Offset ∧
    NewPaginationRequest (NewPaginationRequest limit offset).Limit
        (NewPaginationRequest limit offset).Offset = NewPaginationRequest limit offset := by
  have hL : (NewPaginationRequest limit offset).Limit =
      (if 0 < limit ∧ limit ≤ 100 then limit else 20) := by
    simp only [NewPaginationRequest]
    by_cases h : 0 < limit ∧ limit ≤ 100
    · rw [if_pos h, if_neg (by omega)]
    · rw [if_neg h, if_pos (by omega)]
  have hO : (NewPaginationRequest limit offset).Offset = (if 0 ≤ offset then offset else 0) := by
    simp only [NewPaginationRequest]
    by_cases h : 0 ≤ offset
    · rw [if_pos h, if_neg (by omega)]
    · rw [if_neg h, if_pos (by omega)]
  have h1 : 1 ≤ (NewPaginationRequest limit offset).Limit ∧
      (NewPaginationRequest limit offset).Limit ≤ 100 := by
    rw [hL]
    split_ifs with h
    · omega
    · omega
  have h2 : 0 ≤ (NewPaginationRequest limit offset).Offset := by
    rw [hO]
    split_ifs with h
    · exact h
    · exact le_refl _
  refine ⟨hL, hO, h1.1, h1.2, h2, ?_⟩
  generalize NewPaginationRequest limit offset = r at h1 h2
  obtain ⟨l, o⟩ := r
  simp only at h1 h2
  simp only [NewPaginationRequest]
  rw [if_neg (by omega), if_neg (by omega)]

end entities

namespace services

open entities errors inmemory

/-- C20, the code at the failing inputs: with offset −1 the slice expression of the
in-memory `GetByPostID` panics, also through `GetPostComments` and for `GetByPath`, and
with limit 150 the store answers for limit 150, although `NewPaginationRequest` would have
turned these requests into (10, 0) and (20, 0), which the store serves. -/
theorem GetByPostID_not_clamped :
    CommentRepository.GetByPostID (insertionSorter Comment) testComments 1
        { Limit := 10, Offset := -1 } = none ∧
    testService.GetPostComments (insertionSorter Comment) 1 { Limit := 10, Offset := -1 }
        = none ∧
    CommentRepository.GetByPath (insertionSorter Comment) testComments ""
        { Limit := 10, Offset := -1 } = none ∧
    NewPaginationRequest 10 (-1) = { Limit := 10, Offset := 0 } ∧
    (∃ page, CommentRepository.GetByPostID (insertionSorter Comment) testComments 1
        (NewPaginationRequest 10 (-1)) =
      some (.ok (page, { Total := 1, Limit := 10, Offset := 0, HasMore := false }))) ∧
    NewPaginationRequest 150 0 = { Limit := 20, Offset := 0 } ∧
    (∃ page, CommentRepository.GetByPostID (insertionSorter Comment) testComments 1
        { Limit := 150, Offset := 0 } =
      some (.ok (page, { Total := 1, Limit := 150, Offset := 0, HasMore := false }))) ∧
    (∃ page, CommentRepository.GetByPostID (insertionSorter Comment) testComments 1
        (NewPaginationRequest 150 0) =
      some (.ok (page, { Total := 1, Limit := 20, Offset := 0, HasMore := false }))) := by
  refine ⟨rfl, rfl, rfl, rfl, ⟨_, rfl⟩, rfl, ⟨_, rfl⟩, ⟨_, rfl⟩⟩

end services

/-! ## Claims on `GetCommentReplies` -/

namespace inmemory

open entities

theorem GetByParentID_eq (S : SliceSorter Comment) (m : GoMap Comment) (parentID : UUID)
    (pagination : PaginationRequest) :
    CommentRepository.GetByParentID S m parentID pagination =
      (CommentRepository.paginate
        (S.Slice (m.values.filter
            (fun comment => decide (comment.ParentID = some parentID)))
          (fun a b => decide (a.CreatedAt < b.CreatedAt))) pagination).map Except.ok := by
  unfold CommentRepository.GetByParentID
  have hf : (fun comment : Comment => match comment.ParentID with
      | none => false
      | some p => decide (p = parentID)) =
      (fun comment => decide (comment.ParentID = some parentID)) := by
    funext comment
    cases comment.ParentID <;> simp
  simp only [hf]
  cases CommentRepository.paginate
    (S.Slice (m.values.filter (fun comment => decide (comment.ParentID = some parentID)))
      (fun a b => decide (a.CreatedAt < b.CreatedAt))) pagination <;> rfl

theorem CountByParentID_eq (m : GoMap Comment) (parentID : UUID) :
    CommentRepository.CountByParentID m parentID =
      .ok ((m.values.filter
        (fun comment => decide (comment.ParentID = some parentID))).length : Int) := by
  unfold CommentRepository.CountByParentID
  have hf : (fun comment : Comment => match comment.ParentID with
      | none => false
      | some p => decide (p = parentID)) =
      (fun comment => decide (comment.ParentID = some parentID)) := by
    funext comment
    cases comment.ParentID <;> simp
  simp only [hf]

theorem length_replies_le (S : SliceSorter Comment) (m : GoMap Comment) (parentID : UUID) :
    (S.Slice (m.values.filter (fun comment => decide (comment.ParentID = some parentID)))
      (fun a b => decide (a.CreatedAt < b.CreatedAt))).length ≤ m.length := by
  rw [(S.perm _ _).length_eq, ← GoMap.length_values]
  exact List.length_filter_le _ _

end inmemory

namespace GoMap

theorem exists_key_of_mem_values {V : Type} (m : GoMap V) (v : V) (h : v ∈ m.values) :
    ∃ k, (k, v) ∈ m := by
  unfold GoMap.values at h
  obtain ⟨⟨k, v1⟩, hm, hv⟩ := List.mem_map.mp h
  simp only at hv
  subst hv
  exact ⟨k, hm⟩

end GoMap

namespace services

open entities errors inmemory

theorem GetCommentReplies_eq (S : SliceSorter Comment) (s : CommentService) (parentID : UUID)
    (pagination : PaginationRequest) (C : Comment) (hC : s.commentRepo.get parentID = some C) :
    s.GetCommentReplies S parentID pagination =
      (CommentRepository.paginate
        (S.Slice (s.commentRepo.values.filter
            (fun comment => decide (comment.ParentID = some parentID)))
          (fun a b => decide (a.CreatedAt < b.CreatedAt))) pagination).map Except.ok := by
  unfold CommentService.GetCommentReplies
  simp only [CommentRepository.Exists, hC, Option.isSome_some]
  rw [GetByParentID_eq]
  cases CommentRepository.paginate
    (S.Slice (s.commentRepo.values.filter
        (fun comment => decide (comment.ParentID = some parentID)))
      (fun a b => decide (a.CreatedAt < b.CreatedAt))) pagination with
  | none => rfl
  | some r =>
    obtain ⟨page, resp⟩ := r
    rfl

/-- C21: in a reachable state, for every stored comment C (stored under `id`) and every
pagination request with limit ≥ 0, offset ≥ 0 and offset + limit within the machine
integers, `GetCommentReplies` returns a page; every comment of the page has
parentID = C.ID, is not C itself and lies exactly one level below C (a direct child,
not a deeper descendant); the page is in non-decreasing createdAt order; total, which
is also what `CountByParentID` returns, is the number of stored comments whose parentID
is C.ID.  For an ID that is not in the store the call fails with COMMENT_NOT_FOUND. -/
theorem GetCommentReplies_direct_children (S : SliceSorter Comment) :
    (∀ (used : List UUID) (s : CommentService) (id : UUID) (C : Comment) (limit offset : Int),
      Reachable used s → s.commentRepo.get id = some C → 0 ≤ limit → 0 ≤ offset →
      offset + limit < 2 ^ 63 →
      ∃ page resp, s.GetCommentReplies S id { Limit := limit, Offset := offset } =
          some (.ok (page, resp)) ∧
        (∀ r ∈ page, r.ParentID = some C.ID ∧ r ≠ C ∧ r.Level = C.Level + 1) ∧
        page.Pairwise (fun a b => a.CreatedAt ≤ b.CreatedAt) ∧
        resp.Total = ((s.commentRepo.values.filter
          (fun c => decide (c.ParentID = some C.ID))).length : Int) ∧
        CommentRepository.CountByParentID s.commentRepo C.ID = .ok resp.Total) ∧
    (∀ (s : CommentService) (id : UUID) (pagination : PaginationRequest),
      s.commentRepo.get id = none →
      s.GetCommentReplies S id pagination =
          some (.error (NewCommentNotFoundError id.String)) ∧
        (NewCommentNotFoundError id.String).Code = ErrCommentNotFound) := by
  refine ⟨?_, ?_⟩
  · intro used s id C limit offset hr hC hl ho hsum
    have hinv := Reachable_StoreInv used s hr
    have hnd := Reachable_nodup_keys used s hr
    have hid : C.ID = id := (hinv.1 id C hC).1
    rw [GetCommentReplies_eq S s id _ C hC, CountByParentID_eq, hid,
      paginate_in_range _ limit offset hl ho (Or.inl hsum)]
    refine ⟨_, _, rfl, ?_, ?_, ?_, ?_⟩
    · intro r hrm
      have h1 := (S.perm _ _).mem_iff.mp (List.mem_of_mem_take hrm |> List.mem_of_mem_drop)
      obtain ⟨hv, hp⟩ := List.mem_filter.mp h1
      simp only [decide_eq_true_eq] at hp
      obtain ⟨k, hk⟩ := GoMap.exists_key_of_mem_values _ _ hv
      have hget := GoMap.get_of_mem _ _ _ hnd hk
      have hlev := (hinv.2.2.2 k r id C hget hp hC).2.1
      refine ⟨hp, ?_, hlev⟩
      intro e
      rw [e] at hlev
      omega
    · exact ((Slice_createdAt_sorted S _).sublist (List.drop_sublist _ _)).sublist
        (List.take_sublist _ _)
    · simp only
      rw [(S.perm _ _).length_eq]
    · simp only
      rw [(S.perm _ _).length_eq]
  · intro s id pagination hnone
    refine ⟨?_, rfl⟩
    unfold CommentService.GetCommentReplies
    simp only [CommentRepository.Exists, hnone, Option.isSome_none]

theorem GetCommentReplies_direct_children_witness :
    ∃ (s : CommentService) (page : List Comment) (resp : PaginationResponse),
      Reachable [102, 101, 100] s ∧
      s.GetCommentReplies (insertionSorter Comment) 100 { Limit := 10, Offset := 0 } =
        some (.ok (page, resp)) ∧
      (∀ r ∈ page, r.ParentID = some 100 ∧ r.Level = 1) ∧ resp.Total = 1 ∧
      s.GetCommentReplies (insertionSorter Comment) 7 { Limit := 10, Offset := 0 } =
        some (.error (NewCommentNotFoundError (UUID.String 7))) := by
  have h0 : Reachable [] testServiceEmpty := Reachable.init _ rfl
  have h1 := Reachable.create [] testServiceEmpty _ 100 1 1 1 1 5 "Root" none _ h0
    (by simp) (by decide) rfl
  have h2 := Reachable.create [100] _ _ 101 2 2 2 1 5 "Reply" (some 100) _ h1
    (by decide) (by decide) rfl
  have h3 := Reachable.create [101, 100] _ _ 102 3 3 3 1 5 "Deep" (some 101) _ h2
    (by decide) (by decide) rfl
  obtain ⟨page, resp, hq, hall, -, htot, -⟩ :=
    (GetCommentReplies_direct_children (insertionSorter Comment)).1 _ _ 100 _ 10 0 h3 rfl
      (by decide) (by decide) (by decide)
  refine ⟨_, page, resp, h3, hq, fun r hr => ⟨(hall r hr).1, (hall r hr).2.2⟩,
    htot.trans (by decide), ?_⟩
  exact ((GetCommentReplies_direct_children (insertionSorter Comment)).2 _ 7 _ (by rfl)).1

end services

/-! ## Lemmas on string comparison and `GetThread` -/

theorem Char.eq_of_toNat_eq (a b : Char) (h : a.toNat = b.toNat) : a = b := by
  rw [← Char.ofNat_toNat a, ← Char.ofNat_toNat b, h]

theorem lessChars_irrefl (a : List Char) : lessChars a a = false := by
  induction a with
  | nil => rfl
  | cons x xs ih => simp [lessChars, ih]

theorem lessChars_trans : ∀ a b c : List Char, lessChars a b = true → lessChars b c = true →
    lessChars a c = true := by
  intro a
  induction a with
  | nil =>
    intro b c h1 h2
    cases b with
    | nil => simp [lessChars] at h1
    | cons y ys =>
      cases c with
      | nil => simp [lessChars] at h2
      | cons z zs => simp [lessChars]
  | cons x xs ih =>
    intro b c h1 h2
    cases b with
    | nil => simp [lessChars] at h1
    | cons y ys =>
      cases c with
      | nil => simp [lessChars] at h2
      | cons z zs =>
        simp only [lessChars] at h1 h2 ⊢
        by_cases hxy : x.toNat < y.toNat
        · by_cases hyz : y.toNat < z.toNat
          · rw [if_pos (by omega)]
          · rw [if_neg hyz] at h2
            by_cases hzy : z.toNat < y.toNat
            · rw [if_pos hzy] at h2
              exact absurd h2 (by simp)
            · rw [if_pos (by omega)]
        · rw [if_neg hxy] at h1
          by_cases hyx : y.toNat < x.toNat
          · rw [if_pos hyx] at h1
            exact absurd h1 (by simp)
          · rw [if_neg hyx] at h1
            by_cases hyz : y.toNat < z.toNat
            · rw [if_pos (by omega)]
            · rw [if_neg hyz] at h2
              by_cases hzy : z.toNat < y.toNat
              · rw [if_pos hzy] at h2
                exact absurd h2 (by simp)
              · rw [if_neg hzy] at h2
                rw [if_neg (by omega), if_neg (by omega)]
                exact ih ys zs h1 h2

theorem lessChars_total : ∀ a b : List Char, lessChars a b = false → lessChars b a = false →
    a = b := by
  intro a
  induction a with
  | nil =>
    intro b h1 _
    cases b with
    | nil => rfl
    | cons y ys => simp [lessChars] at h1
  | cons x xs ih =>
    intro b h1 h2
    cases b with
    | nil => simp [lessChars] at h2
    | cons y ys =>
      simp only [lessChars] at h1 h2
      by_cases hxy : x.toNat < y.toNat
      · rw [if_pos hxy] at h1
        exact absurd h1 (by simp)
      · rw [if_neg hxy] at h1
        by_cases hyx : y.toNat < x.toNat
        · rw [if_pos hyx] at h2
          exact absurd h2 (by simp)
        · rw [if_neg hyx] at h1 h2
          rw [if_neg hxy] at h2
          rw [Char.eq_of_toNat_eq x y (by omega), ih ys h1 h2]

theorem lessChars_asymm (a b : List Char) (h : lessChars a b = true) : lessChars b a = false := by
  cases hba : lessChars b a with
  | false => rfl
  | true =>
    have := lessChars_trans a b a h hba
    rw [lessChars_irrefl] at this
    exact absurd this (by simp)

theorem lessChars_append (p : List Char) (a b : List Char) :
    lessChars (p ++ a) (p ++ b) = lessChars a b := by
  induction p with
  | nil => rfl
  | cons x xs ih => simp [lessChars, ih]

theorem stringLess_irrefl (a : String) : stringLess a a = false := lessChars_irrefl _

theorem stringLess_trans (a b c : String) (h1 : stringLess a b = true)
    (h2 : stringLess b c = true) : stringLess a c = true := lessChars_trans _ _ _ h1 h2

theorem stringLess_total (a b : String) (h1 : stringLess a b = false)
    (h2 : stringLess b a = false) : a = b := by
  exact String.ext (lessChars_total _ _ h1 h2)

theorem stringLess_asymm (a b : String) (h : stringLess a b = true) : stringLess b a = false :=
  lessChars_asymm _ _ h

theorem stringLess_append (p a b : String) :
    stringLess (p ++ a) (p ++ b) = stringLess a b := by
  unfold stringLess
  rw [String.data_append, String.data_append, lessChars_append]

theorem wrapInt_le (x : Int) (h : -(2 ^ 63) ≤ x) : wrapInt x ≤ x := by
  unfold wrapInt
  omega

namespace strings

theorem HasPrefix_self (s : String) : HasPrefix s s = true := by
  unfold HasPrefix
  rw [List.isPrefixOf_iff_prefix]

theorem HasPrefix_of_append (s p q : String) (h : HasPrefix s (p ++ q) = true) :
    HasPrefix s p = true := by
  unfold HasPrefix at h ⊢
  rw [List.isPrefixOf_iff_prefix] at h ⊢
  rw [String.data_append] at h
  exact (List.prefix_append _ _).trans h

theorem not_HasPrefix_longer (s q : String) (hq : q ≠ "") : HasPrefix s (s ++ q) = false := by
  cases h : HasPrefix s (s ++ q) with
  | false => rfl
  | true =>
    unfold HasPrefix at h
    rw [List.isPrefixOf_iff_prefix, String.data_append] at h
    have hlen := h.length_le
    rw [List.length_append] at hlen
    have : q.data.length = 0 := by omega
    have hnil : q.data = [] := List.length_eq_zero.mp this
    exact absurd (String.ext hnil) hq

end strings

namespace inmemory

open entities

theorem strictWeak_thread :
    StrictWeak (fun a b : Comment =>
      if a.Path = b.Path then decide (a.CreatedAt < b.CreatedAt)
      else stringLess a.Path b.Path) := by
  refine ⟨?_, ?_, ?_⟩
  · intro a
    simp
  · intro a b c h1 h2
    simp only at h1 h2 ⊢
    by_cases hab : a.Path = b.Path
    · rw [if_pos hab] at h1
      by_cases hbc : b.Path = c.Path
      · rw [if_pos hbc] at h2
        rw [if_pos (hab.trans hbc)]
        simp only [decide_eq_true_eq] at h1 h2 ⊢
        exact Nat.lt_trans h1 h2
      · rw [if_neg hbc] at h2
        rw [if_neg (by rw [hab]; exact hbc), hab]
        exact h2
    · rw [if_neg hab] at h1
      by_cases hbc : b.Path = c.Path
      · rw [if_neg (by rw [← hbc]; exact hab), ← hbc]
        exact h1
      · rw [if_neg hbc] at h2
        have hac := stringLess_trans _ _ _ h1 h2
        by_cases e : a.Path = c.Path
        · rw [e, stringLess_irrefl] at hac
          exact absurd hac (by simp)
        · rw [if_neg e]
          exact hac
  · intro a b c h1 h2
    simp only at h1 h2 ⊢
    by_cases hab : a.Path = b.Path
    · rw [if_pos hab] at h1
      by_cases hbc : b.Path = c.Path
      · rw [if_pos hbc] at h2
        rw [if_pos (hab.trans hbc)]
        simp only [decide_eq_false_iff_not, Nat.not_lt] at h1 h2 ⊢
        exact Nat.le_trans h2 h1
      · rw [if_neg hbc] at h2
        rw [if_neg (by rw [hab]; exact hbc), hab]
        exact h2
    · rw [if_neg hab] at h1
      by_cases hbc : b.Path = c.Path
      · rw [if_neg (by rw [← hbc]; exact hab), ← hbc]
        exact h1
      · rw [if_neg hbc] at h2
        have hba : stringLess b.Path a.Path = true := by
          cases h : stringLess b.Path a.Path with
          | true => rfl
          | false => exact absurd (stringLess_total _ _ h1 h) hab
        have hcb : stringLess c.Path b.Path = true := by
          cases h : stringLess c.Path b.Path with
          | true => rfl
          | false => exact absurd (stringLess_total _ _ h2 h) hbc
        have hca := stringLess_trans _ _ _ hcb hba
        by_cases e : a.Path = c.Path
        · rw [e, stringLess_irrefl] at hca
          exact absurd hca (by simp)
        · rw [if_neg e]
          exact stringLess_asymm _ _ hca

theorem GetThread_perm (S : SliceSorter Comment) (m : GoMap Comment) (id : UUID) (R : Comment)
    (d : Int) (hR : m.get id = some R) :
    ∃ l, CommentRepository.GetThread S m id d = .ok l ∧
      l.Perm (R :: m.values.filter (fun c =>
        strings.HasPrefix c.Path (R.Path ++ "/") &&
          decide (c.Level ≤ wrapInt (R.Level + d)))) := by
  unfold CommentRepository.GetThread
  rw [hR]
  exact ⟨_, rfl, S.perm _ _⟩

theorem GetThread_missing (S : SliceSorter Comment) (m : GoMap Comment) (id : UUID)
    (d : Int) (hR : m.get id = none) : CommentRepository.GetThread S m id d = .ok [] := by
  unfold CommentRepository.GetThread
  rw [hR]

theorem GetThread_sorted (S : SliceSorter Comment) (m : GoMap Comment) (id : UUID)
    (d : Int) (l : List Comment) (h : CommentRepository.GetThread S m id d = .ok l) :
    l.Pairwise (fun a b =>
      stringLess a.Path b.Path = true ∨ (a.Path = b.Path ∧ a.CreatedAt ≤ b.CreatedAt)) := by
  unfold CommentRepository.GetThread at h
  cases hget : m.get id with
  | none =>
    rw [hget] at h
    simp only [Except.ok.injEq] at h
    rw [← h]
    exact List.Pairwise.nil
  | some R =>
    rw [hget] at h
    simp only [Except.ok.injEq] at h
    rw [← h]
    refine (S.sorted _ _ strictWeak_thread).imp ?_
    intro a b hab
    simp only at hab
    by_cases e : b.Path = a.Path
    · rw [if_pos e] at hab
      simp only [decide_eq_false_iff_not, Nat.not_lt] at hab
      exact Or.inr ⟨e.symm, hab⟩
    · rw [if_neg e] at hab
      left
      cases h1 : stringLess a.Path b.Path with
      | true => rfl
      | false => exact absurd (stringLess_total _ _ hab h1) e

end inmemory

namespace GoMap

theorem mem_of_get {V : Type} (m : GoMap V) (k : UUID) (v : V) (h : m.get k = some v) :
    (k, v) ∈ m := by
  induction m with
  | nil => simp [GoMap.get] at h
  | cons kv m ih =>
    obtain ⟨k1, v1⟩ := kv
    by_cases e : k1 = k
    · subst e
      rw [GoMap.get_cons_same] at h
      simp only [Option.some.injEq] at h
      subst h
      exact List.mem_cons_self _ _
    · rw [GoMap.get_cons_ne _ _ _ _ e] at h
      exact List.mem_cons_of_mem _ (ih h)

end GoMap

namespace services

open entities errors inmemory

theorem Reachable_level_nonneg (used : List UUID) (s : CommentService) (h : Reachable used s) :
    ∀ id c, s.commentRepo.get id = some c → 0 ≤ c.Level :=
  fun id c hc => (Reachable_level_bound used s h id c hc).1

theorem GetCommentThread_eq (S : SliceSorter Comment) (s : CommentService) (id : UUID)
    (R : Comment) (d : Int) (hR : s.commentRepo.get id = some R) :
    s.GetCommentThread S id d =
      (CommentRepository.GetThread S s.commentRepo id d).mapError NewDatabaseError := by
  unfold CommentService.GetCommentThread
  simp only [CommentRepository.Exists, hR, Option.isSome_some]
  cases CommentRepository.GetThread S s.commentRepo id d <;> rfl

end services

namespace inmemory

open entities

theorem GetThread_position (S : SliceSorter Comment) (m : GoMap Comment) (id : UUID)
    (d : Int) (l : List Comment) (h : CommentRepository.GetThread S m id d = .ok l)
    (i j : Nat) (a b : Comment) (ha : l[i]? = some a) (hb : l[j]? = some b)
    (hless : stringLess a.Path b.Path = true) : i < j := by
  have hs := List.pairwise_iff_getElem.mp (GetThread_sorted S m id d l h)
  obtain ⟨hi, hai⟩ := List.getElem?_eq_some_iff.mp ha
  obtain ⟨hj, hbj⟩ := List.getElem?_eq_some_iff.mp hb
  by_contra hn
  rcases Nat.lt_or_eq_of_le (Nat.le_of_not_lt hn) with hlt | heq
  · have := hs j i hj hi hlt
    rw [hai, hbj] at this
    rcases this with h1 | ⟨h1, -⟩
    · rw [stringLess_asymm _ _ hless] at h1
      exact absurd h1 (by simp)
    · rw [h1, stringLess_irrefl] at hless
      exact absurd hless (by simp)
  · subst heq
    rw [ha] at hb
    simp only [Option.some.injEq] at hb
    rw [hb, stringLess_irrefl] at hless
    exact absurd hless (by simp)

end inmemory

/-! ## Claims on `GetThread` -/

namespace inmemory

open entities

theorem GetThread_negative_depth_any_sorter :
    ∀ S : SliceSorter Comment, ∃ R, services.testThread.get 100 = some R ∧
      CommentRepository.GetThread S services.testThread 100 (-1) = .ok [R] ∧
      ¬ (R.Level ≤ R.Level + (-1)) := by
  intro S
  obtain ⟨l, hl, hp⟩ := GetThread_perm S services.testThread 100 _ (-1) rfl
  refine ⟨_, rfl, ?_, by decide⟩
  rw [hl, List.perm_singleton.mp hp]

/-- C22 fails as stated for a negative maxDepth: `GetThread(C0.ID, -1)` on the thread
C0, C1, C2 returns the start comment C0, whose level 0 is above C0.level + (−1). -/
theorem GetThread_negative_depth_counterexample :
    ∃ R, services.testThread.get 100 = some R ∧
      CommentRepository.GetThread (insertionSorter Comment) services.testThread 100 (-1) =
        .ok [R] ∧
      ¬ (R.Level ≤ R.Level + (-1)) :=
  GetThread_negative_depth_any_sorter (insertionSorter Comment)

/-- C22, amended: for any stored comment R (its level a machine integer, so at least
−2^63) and any maxDepth d ≥ 0, `GetThread(R.ID, d)` returns a list, and every comment of
it satisfies level ≤ R.level + d and has a path that starts with R.path. -/
theorem GetThread_level_bound (S : SliceSorter Comment) (m : GoMap Comment) (id : UUID)
    (R : Comment) (d : Int) (hR : m.get id = some R) (hd : 0 ≤ d)
    (hlev : -(2 ^ 63) ≤ R.Level) :
    ∃ l, CommentRepository.GetThread S m id d = .ok l ∧
      ∀ c ∈ l, c.Level ≤ R.Level + d ∧ strings.HasPrefix c.Path R.Path = true := by
  obtain ⟨l, hl, hp⟩ := GetThread_perm S m id R d hR
  refine ⟨l, hl, ?_⟩
  intro c hc
  rcases List.mem_cons.mp (hp.mem_iff.mp hc) with e | hf
  · rw [e]
    exact ⟨by omega, strings.HasPrefix_self _⟩
  · have h2 := (List.mem_filter.mp hf).2
    simp only [Bool.and_eq_true, decide_eq_true_eq] at h2
    have hw := wrapInt_le (R.Level + d) (by omega)
    exact ⟨by omega, strings.HasPrefix_of_append _ _ _ h2.1⟩

theorem GetThread_level_bound_witness :
    ∃ R l, services.testThread.get 100 = some R ∧
      CommentRepository.GetThread (insertionSorter Comment) services.testThread 100 1 = .ok l ∧
      l.map (fun c => c.ID) = [100, 101] ∧
      ∀ c ∈ l, c.Level ≤ R.Level + 1 ∧ strings.HasPrefix c.Path R.Path = true := by
  obtain ⟨l, hl, hall⟩ := GetThread_level_bound (insertionSorter Comment)
    services.testThread 100 _ 1 rfl (by decide) (by decide)
  have e : CommentRepository.GetThread (insertionSorter Comment) services.testThread 100 1 =
      .ok _ := rfl
  refine ⟨_, l, rfl, hl, ?_, hall⟩
  rw [e] at hl
  simp only [Except.ok.injEq] at hl
  rw [← hl]
  decide

end inmemory

namespace services

open entities errors inmemory

theorem Reachable_nodup_values (used : List UUID) (s : CommentService) (h : Reachable used s) :
    s.commentRepo.values.Nodup := by
  have hinv := Reachable_StoreInv used s h
  have hnd := Reachable_nodup_keys used s h
  have hkeys : s.commentRepo.keys = s.commentRepo.values.map (fun c => c.ID) := by
    unfold GoMap.keys GoMap.values
    rw [List.map_map]
    apply List.map_congr_left
    intro kv hkv
    obtain ⟨k, v⟩ := kv
    exact ((hinv.1 k v (GoMap.get_of_mem _ _ _ hnd hkv)).1).symm
  rw [hkeys] at hnd
  exact List.Nodup.of_map _ hnd

theorem testThread_created :
    ∃ s1 s2 s3 c0 c1 c2,
      testServiceEmpty.CreateComment 100 1 1 1 1 5 "Root" none = some (s1, .ok c0) ∧
      s1.CreateComment 101 2 2 2 1 5 "Reply" (some c0.ID) = some (s2, .ok c1) ∧
      s2.CreateComment 102 3 3 3 1 5 "Deep" (some c1.ID) = some (s3, .ok c2) ∧
      s3.commentRepo = testThread.reverse ∧ [c0, c1, c2] = testThread.values ∧
      c0.ID = 100 :=
  ⟨_, _, _, _, _, _, rfl, rfl, rfl, rfl, rfl, rfl⟩

theorem testThread_reachable :
    ∃ s, Reachable [102, 101, 100] s ∧ s.commentRepo = testThread.reverse := by
  have h0 : Reachable [] testServiceEmpty := Reachable.init _ rfl
  have h1 := Reachable.create [] testServiceEmpty _ 100 1 1 1 1 5 "Root" none _ h0
    (by simp) (by decide) rfl
  have h2 := Reachable.create [100] _ _ 101 2 2 2 1 5 "Reply" (some 100) _ h1
    (by decide) (by decide) rfl
  have h3 := Reachable.create [101, 100] _ _ 102 3 3 3 1 5 "Deep" (some 101) _ h2
    (by decide) (by decide) rfl
  exact ⟨_, h3, rfl⟩

theorem GetThread_overflow_any_sorter :
    ∀ S : SliceSorter Comment, ∃ R c, testThread.get 101 = some R ∧
      CommentRepository.GetThread S testThread 101 (2 ^ 63 - 1) = .ok [R] ∧
      c ∈ testThread.values ∧ strings.HasPrefix c.Path (R.Path ++ "/") = true ∧
      c.Level ≤ R.Level + (2 ^ 63 - 1) ∧ c ∉ [R] := by
  intro S
  obtain ⟨l, hl, hp⟩ := GetThread_perm S testThread 101 _ (2 ^ 63 - 1) rfl
  refine ⟨_, _, rfl, ?_,
    List.mem_cons_of_mem _ (List.mem_cons_of_mem _ (List.mem_cons_self _ _)), by decide,
    by decide, by decide⟩
  rw [hl, List.perm_singleton.mp hp]

/-- C23 fails as stated when R.level + maxDepth exceeds the largest machine integer: for
the reply C1 (level 1) of the thread C0, C1, C2 and maxDepth 2^63 − 1 the bound wraps to
−2^63, and `GetThread` returns C1 alone, although the stored comment C2 has a path that
begins with C1.path + "/" and level 2 ≤ 1 + (2^63 − 1). -/
theorem GetThread_overflow_counterexample :
    ∃ R c, testThread.get 101 = some R ∧
      CommentRepository.GetThread (insertionSorter Comment) testThread 101 (2 ^ 63 - 1) =
        .ok [R] ∧
      c ∈ testThread.values ∧ strings.HasPrefix c.Path (R.Path ++ "/") = true ∧
      c.Level ≤ R.Level + (2 ^ 63 - 1) ∧ c ∉ [R] :=
  GetThread_overflow_any_sorter (insertionSorter Comment)

/-- C23, amended: in a reachable state, for every stored comment R and maxDepth d ≥ 0
with R.level + d below 2^63 (no overflow of the machine integer), `GetThread(R.ID, d)`
returns, each exactly once, R together with precisely those stored comments whose path
begins with R.path + "/" and whose level ≤ R.level + d, and nothing else.  In
particular, after creating a root C0, a reply C1 to C0 and a reply C2 to C1,
`GetCommentThread(C0.ID, 10)` returns exactly C0, C1, C2 and `GetCommentThread(C0.ID, 0)`
returns exactly C0. -/
theorem GetThread_exact (S : SliceSorter Comment) :
    (∀ (used : List UUID) (s : CommentService) (id : UUID) (R : Comment) (d : Int),
      Reachable used s → s.commentRepo.get id = some R → 0 ≤ d → R.Level + d < 2 ^ 63 →
      ∃ l, CommentRepository.GetThread S s.commentRepo id d = .ok l ∧ l.Nodup ∧
        ∀ c, c ∈ l ↔ (c = R ∨ (c ∈ s.commentRepo.values ∧
          strings.HasPrefix c.Path (R.Path ++ "/") = true ∧ c.Level ≤ R.Level + d))) ∧
    (∃ s1 s2 s3 c0 c1 c2,
      testServiceEmpty.CreateComment 100 1 1 1 1 5 "Root" none = some (s1, .ok c0) ∧
      s1.CreateComment 101 2 2 2 1 5 "Reply" (some c0.ID) = some (s2, .ok c1) ∧
      s2.CreateComment 102 3 3 3 1 5 "Deep" (some c1.ID) = some (s3, .ok c2) ∧
      (∃ l, s3.GetCommentThread S c0.ID 10 = .ok l ∧ l.Perm [c0, c1, c2]) ∧
      s3.GetCommentThread S c0.ID 0 = .ok [c0]) := by
  refine ⟨?_, ?_⟩
  · intro used s id R d hr hR hd hsum
    have hlev := Reachable_level_nonneg used s hr id R hR
    obtain ⟨l, hl, hp⟩ := GetThread_perm S s.commentRepo id R d hR
    rw [wrapInt_eq _ (by omega) hsum] at hp
    refine ⟨l, hl, ?_, ?_⟩
    · rw [hp.nodup_iff, List.nodup_cons]
      refine ⟨?_, (Reachable_nodup_values used s hr).filter _⟩
      intro hmem
      have h2 := (List.mem_filter.mp hmem).2
      simp only [Bool.and_eq_true, decide_eq_true_eq] at h2
      rw [strings.not_HasPrefix_longer R.Path "/" (by decide)] at h2
      exact absurd h2.1 (by simp)
    · intro c
      rw [hp.mem_iff, List.mem_cons, List.mem_filter]
      simp only [Bool.and_eq_true, decide_eq_true_eq]
  · obtain ⟨s1, s2, s3, c0, c1, c2, e1, e2, e3, hrepo, hvals, hid⟩ := testThread_created
    have hget : s3.commentRepo.get 100 = some c0 := by
      rw [hrepo]
      simp only [testThread, GoMap.values, List.map, List.cons.injEq] at hvals
      rw [hvals.1]
      rfl
    refine ⟨s1, s2, s3, c0, c1, c2, e1, e2, e3, ?_, ?_⟩
    · rw [hid, GetCommentThread_eq S s3 100 c0 10 hget]
      obtain ⟨l, hl, hp⟩ := GetThread_perm S s3.commentRepo 100 c0 10 hget
      rw [hl]
      refine ⟨l, rfl, hp.trans ?_⟩
      rw [hrepo, hvals]
      simp only [testThread, GoMap.values, List.map, List.cons.injEq] at hvals
      rw [hvals.1]
      exact List.Perm.cons _ (List.Perm.swap _ _ _)
    · rw [hid, GetCommentThread_eq S s3 100 c0 0 hget]
      obtain ⟨l, hl, hp⟩ := GetThread_perm S s3.commentRepo 100 c0 0 hget
      rw [hl]
      have hp2 : l.Perm [c0] := by
        refine hp.trans ?_
        rw [hrepo]
        simp only [testThread, GoMap.values, List.map, List.cons.injEq] at hvals
        rw [hvals.1]
        exact List.Perm.refl _
      rw [List.perm_singleton.mp hp2]
      rfl

theorem GetThread_exact_witness :
    ∃ (s : CommentService) (R : Comment) (l : List Comment), Reachable [102, 101, 100] s ∧
      s.commentRepo.get 101 = some R ∧
      CommentRepository.GetThread (insertionSorter Comment) s.commentRepo 101 5 = .ok l ∧
      l.Nodup ∧ l.map (fun c => c.ID) = [101, 102] ∧
      ∀ c, c ∈ l ↔ (c = R ∨ (c ∈ s.commentRepo.values ∧
        strings.HasPrefix c.Path (R.Path ++ "/") = true ∧ c.Level ≤ R.Level + 5)) := by
  obtain ⟨s, hr, hrepo⟩ := testThread_reachable
  have hget : s.commentRepo.get 101 = testThread.get 101 := by
    rw [hrepo]
    rfl
  obtain ⟨l, hl, hnd, hall⟩ := (GetThread_exact (insertionSorter Comment)).1 _ s 101 _ 5 hr
    hget (by decide) (by decide)
  refine ⟨s, _, l, hr, hget, hl, hnd, ?_, hall⟩
  rw [hrepo] at hl
  have e : (Except.ok _ : Except GoError (List Comment)) = Except.ok l := hl
  simp only [Except.ok.injEq] at e
  rw [← e]
  decide

end services

namespace inmemory

open entities

/-- C24: `GetThread` always returns a list, and the list is ordered by (path,
createdAt): for every two consecutive elements a, b (indeed for every two elements a
before b) either a.path < b.path lexicographically, or a.path = b.path and a.createdAt
is not after b.createdAt. -/
theorem GetThread_ordered (S : SliceSorter Comment) (m : GoMap Comment) (id : UUID)
    (d : Int) :
    ∃ l, CommentRepository.GetThread S m id d = .ok l ∧
      l.Chain' (fun a b =>
        stringLess a.Path b.Path = true ∨ (a.Path = b.Path ∧ a.CreatedAt ≤ b.CreatedAt)) ∧
      l.Pairwise (fun a b =>
        stringLess a.Path b.Path = true ∨ (a.Path = b.Path ∧ a.CreatedAt ≤ b.CreatedAt)) := by
  cases hget : m.get id with
  | none =>
    exact ⟨[], GetThread_missing S m id d hget, List.chain'_nil, List.Pairwise.nil⟩
  | some R =>
    obtain ⟨l, hl, -⟩ := GetThread_perm S m id R d hget
    have hs := GetThread_sorted S m id d l hl
    exact ⟨l, hl, hs.chain', hs⟩

end inmemory

namespace services

open entities errors inmemory

theorem testSiblings_reachable :
    ∃ s, Reachable [101, 102, 100] s ∧ s.commentRepo = testSiblings := by
  have h0 : Reachable [] testServiceEmpty := Reachable.init _ rfl
  have h1 := Reachable.create [] testServiceEmpty _ 100 1 1 1 1 5 "Root" none _ h0
    (by simp) (by decide) rfl
  have h2 := Reachable.create [100] _ _ 102 2 2 2 1 5 "Earlier" (some 100) _ h1
    (by decide) (by decide) rfl
  have h3 := Reachable.create [102, 100] _ _ 101 3 3 3 1 5 "Later" (some 100) _ h2
    (by decide) (by decide) rfl
  exact ⟨_, h3, rfl⟩

theorem GetThread_siblings_any_sorter :
    ∀ S : SliceSorter Comment,
      ∃ (s1 s2 s3 : CommentService) (c0 a b : Comment) (l : List Comment),
      testServiceEmpty.CreateComment 100 1 1 1 1 5 "Root" none = some (s1, .ok c0) ∧
      s1.CreateComment 102 2 2 2 1 5 "Earlier" (some 100) = some (s2, .ok a) ∧
      s2.CreateComment 101 3 3 3 1 5 "Later" (some 100) = some (s3, .ok b) ∧
      CommentRepository.GetThread S s3.commentRepo 100 10 = .ok l ∧
      a.ParentID = some 100 ∧ b.ParentID = some 100 ∧ a.CreatedAt < b.CreatedAt ∧
      ∃ i j : Nat, l[i]? = some b ∧ l[j]? = some a ∧ i < j := by
  intro S
  obtain ⟨s1, s2, s3, c0, a, b, e1, e2, e3, hrepo, hvals⟩ :
      ∃ s1 s2 s3 c0 a b,
        testServiceEmpty.CreateComment 100 1 1 1 1 5 "Root" none = some (s1, .ok c0) ∧
        s1.CreateComment 102 2 2 2 1 5 "Earlier" (some 100) = some (s2, .ok a) ∧
        s2.CreateComment 101 3 3 3 1 5 "Later" (some 100) = some (s3, .ok b) ∧
        s3.commentRepo = testSiblings ∧ [b, a, c0] = testSiblings.values :=
    ⟨_, _, _, _, _, _, rfl, rfl, rfl, rfl, rfl⟩
  simp only [testSiblings, GoMap.values, List.map, List.cons.injEq, and_true] at hvals
  obtain ⟨hb, ha, hc0⟩ := hvals
  obtain ⟨l, hl, hp⟩ := GetThread_perm S s3.commentRepo 100 c0 10 (by rw [hrepo, hc0]; rfl)
  have hp2 : l.Perm [c0, b, a] := by
    refine hp.trans ?_
    rw [hrepo, hc0, hb, ha]
    exact List.Perm.refl _
  obtain ⟨i, hi⟩ := List.mem_iff_getElem?.mp (hp2.mem_iff.mpr (by simp) : b ∈ l)
  obtain ⟨j, hj⟩ := List.mem_iff_getElem?.mp (hp2.mem_iff.mpr (by simp) : a ∈ l)
  refine ⟨s1, s2, s3, c0, a, b, l, e1, e2, e3, hl, ?_, ?_, ?_, i, j, hi, hj, ?_⟩
  · rw [ha]
  · rw [hb]
  · rw [ha, hb]
    decide
  · refine GetThread_position S s3.commentRepo 100 10 l hl i j b a hi hj ?_
    rw [ha, hb]
    decide

/-- C25 fails as stated: after creating the root 100, then its reply 102 and then its
reply 101, `GetThread(100, 10)` returns the younger reply 101 before the older reply
102, because the path of 101 is the smaller string. -/
theorem GetThread_siblings_counterexample :
    ∃ (s1 s2 s3 : CommentService) (c0 a b : Comment) (l : List Comment),
      testServiceEmpty.CreateComment 100 1 1 1 1 5 "Root" none = some (s1, .ok c0) ∧
      s1.CreateComment 102 2 2 2 1 5 "Earlier" (some 100) = some (s2, .ok a) ∧
      s2.CreateComment 101 3 3 3 1 5 "Later" (some 100) = some (s3, .ok b) ∧
      CommentRepository.GetThread (insertionSorter Comment) s3.commentRepo 100 10 = .ok l ∧
      a.ParentID = some 100 ∧ b.ParentID = some 100 ∧ a.CreatedAt < b.CreatedAt ∧
      ∃ i j : Nat, l[i]? = some b ∧ l[j]? = some a ∧ i < j :=
  GetThread_siblings_any_sorter (insertionSorter Comment)

theorem Reachable_sibling_paths (used : List UUID) (s : CommentService)
    (h : Reachable used s) :
    ∀ (ka kb : UUID) (a b : Comment) (p : UUID), s.commentRepo.get ka = some a →
      s.commentRepo.get kb = some b → a.ParentID = some p → b.ParentID = some p →
      ∃ q : String, a.Path = q ++ "/" ++ a.ID.String ∧ b.Path = q ++ "/" ++ b.ID.String := by
  induction h with
  | init s h =>
    intro ka kb a b p ha
    rw [h] at ha
    simp [GoMap.get] at ha
  | create used s s1 newID now t1 t2 postID authorID content parentID r hs hfresh hcap h ih =>
    rcases CreateComment_inv _ _ _ _ _ _ _ _ _ _ _ h with ⟨e, -⟩ |
      ⟨nc, parent, hpar, hnc, -, hrepo, -⟩
    · rw [e]
      exact ih
    · have hinv := Reachable_StoreInv used s hs
      obtain ⟨hid, -, -, -, -, -, hparent, -, hpath⟩ := NewComment_fields _ _ _ _ _ _ _ hnc
      have hnew : ∀ p, nc.ParentID = some p → ∃ P, s.commentRepo.get p = some P ∧
          nc.Path = P.Path ++ "/" ++ nc.ID.String := by
        intro p hp
        rcases hpar with ⟨-, h2⟩ | ⟨pid, P, -, h2, h3, -⟩
        · rw [hparent, h2] at hp
          exact Option.noConfusion hp
        · rw [hparent, h2] at hp
          simp only [Option.map_some', Option.some.injEq] at hp
          rw [(hinv.1 pid P h3).1] at hp
          subst hp
          refine ⟨P, h3, ?_⟩
          rw [hpath, h2, hid]
          rfl
      have hold : ∀ k c p P, s.commentRepo.get k = some c → c.ParentID = some p →
          s.commentRepo.get p = some P → c.Path = P.Path ++ "/" ++ c.ID.String :=
        fun k c p P hc hp hP => (hinv.2.2.2 k c p P hc hp hP).2.2
      intro ka kb a b p ha hb hpa hpb
      rw [hrepo] at ha hb
      by_cases ea : ka = newID
      · subst ea
        rw [GoMap.get_set_same] at ha
        simp only [Option.some.injEq] at ha
        subst ha
        obtain ⟨P, hP, hq⟩ := hnew p hpa
        by_cases eb : kb = ka
        · subst eb
          rw [GoMap.get_set_same] at hb
          simp only [Option.some.injEq] at hb
          subst hb
          exact ⟨P.Path, hq, hq⟩
        · rw [GoMap.get_set_ne _ _ _ _ eb] at hb
          exact ⟨P.Path, hq, hold kb b p P hb hpb hP⟩
      · rw [GoMap.get_set_ne _ _ _ _ ea] at ha
        by_cases eb : kb = newID
        · subst eb
          rw [GoMap.get_set_same] at hb
          simp only [Option.some.injEq] at hb
          subst hb
          obtain ⟨P, hP, hq⟩ := hnew p hpb
          exact ⟨P.Path, hold ka a p P ha hpa hP, hq⟩
        · rw [GoMap.get_set_ne _ _ _ _ eb] at hb
          exact ih ka kb a b p ha hb hpa hpb
  | update used s s1 now commentID authorID content r hs h ih =>
    rcases UpdateComment_store _ _ _ _ _ _ _ h with e | ⟨c0, hc0, e⟩
    · rw [e]
      exact ih
    · have hcid : c0.ID = commentID := ((Reachable_StoreInv used s hs).1 commentID c0 hc0).1
      have hsim : ∀ k c, s1.commentRepo.get k = some c → ∃ c1, s.commentRepo.get k = some c1 ∧
          c1.ID = c.ID ∧ c1.ParentID = c.ParentID ∧ c1.Path = c.Path := by
        intro k c hc
        rw [e] at hc
        by_cases e1 : k = c0.ID
        · subst e1
          rw [GoMap.get_set_same] at hc
          simp only [Option.some.injEq] at hc
          subst hc
          exact ⟨c0, by rw [hcid]; exact hc0, rfl, rfl, rfl⟩
        · rw [GoMap.get_set_ne _ _ _ _ e1] at hc
          exact ⟨c, hc, rfl, rfl, rfl⟩
      intro ka kb a b p ha hb hpa hpb
      obtain ⟨a1, ha1, ia, pa, qa⟩ := hsim ka a ha
      obtain ⟨b1, hb1, ib, pb, qb⟩ := hsim kb b hb
      obtain ⟨q, h1, h2⟩ := ih ka kb a1 b1 p ha1 hb1 (pa.trans hpa) (pb.trans hpb)
      rw [qa, ia] at h1
      rw [qb, ib] at h2
      exact ⟨q, h1, h2⟩
  | delete used s s1 commentID authorID r hs h ih =>
    rcases DeleteComment_store _ _ _ _ _ h with e | e
    · rw [e]
      exact ih
    · intro ka kb a b p ha hb hpa hpb
      rw [e] at ha hb
      exact ih ka kb a b p (get_of_get_delete _ _ _ _ ha) (get_of_get_delete _ _ _ _ hb)
        hpa hpb
  | other used s s1 hs h ih =>
    rw [h]
    exact ih

theorem testOrphans_reachable :
    ∃ s, Reachable [102, 103, 101, 100] s ∧ s.commentRepo = testOrphans := by
  have h0 : Reachable [] testServiceEmpty := Reachable.init _ rfl
  have h1 := Reachable.create [] testServiceEmpty _ 100 1 1 1 1 5 "Root" none _ h0
    (by simp) (by decide) rfl
  have h2 := Reachable.create [100] _ _ 101 2 2 2 1 5 "Reply" (some 100) _ h1
    (by decide) (by decide) rfl
  have h3 := Reachable.create [101, 100] _ _ 103 3 3 3 1 5 "Earlier" (some 101) _ h2
    (by decide) (by decide) rfl
  have h4 := Reachable.create [103, 101, 100] _ _ 102 4 4 4 1 5 "Later" (some 101) _ h3
    (by decide) (by decide) rfl
  have h5 := Reachable.delete _ _ _ 101 5 _ h4 rfl
  exact ⟨_, h5, rfl⟩

/-- C25, amended: the order of the list returned by `GetThread` among siblings is that
of their identifiers, not of their creation times: in a reachable state, of two returned
comments that share the same parent (stored or deleted since), the one whose ID string
is lexicographically smaller appears before the other. -/
theorem GetThread_siblings_by_id (S : SliceSorter Comment) (used : List UUID)
    (s : CommentService) (id : UUID) (d : Int) (l : List Comment) (hr : Reachable used s)
    (hl : CommentRepository.GetThread S s.commentRepo id d = .ok l)
    (i j : Nat) (a b : Comment) (p : UUID) (ha : l[i]? = some a) (hb : l[j]? = some b)
    (hpa : a.ParentID = some p) (hpb : b.ParentID = some p)
    (hless : stringLess a.ID.String b.ID.String = true) : i < j := by
  have hnd := Reachable_nodup_keys used s hr
  have stored : ∀ c ∈ l, ∃ k, s.commentRepo.get k = some c := by
    intro c hc
    cases hget : s.commentRepo.get id with
    | none =>
      rw [GetThread_missing S _ id d hget] at hl
      simp only [Except.ok.injEq] at hl
      rw [← hl] at hc
      exact absurd hc (List.not_mem_nil _)
    | some R =>
      obtain ⟨l1, hl1, hp⟩ := GetThread_perm S s.commentRepo id R d hget
      rw [hl] at hl1
      simp only [Except.ok.injEq] at hl1
      rw [← hl1] at hp
      rcases List.mem_cons.mp (hp.mem_iff.mp hc) with e | hf
      · exact ⟨id, by rw [e]; exact hget⟩
      · obtain ⟨k, hk⟩ := GoMap.exists_key_of_mem_values _ _ (List.mem_filter.mp hf).1
        exact ⟨k, GoMap.get_of_mem _ _ _ hnd hk⟩
  obtain ⟨ka, hka⟩ := stored a (List.mem_iff_getElem?.mpr ⟨i, ha⟩)
  obtain ⟨kb, hkb⟩ := stored b (List.mem_iff_getElem?.mpr ⟨j, hb⟩)
  obtain ⟨q, hpathA, hpathB⟩ := Reachable_sibling_paths used s hr ka kb a b p hka hkb hpa hpb
  refine GetThread_position S s.commentRepo id d l hl i j a b ha hb ?_
  rw [hpathA, hpathB, stringLess_append]
  exact hless

theorem GetThread_siblings_by_id_witness :
    ∃ (s : CommentService) (l : List Comment) (a b : Comment),
      Reachable [102, 103, 101, 100] s ∧ s.commentRepo.get 101 = none ∧
      CommentRepository.GetThread (insertionSorter Comment) s.commentRepo 100 10 = .ok l ∧
      l[1]? = some a ∧ l[2]? = some b ∧ a.ID = 102 ∧ b.ID = 103 ∧
      a.ParentID = some 101 ∧ b.ParentID = some 101 ∧
      b.CreatedAt < a.CreatedAt ∧ (1 : Nat) < 2 := by
  obtain ⟨s, hr, hrepo⟩ := testOrphans_reachable
  have key : ∀ m : GoMap Comment, m = testOrphans → ∃ (l : List Comment) (a b : Comment),
      m.get 101 = none ∧
      CommentRepository.GetThread (insertionSorter Comment) m 100 10 = .ok l ∧
      l[1]? = some a ∧ l[2]? = some b ∧ a.ID = 102 ∧ b.ID = 103 ∧
      b.CreatedAt < a.CreatedAt ∧ a.ParentID = some 101 ∧ b.ParentID = some 101 ∧
      stringLess a.ID.String b.ID.String = true := by
    intro m hm
    subst hm
    exact ⟨_, _, _, rfl, rfl, rfl, rfl, rfl, rfl, by decide, rfl, rfl, by decide⟩
  obtain ⟨l, a, b, hnone, hl, h1, h2, hida, hidb, hlt, hpa, hpb, hless⟩ := key _ hrepo
  exact ⟨s, l, a, b, hr, hnone, hl, h1, h2, hida, hidb, hpa, hpb, hlt,
    GetThread_siblings_by_id (insertionSorter Comment) _ s 100 10 l hr hl 1 2 a b 101
      h1 h2 hpa hpb hless⟩

end services

/-! ## Lemmas on publishing -/

namespace services

open entities errors inmemory

theorem trySend_eq (c c1 : Chan) (event : CommentEvent) (h : c.trySend event = some c1) :
    c.closed = false ∧
      c1 = if c.buf.length < c.cap then { c with buf := c.buf ++ [event] } else c := by
  unfold Chan.trySend at h
  cases hcl : c.closed with
  | true =>
    rw [hcl] at h
    simp at h
  | false =>
    rw [hcl] at h
    simp only [Bool.false_eq_true, if_false] at h
    refine ⟨rfl, ?_⟩
    by_cases hfull : c.buf.length < c.cap
    · rw [if_pos hfull] at h ⊢
      exact (Option.some.inj h).symm
    · rw [if_neg hfull] at h ⊢
      exact (Option.some.inj h).symm

theorem sendAll_get (event : CommentEvent) (targets : List Nat) :
    ∀ chans chans1 : List Chan, targets.Nodup → sendAll chans event targets = some chans1 →
      (∀ j, j ∉ targets → chans1[j]? = chans[j]?) ∧
      (∀ ch ∈ targets, ∀ c, chans[ch]? = some c →
        chans1[ch]? = some (if c.buf.length < c.cap then { c with buf := c.buf ++ [event] }
          else c)) := by
  induction targets with
  | nil =>
    intro chans chans1 _ h
    simp only [sendAll, Option.some.injEq] at h
    subst h
    exact ⟨fun _ _ => rfl, fun ch hch => absurd hch (List.not_mem_nil _)⟩
  | cons x rest ih =>
    intro chans chans1 hnd h
    obtain ⟨hx, hnd1⟩ := List.nodup_cons.mp hnd
    unfold sendAll at h
    cases hc : chans[x]? with
    | none =>
      rw [hc] at h
      exact absurd h (by simp)
    | some c =>
      rw [hc] at h
      simp only at h
      cases ht : c.trySend event with
      | none =>
        rw [ht] at h
        exact absurd h (by simp)
      | some c1 =>
        rw [ht] at h
        simp only at h
        obtain ⟨i1, i2⟩ := ih _ _ hnd1 h
        have hlt : x < chans.length := by
          by_contra hn
          rw [List.getElem?_eq_none (Nat.le_of_not_lt hn)] at hc
          exact Option.noConfusion hc
        refine ⟨?_, ?_⟩
        · intro j hj
          have hjx : x ≠ j := fun e => hj (by rw [e]; exact List.mem_cons_self _ _)
          rw [i1 j (fun hm => hj (List.mem_cons_of_mem _ hm)), List.getElem?_set_ne hjx]
        · intro ch hch c0 hc0
          rcases List.mem_cons.mp hch with e | hm
          · subst e
            rw [hc] at hc0
            simp only [Option.some.injEq] at hc0
            subst hc0
            rw [i1 ch hx, List.getElem?_set_self hlt, (trySend_eq _ _ _ ht).2]
          · have hne : x ≠ ch := fun e => hx (by rw [e]; exact hm)
            exact i2 ch hm c0 (by rw [List.getElem?_set_ne hne]; exact hc0)

theorem sendAll_chanInv (event : CommentEvent) (targets : List Nat) :
    ∀ chans chans1 : List Chan, (∀ c ∈ chans, c.cap = 10 ∧ c.buf.length ≤ 10) →
      sendAll chans event targets = some chans1 →
      ∀ c ∈ chans1, c.cap = 10 ∧ c.buf.length ≤ 10 := by
  induction targets with
  | nil =>
    intro chans chans1 hinv h
    simp only [sendAll, Option.some.injEq] at h
    subst h
    exact hinv
  | cons x rest ih =>
    intro chans chans1 hinv h
    unfold sendAll at h
    cases hc : chans[x]? with
    | none =>
      rw [hc] at h
      exact absurd h (by simp)
    | some c =>
      rw [hc] at h
      simp only at h
      cases ht : c.trySend event with
      | none =>
        rw [ht] at h
        exact absurd h (by simp)
      | some c1 =>
        rw [ht] at h
        simp only at h
        refine ih _ _ ?_ h
        intro c2 hc2
        rcases List.mem_or_eq_of_mem_set hc2 with hm | e
        · exact hinv c2 hm
        · have hcinv := hinv c (List.getElem?_mem hc)
          rw [e, (trySend_eq _ _ _ ht).2]
          by_cases hfull : c.buf.length < c.cap
          · rw [if_pos hfull]
            simp only [List.length_append, List.length_singleton]
            exact ⟨hcinv.1, by omega⟩
          · rw [if_neg hfull]
            exact hcinv

theorem notifySubscribers_chans (s s1 : CommentService) (postID : UUID) (event : CommentEvent)
    (hnd : ((s.subscribers.get postID).getD []).Nodup)
    (h : s.notifySubscribers postID event = some s1) :
    (∀ j, j ∉ (s.subscribers.get postID).getD [] → s1.chans[j]? = s.chans[j]?) ∧
    (∀ ch ∈ (s.subscribers.get postID).getD [], ∀ c, s.chans[ch]? = some c →
      s1.chans[ch]? = some (if c.buf.length < c.cap then { c with buf := c.buf ++ [event] }
        else c)) := by
  unfold CommentService.notifySubscribers at h
  simp only at h
  by_cases h0 : ((s.subscribers.get postID).getD []).length = 0
  · rw [if_pos h0] at h
    simp only [Option.some.injEq] at h
    subst h
    refine ⟨fun _ _ => rfl, ?_⟩
    intro ch hch
    rw [List.length_eq_zero.mp h0] at hch
    exact absurd hch (List.not_mem_nil _)
  · rw [if_neg h0] at h
    cases hs : sendAll s.chans event ((s.subscribers.get postID).getD []) with
    | none =>
      rw [hs] at h
      exact absurd h (by simp)
    | some chans1 =>
      rw [hs] at h
      simp only [Option.some.injEq] at h
      subst h
      exact sendAll_get event _ _ _ hnd hs

theorem notifySubscribers_chanInv (s s1 : CommentService) (postID : UUID)
    (event : CommentEvent) (hinv : ∀ c ∈ s.chans, c.cap = 10 ∧ c.buf.length ≤ 10)
    (h : s.notifySubscribers postID event = some s1) :
    ∀ c ∈ s1.chans, c.cap = 10 ∧ c.buf.length ≤ 10 := by
  unfold CommentService.notifySubscribers at h
  simp only at h
  by_cases h0 : ((s.subscribers.get postID).getD []).length = 0
  · rw [if_pos h0] at h
    simp only [Option.some.injEq] at h
    subst h
    exact hinv
  · rw [if_neg h0] at h
    cases hs : sendAll s.chans event ((s.subscribers.get postID).getD []) with
    | none =>
      rw [hs] at h
      exact absurd h (by simp)
    | some chans1 =>
      rw [hs] at h
      simp only [Option.some.injEq] at h
      subst h
      exact sendAll_chanInv event _ _ _ hinv hs

theorem CreateComment_ok_notify (s s1 : CommentService) (newID : UUID) (now t1 t2 : Time)
    (postID authorID : UUID) (content : String) (parentID : Option UUID) (comment : Comment)
    (h : s.CreateComment newID now t1 t2 postID authorID content parentID =
      some (s1, .ok comment)) :
    ∃ comments, ({ s with commentRepo := comments } : CommentService).notifySubscribers postID
      { Type_ := "comment_created", PostID := postID, Comment := comment } = some s1 := by
  unfold CommentService.CreateComment at h
  simp only [PostRepository.GetByID, UserRepository.GetByID, CommentRepository.GetByID,
    CommentRepository.Create] at h
  repeat' split at h
  all_goals try simp only [Option.some.injEq, Prod.mk.injEq, reduceCtorEq, and_false] at h
  rename_i s2 hs2
  obtain ⟨hs, hr⟩ := h
  simp only [Except.ok.injEq] at hr
  subst hs hr
  exact ⟨_, hs2⟩

end services

/-! ## Lemmas on the reachable states of the subscriber map -/

namespace services

open entities errors inmemory

theorem closeChan_eq (chans chans1 : List Chan) (ch : Nat)
    (h : closeChan chans ch = some chans1) :
    ∃ c, chans[ch]? = some c ∧ c.closed = false ∧
      chans1 = chans.set ch { c with closed := true } := by
  unfold closeChan at h
  cases hc : chans[ch]? with
  | none =>
    rw [hc] at h
    exact absurd h (by simp)
  | some c =>
    rw [hc] at h
    simp only at h
    cases hcl : c.closed with
    | true =>
      rw [hcl] at h
      simp at h
    | false =>
      rw [hcl] at h
      simp only [Bool.false_eq_true, if_false, Option.some.injEq] at h
      exact ⟨c, rfl, hcl, h.symm⟩

theorem closeChan_of_live (chans : List Chan) (ch : Nat) (c : Chan) (hc : chans[ch]? = some c)
    (hcl : c.closed = false) :
    closeChan chans ch = some (chans.set ch { c with closed := true }) := by
  unfold closeChan
  rw [hc]
  simp only [hcl, Bool.false_eq_true, if_false]

theorem UnsubscribeFromPost_eq (s s1 : CommentService) (postID : UUID) (ch : Nat)
    (h : s.UnsubscribeFromPost postID ch = some s1) :
    ∃ chans1 m,
      ((ch ∈ (s.subscribers.get postID).getD [] ∧ closeChan s.chans ch = some chans1 ∧
          m = s.subscribers.set postID (((s.subscribers.get postID).getD []).erase ch)) ∨
        (ch ∉ (s.subscribers.get postID).getD [] ∧ chans1 = s.chans ∧ m = s.subscribers)) ∧
      s1 = { s with chans := chans1,
                    subscribers := if ((m.get postID).getD []).length = 0 then m.delete postID
                      else m } := by
  unfold CommentService.UnsubscribeFromPost at h
  simp only at h
  by_cases hm : ch ∈ (s.subscribers.get postID).getD []
  · rw [if_pos hm] at h
    cases hc : closeChan s.chans ch with
    | none =>
      rw [hc] at h
      exact absurd h (by simp)
    | some chans1 =>
      rw [hc] at h
      simp only at h
      refine ⟨chans1, _, Or.inl ⟨hm, rfl, rfl⟩, ?_⟩
      split_ifs at h with h0
      · simp only [Option.some.injEq] at h
        rw [← h, if_pos h0]
      · simp only [Option.some.injEq] at h
        rw [← h, if_neg h0]
  · rw [if_neg hm] at h
    simp only at h
    refine ⟨s.chans, s.subscribers, Or.inr ⟨hm, rfl, rfl⟩, ?_⟩
    split_ifs at h with h0
    · simp only [Option.some.injEq] at h
      rw [← h, if_pos h0]
    · simp only [Option.some.injEq] at h
      rw [← h, if_neg h0]

theorem UnsubscribeFromPost_not_mem (s : CommentService) (postID : UUID) (ch : Nat)
    (hm : ch ∉ (s.subscribers.get postID).getD [])
    (hne : s.subscribers.get postID ≠ some []) :
    s.UnsubscribeFromPost postID ch = some s := by
  unfold CommentService.UnsubscribeFromPost
  simp only
  rw [if_neg hm]
  simp only
  cases hl : s.subscribers.get postID with
  | none =>
    simp only [Option.getD_none, List.length_nil, if_true]
    rw [GoMap.delete_of_get_none _ _ hl]
  | some l =>
    have hl0 : l.length ≠ 0 := by
      intro h0
      exact hne (by rw [hl, List.length_eq_zero.mp h0])
    simp only [Option.getD_some, if_neg hl0]

theorem UnsubscribeFromPost_mem (s : CommentService) (postID : UUID) (ch : Nat)
    (l : List Nat) (c : Chan) (hl : s.subscribers.get postID = some l) (hm : ch ∈ l)
    (hc : s.chans[ch]? = some c) (hcl : c.closed = false) :
    ∃ s1, s.UnsubscribeFromPost postID ch = some s1 ∧
      s1.chans = s.chans.set ch { c with closed := true } ∧
      s1.commentRepo = s.commentRepo ∧ s1.postRepo = s.postRepo ∧ s1.userRepo = s.userRepo ∧
      s1.subscribers.get postID = (if l.erase ch = [] then none else some (l.erase ch)) ∧
      ∀ q, q ≠ postID → s1.subscribers.get q = s.subscribers.get q := by
  unfold CommentService.UnsubscribeFromPost
  simp only [hl, Option.getD_some, if_pos hm, closeChan_of_live _ _ _ hc hcl,
    GoMap.get_set_same]
  by_cases h0 : (l.erase ch).length = 0
  · rw [if_pos h0]
    refine ⟨_, rfl, rfl, rfl, rfl, rfl, ?_, ?_⟩
    · simp only [GoMap.get_delete_same, List.length_eq_zero.mp h0, if_true]
    · intro q hq
      simp only [GoMap.get_delete_ne _ _ _ hq, GoMap.get_set_ne _ _ _ _ hq]
  · rw [if_neg h0]
    refine ⟨_, rfl, rfl, rfl, rfl, rfl, ?_, ?_⟩
    · have : l.erase ch ≠ [] := fun e => h0 (by rw [e]; rfl)
      simp only [GoMap.get_set_same, if_neg this]
    · intro q hq
      simp only [GoMap.get_set_ne _ _ _ _ hq]

theorem SubscribeToPost_get (s : CommentService) (postID : UUID) :
    (s.SubscribeToPost postID).1.subscribers.get postID =
        some ((s.subscribers.get postID).getD [] ++ [s.chans.length]) ∧
      (∀ q, q ≠ postID →
        (s.SubscribeToPost postID).1.subscribers.get q = s.subscribers.get q) ∧
      (s.SubscribeToPost postID).1.chans =
        s.chans ++ [{ cap := 10, buf := [], closed := false }] ∧
      (s.SubscribeToPost postID).2 = s.chans.length := by
  unfold CommentService.SubscribeToPost
  cases hl : s.subscribers.get postID with
  | none =>
    refine ⟨?_, ?_, rfl, rfl⟩
    · simp only [GoMap.get_set_same, Option.getD_some, Option.getD_none]
    · intro q hq
      simp only [GoMap.get_set_ne _ _ _ _ hq]
  | some l =>
    refine ⟨?_, ?_, rfl, rfl⟩
    · simp only [GoMap.get_set_same, hl, Option.getD_some]
    · intro q hq
      simp only [GoMap.get_set_ne _ _ _ _ hq]

theorem BusReachable_BusInv (s : CommentService) (h : BusReachable s) : BusInv s := by
  induction h with
  | init commentRepo postRepo userRepo => exact BusInv_NewCommentService _ _ _
  | subscribe s postID hs ih => exact BusInv_SubscribeToPost s postID ih
  | unsubscribe s s1 postID ch hs h ih => exact BusInv_UnsubscribeFromPost s s1 postID ch ih h
  | create s s1 newID now t1 t2 postID authorID content parentID r hs h ih =>
    exact BusInv_CreateComment s s1 newID now t1 t2 postID authorID content parentID r ih h
  | receive s ch c event rest hs hc hbuf ih =>
    refine BusInv_of_frame s _ ih rfl ?_
    intro j hj
    obtain ⟨c0, hc0, hcl⟩ := hj
    by_cases e : ch = j
    · subst e
      rw [hc] at hc0
      simp only [Option.some.injEq] at hc0
      subst hc0
      have hlt : ch < s.chans.length := by
        by_contra hn
        rw [List.getElem?_eq_none (Nat.le_of_not_lt hn)] at hc
        exact Option.noConfusion hc
      exact ⟨_, List.getElem?_set_self hlt, hcl⟩
    · exact ⟨c0, by rw [List.getElem?_set_ne e]; exact hc0, hcl⟩
  | other s s1 hs h1 h2 ih =>
    exact BusInv_of_frame s s1 ih h2 (fun j hj => by rw [h1]; exact hj)

theorem BusReachable_chanInv (s : CommentService) (h : BusReachable s) :
    ∀ c ∈ s.chans, c.cap = 10 ∧ c.buf.length ≤ 10 := by
  induction h with
  | init commentRepo postRepo userRepo =>
    intro c hc
    exact absurd hc (List.not_mem_nil _)
  | subscribe s postID hs ih =>
    intro c hc
    rw [(SubscribeToPost_get s postID).2.2.1] at hc
    rcases List.mem_append.mp hc with hm | hm
    · exact ih c hm
    · rw [List.mem_singleton.mp hm]
      exact ⟨rfl, by decide⟩
  | unsubscribe s s1 postID ch hs h ih =>
    obtain ⟨chans1, m, hcase, hs1⟩ := UnsubscribeFromPost_eq s s1 postID ch h
    intro c hc
    rw [hs1] at hc
    simp only at hc
    rcases hcase with ⟨-, hclose, -⟩ | ⟨-, e, -⟩
    · obtain ⟨c0, hc0, -, e⟩ := closeChan_eq _ _ _ hclose
      rw [e] at hc
      rcases List.mem_or_eq_of_mem_set hc with hm | e1
      · exact ih c hm
      · rw [e1]
        exact ih c0 (List.getElem?_mem hc0)
    · rw [e] at hc
      exact ih c hc
  | create s s1 newID now t1 t2 postID authorID content parentID r hs h ih =>
    rcases CreateComment_inv _ _ _ _ _ _ _ _ _ _ _ h with ⟨e, -⟩ |
      ⟨nc, parent, -, -, hr, -⟩
    · rw [e]
      exact ih
    · rw [hr] at h
      obtain ⟨comments, hn⟩ := CreateComment_ok_notify _ _ _ _ _ _ _ _ _ _ _ h
      exact notifySubscribers_chanInv { s with commentRepo := comments } _ _ _ ih hn
  | receive s ch c event rest hs hc hbuf ih =>
    intro c1 hc1
    rcases List.mem_or_eq_of_mem_set hc1 with hm | e
    · exact ih c1 hm
    · have := ih c (List.getElem?_mem hc)
      rw [e]
      rw [hbuf] at this
      simp only [List.length_cons] at this
      exact ⟨this.1, by simp only; omega⟩
  | other s s1 hs h1 h2 ih =>
    rw [h1]
    exact ih

theorem BusReachable_noEmpty (s : CommentService) (h : BusReachable s) :
    ∀ p, s.subscribers.get p ≠ some [] := by
  induction h with
  | init commentRepo postRepo userRepo =>
    intro p
    simp [NewCommentService, GoMap.get]
  | subscribe s postID hs ih =>
    intro p
    by_cases e : p = postID
    · subst e
      rw [(SubscribeToPost_get s p).1]
      simp
    · rw [(SubscribeToPost_get s postID).2.1 p e]
      exact ih p
  | unsubscribe s s1 postID ch hs h ih =>
    obtain ⟨chans1, m, hcase, hs1⟩ := UnsubscribeFromPost_eq s s1 postID ch h
    have hm : ∀ q, q ≠ postID → m.get q = s.subscribers.get q := by
      intro q hq
      rcases hcase with ⟨-, -, e⟩ | ⟨-, -, e⟩
      · rw [e, GoMap.get_set_ne _ _ _ _ hq]
      · rw [e]
    intro p
    rw [hs1]
    simp only
    by_cases h0 : ((m.get postID).getD []).length = 0
    · rw [if_pos h0]
      by_cases e : p = postID
      · subst e
        rw [GoMap.get_delete_same]
        simp
      · rw [GoMap.get_delete_ne _ _ _ e, hm p e]
        exact ih p
    · rw [if_neg h0]
      by_cases e : p = postID
      · subst e
        intro hp
        rw [hp] at h0
        exact h0 rfl
      · rw [hm p e]
        exact ih p
  | create s s1 newID now t1 t2 postID authorID content parentID r hs h ih =>
    rcases CreateComment_inv _ _ _ _ _ _ _ _ _ _ _ h with ⟨e, -⟩ |
      ⟨nc, parent, -, -, -, -, -, -, hsub, -⟩
    · rw [e]
      exact ih
    · rw [hsub]
      exact ih
  | receive s ch c event rest hs hc hbuf ih => exact ih
  | other s s1 hs h1 h2 ih =>
    rw [h2]
    exact ih

end services

namespace services

open entities errors inmemory

theorem testServiceFull_reachable : BusReachable testServiceFull := by
  have h0 := BusReachable.init [] [(1, testPost)] [(5, testUser)]
  have h1 := BusReachable.subscribe _ 1 h0
  have h2 := BusReachable.subscribe _ 1 h1
  have c0 := BusReachable.create _ _ 100 1 1 1 1 5 "Root" none _ h2 rfl
  have c1 := BusReachable.create _ _ 101 1 1 1 1 5 "Root" none _ c0 rfl
  have c2 := BusReachable.create _ _ 102 1 1 1 1 5 "Root" none _ c1 rfl
  have c3 := BusReachable.create _ _ 103 1 1 1 1 5 "Root" none _ c2 rfl
  have c4 := BusReachable.create _ _ 104 1 1 1 1 5 "Root" none _ c3 rfl
  have c5 := BusReachable.create _ _ 105 1 1 1 1 5 "Root" none _ c4 rfl
  have c6 := BusReachable.create _ _ 106 1 1 1 1 5 "Root" none _ c5 rfl
  have c7 := BusReachable.create _ _ 107 1 1 1 1 5 "Root" none _ c6 rfl
  have c8 := BusReachable.create _ _ 108 1 1 1 1 5 "Root" none _ c7 rfl
  have c9 := BusReachable.create _ _ 109 1 1 1 1 5 "Root" none _ c8 rfl
  have h3 := BusReachable.subscribe _ 1 c9
  exact h3

end services

namespace services

open entities errors inmemory

theorem BusInv_nodup (s : CommentService) (h : BusInv s) (postID : UUID) :
    ((s.subscribers.get postID).getD []).Nodup := by
  cases hl : s.subscribers.get postID with
  | none => exact List.nodup_nil
  | some l => exact (h postID l hl).1

theorem UnsubscribeFromPost_not_registered (s s1 : CommentService) (postID : UUID) (ch : Nat)
    (hinv : BusInv s) (h : s.UnsubscribeFromPost postID ch = some s1) :
    ch ∉ (s1.subscribers.get postID).getD [] := by
  obtain ⟨chans1, m, hcase, hs1⟩ := UnsubscribeFromPost_eq s s1 postID ch h
  have hm : ch ∉ (m.get postID).getD [] := by
    rcases hcase with ⟨-, -, e⟩ | ⟨hn, -, e⟩
    · rw [e, GoMap.get_set_same]
      simp only [Option.getD_some]
      intro hmem
      exact ((BusInv_nodup s hinv postID).mem_erase_iff.mp hmem).1 rfl
    · rw [e]
      exact hn
  rw [hs1]
  simp only
  by_cases h0 : ((m.get postID).getD []).length = 0
  · rw [if_pos h0, GoMap.get_delete_same]
    exact List.not_mem_nil _
  · rw [if_neg h0]
    exact hm

theorem CreateComment_chans (s s1 : CommentService) (newID : UUID) (now t1 t2 : Time)
    (postID authorID : UUID) (content : String) (parentID : Option UUID) (comment : Comment)
    (hinv : BusInv s)
    (h : s.CreateComment newID now t1 t2 postID authorID content parentID =
      some (s1, .ok comment)) :
    (∀ j, j ∉ (s.subscribers.get postID).getD [] → s1.chans[j]? = s.chans[j]?) ∧
    (∀ ch ∈ (s.subscribers.get postID).getD [], ∀ c, s.chans[ch]? = some c →
      s1.chans[ch]? = some (if c.buf.length < c.cap then
        { c with buf := c.buf ++
            [{ Type_ := "comment_created", PostID := postID, Comment := comment }] }
        else c)) := by
  obtain ⟨comments, hn⟩ := CreateComment_ok_notify _ _ _ _ _ _ _ _ _ _ _ h
  exact notifySubscribers_chans { s with commentRepo := comments } s1 postID _
    (BusInv_nodup s hinv postID) hn

/-- C26: in a reachable state, for every post P and every successful `CreateComment` on
P, each stream subscribed to P whose buffer is not full (fewer than 10 pending events)
receives exactly one new event, appended to its queue, of type "comment_created", with
PostID = P and carrying the comment `CreateComment` returns (whose ID is the new ID);
the streams subscribed to other posts, every stream that is not subscribed to P, and a
stream that was unsubscribed from P before the call, are left as they were.  With two
subscribers on post 1, one `CreateComment` gives each of them exactly one event. -/
theorem CreateComment_fanout :
    (∀ (s s1 : CommentService) (newID : UUID) (now t1 t2 : Time) (postID authorID : UUID)
        (content : String) (parentID : Option UUID) (comment : Comment),
      BusReachable s →
      s.CreateComment newID now t1 t2 postID authorID content parentID =
        some (s1, .ok comment) →
      comment.ID = newID ∧
      (∀ ch ∈ (s.subscribers.get postID).getD [], ∀ c, s.chans[ch]? = some c →
        c.buf.length < 10 →
        s1.chans[ch]? = some { c with buf := c.buf ++
          [{ Type_ := "comment_created", PostID := postID, Comment := comment }] }) ∧
      (∀ q l, q ≠ postID → s.subscribers.get q = some l →
        ∀ ch ∈ l, s1.chans[ch]? = s.chans[ch]?) ∧
      (∀ ch, ch ∉ (s.subscribers.get postID).getD [] → s1.chans[ch]? = s.chans[ch]?) ∧
      (∀ s0 ch, BusReachable s0 → s0.UnsubscribeFromPost postID ch = some s →
        s1.chans[ch]? = s.chans[ch]?)) ∧
    (∃ s1 comment,
      ((testServiceNew.SubscribeToPost 1).1.SubscribeToPost 1).1.CreateComment 100 1 1 1 1 5
        "Root" none = some (s1, .ok comment) ∧
      s1.chans =
        [{ cap := 10, closed := false,
           buf := [{ Type_ := "comment_created", PostID := 1, Comment := comment }] },
         { cap := 10, closed := false,
           buf := [{ Type_ := "comment_created", PostID := 1, Comment := comment }] }]) := by
  refine ⟨?_, ⟨_, _, rfl, rfl⟩⟩
  intro s s1 newID now t1 t2 postID authorID content parentID comment hr h
  have hinv := BusReachable_BusInv s hr
  have hcap := BusReachable_chanInv s hr
  obtain ⟨hother, hsub⟩ := CreateComment_chans _ _ _ _ _ _ _ _ _ _ _ hinv h
  refine ⟨?_, ?_, ?_, hother, ?_⟩
  · rcases CreateComment_inv _ _ _ _ _ _ _ _ _ _ _ h with ⟨-, e, he⟩ |
      ⟨nc, parent, -, hnc, hrr, -⟩
    · exact absurd he (by simp)
    · simp only [Except.ok.injEq] at hrr
      rw [hrr]
      exact (NewComment_fields _ _ _ _ _ _ _ hnc).1
  · intro ch hch c hc hlen
    rw [hsub ch hch c hc, if_pos (by rw [(hcap c (List.getElem?_mem hc)).1]; exact hlen)]
  · intro q l hq hl ch hch
    apply hother
    cases hp : s.subscribers.get postID with
    | none => exact List.not_mem_nil _
    | some l0 => exact fun hm => (hinv q l hl).2.2 postID l0 (Ne.symm hq) hp ch hch hm
  · intro s0 ch hr0 hu
    exact hother ch (UnsubscribeFromPost_not_registered s0 s postID ch
      (BusReachable_BusInv s0 hr0) hu)

theorem CreateComment_fanout_witness :
    ∃ s1 comment, testServiceFull.CreateComment 110 1 1 1 1 5 "Root" none =
        some (s1, .ok comment) ∧
      comment.ID = 110 ∧
      s1.chans[2]? =
        some { cap := 10, closed := false,
               buf := [{ Type_ := "comment_created", PostID := 1, Comment := comment }] } := by
  have h := CreateComment_fanout.1 testServiceFull _ 110 1 1 1 1 5 "Root" none _
    testServiceFull_reachable rfl
  exact ⟨_, _, rfl, h.1, h.2.1 2 (by decide) _ rfl (by decide)⟩

/-- C27: in every reachable state every subscription stream has capacity 10 and holds
at most 10 pending events.  A `CreateComment` that meets its preconditions succeeds and
persists the comment whatever the state of the streams; a stream of the post that
already holds 10 pending events is left unchanged (the event is dropped for it only),
and the event is appended to every other stream of the post that holds fewer than 10. -/
theorem publish_to_full_stream :
    (∀ s : CommentService, BusReachable s →
      ∀ c ∈ s.chans, c.cap = 10 ∧ c.buf.length ≤ 10) ∧
    (∀ (s : CommentService) (newID : UUID) (now t1 t2 : Time) (postID authorID : UUID)
        (content : String) (parentID : Option UUID) (post : Post) (author : User),
      BusReachable s →
      s.postRepo.get postID = some post → post.CommentsDisabled = false →
      s.userRepo.get authorID = some author →
      (parentID = none ∨
        ∃ pid P, parentID = some pid ∧ s.commentRepo.get pid = some P ∧ P.PostID = postID) →
      strings.TrimSpace content ≠ "" → len content ≤ MaxCommentLength →
      ∃ s1 comment,
        s.CreateComment newID now t1 t2 postID authorID content parentID =
          some (s1, .ok comment) ∧
        s1.commentRepo.get newID = some comment ∧
        ∀ ch ∈ (s.subscribers.get postID).getD [], ∀ c, s.chans[ch]? = some c →
          (c.buf.length = 10 → s1.chans[ch]? = some c) ∧
          (c.buf.length < 10 → s1.chans[ch]? = some { c with buf := c.buf ++
            [{ Type_ := "comment_created", PostID := postID, Comment := comment }] })) := by
  refine ⟨BusReachable_chanInv, ?_⟩
  intro s newID now t1 t2 postID authorID content parentID post author hr hp hen ha hpar
    hnb hlen
  have hinv := BusReachable_BusInv s hr
  have hcap := BusReachable_chanInv s hr
  have hpar1 : ∃ parent : Option Comment, (parentID = none ∧ parent = none) ∨
      ∃ pid P, parentID = some pid ∧ parent = some P ∧ s.commentRepo.get pid = some P ∧
        P.PostID = postID := by
    rcases hpar with hn | ⟨pid, P, h1, h2, h3⟩
    · exact ⟨none, Or.inl ⟨hn, rfl⟩⟩
    · exact ⟨some P, Or.inr ⟨pid, P, h1, rfl, h2, h3⟩⟩
  obtain ⟨parent, hpar2⟩ := hpar1
  obtain ⟨s1, nc, -, hc, hrepo, -⟩ := CreateComment_success s newID now t1 t2 postID
    authorID content parentID post author parent hp hen ha hpar2 hnb hlen
    (BusInv_liveSubscribers s hinv postID)
  obtain ⟨-, hsub⟩ := CreateComment_chans _ _ _ _ _ _ _ _ _ _ _ hinv hc
  refine ⟨s1, _, hc, by rw [hrepo, GoMap.get_set_same], ?_⟩
  intro ch hch c hcc
  have hc10 := (hcap c (List.getElem?_mem hcc)).1
  refine ⟨?_, ?_⟩
  · intro hfull
    rw [hsub ch hch c hcc, if_neg (by rw [hc10, hfull]; exact Nat.lt_irrefl _)]
  · intro hlt
    rw [hsub ch hch c hcc, if_pos (by rw [hc10]; exact hlt)]

theorem publish_to_full_stream_witness :
    ∃ s1 comment, testServiceFull.CreateComment 110 1 1 1 1 5 "Root" none =
        some (s1, .ok comment) ∧
      s1.commentRepo.get 110 = some comment ∧
      s1.chans[0]? = testServiceFull.chans[0]? ∧
      (testServiceFull.chans.map (fun c => c.buf.length)) = [10, 10, 0] ∧
      s1.chans[2]? =
        some { cap := 10, closed := false,
               buf := [{ Type_ := "comment_created", PostID := 1, Comment := comment }] } := by
  obtain ⟨s1, comment, h, hget, hch⟩ := publish_to_full_stream.2 testServiceFull 110 1 1 1 1 5
    "Root" none testPost testUser testServiceFull_reachable rfl rfl rfl (Or.inl rfl)
    (by decide) (by decide)
  exact ⟨s1, comment, h, hget, ((hch 0 (by decide) _ rfl).1 (by decide)).trans rfl,
    by decide, (hch 2 (by decide) _ rfl).2 (by decide)⟩

end services

/-! ## Claims on `UnsubscribeFromPost` -/

namespace services

open entities errors inmemory

theorem testService_reachable : BusReachable testService :=
  BusReachable.subscribe _ 1 (BusReachable.init testComments [(1, testPost)] [(5, testUser)])

/-- C28: in a reachable state, `UnsubscribeFromPost(P, s)` for a stream s registered
under P closes s (and no other stream) and removes exactly s from P's subscriber list:
the new list is the old one without s, one element shorter, every other stream of P in
its previous relative order; the lists of all other posts are unchanged; when s was P's
last subscriber, P's entry is removed from the map.  In every reachable state no post
maps to an empty subscriber list. -/
theorem UnsubscribeFromPost_removes :
    (∀ (s : CommentService) (postID : UUID) (ch : Nat) (l : List Nat),
      BusReachable s → s.subscribers.get postID = some l → ch ∈ l →
      ∃ s1 c, s.UnsubscribeFromPost postID ch = some s1 ∧
        s.chans[ch]? = some c ∧ c.closed = false ∧
        s1.chans = s.chans.set ch { c with closed := true } ∧
        (s1.subscribers.get postID).getD [] = l.filter (fun x => x != ch) ∧
        (l.filter (fun x => x != ch)).length + 1 = l.length ∧
        (∀ q, q ≠ postID → s1.subscribers.get q = s.subscribers.get q) ∧
        (l.filter (fun x => x != ch) = [] → s1.subscribers.get postID = none)) ∧
    (∀ s : CommentService, BusReachable s → ∀ p, s.subscribers.get p ≠ some []) := by
  refine ⟨?_, BusReachable_noEmpty⟩
  intro s postID ch l hr hl hm
  have hinv := BusReachable_BusInv s hr
  obtain ⟨hnd, hlive, -⟩ := hinv postID l hl
  obtain ⟨c, hc, hcl⟩ := hlive ch hm
  obtain ⟨s1, hu, hchans, -, -, -, hget, hothers⟩ :=
    UnsubscribeFromPost_mem s postID ch l c hl hm hc hcl
  have he : l.erase ch = l.filter (fun x => x != ch) := hnd.erase_eq_filter ch
  refine ⟨s1, c, hu, hc, hcl, hchans, ?_, ?_, hothers, ?_⟩
  · rw [hget, ← he]
    by_cases h0 : l.erase ch = []
    · rw [if_pos h0, h0]
      rfl
    · rw [if_neg h0]
      rfl
  · rw [← he, List.length_erase_of_mem hm]
    have : 0 < l.length := List.length_pos_of_mem hm
    omega
  · intro h0
    rw [hget, he, if_pos h0]

theorem UnsubscribeFromPost_removes_witness :
    (∃ s1, testServiceFull.UnsubscribeFromPost 1 1 = some s1 ∧
      s1.subscribers.get 1 = some [0, 2] ∧
      s1.chans.map (fun c => c.closed) = [false, true, false]) ∧
    (∃ s1, testService.UnsubscribeFromPost 1 0 = some s1 ∧ s1.subscribers.get 1 = none) := by
  refine ⟨?_, ?_⟩
  · obtain ⟨s1, c, hu, -, -, -, -, -, -, -⟩ := UnsubscribeFromPost_removes.1 testServiceFull
      1 1 [0, 1, 2] testServiceFull_reachable rfl (by decide)
    have e : testServiceFull.UnsubscribeFromPost 1 1 = some _ := rfl
    rw [e] at hu
    simp only [Option.some.injEq] at hu
    refine ⟨s1, by rw [e, hu], ?_, ?_⟩
    · rw [← hu]
      rfl
    · rw [← hu]
      rfl
  · obtain ⟨s1, c, hu, -, -, -, -, -, -, hlast⟩ := UnsubscribeFromPost_removes.1 testService
      1 0 [0] testService_reachable rfl (by decide)
    exact ⟨s1, hu, hlast (by decide)⟩

/-- C29: in a reachable state, `UnsubscribeFromPost(P, s)` for a stream s that is not
registered under P (never registered, or already unsubscribed) closes no stream and
leaves the whole state, the subscriber registry in particular, exactly as it was;
unsubscribing a second time leaves the state reached by the first call unchanged; and no
call of `UnsubscribeFromPost` panics, so no stream is ever closed twice. -/
theorem UnsubscribeFromPost_idempotent :
    (∀ (s : CommentService) (postID : UUID) (ch : Nat), BusReachable s →
      ch ∉ (s.subscribers.get postID).getD [] → s.UnsubscribeFromPost postID ch = some s) ∧
    (∀ (s s1 : CommentService) (postID : UUID) (ch : Nat), BusReachable s →
      s.UnsubscribeFromPost postID ch = some s1 →
      s1.UnsubscribeFromPost postID ch = some s1) ∧
    (∀ (s : CommentService) (postID : UUID) (ch : Nat), BusReachable s →
      ∃ s1, s.UnsubscribeFromPost postID ch = some s1) := by
  refine ⟨?_, ?_, ?_⟩
  · intro s postID ch hr hm
    exact UnsubscribeFromPost_not_mem s postID ch hm (BusReachable_noEmpty s hr postID)
  · intro s s1 postID ch hr hu
    have hr1 : BusReachable s1 := BusReachable.unsubscribe s s1 postID ch hr hu
    exact UnsubscribeFromPost_not_mem s1 postID ch
      (UnsubscribeFromPost_not_registered s s1 postID ch (BusReachable_BusInv s hr) hu)
      (BusReachable_noEmpty s1 hr1 postID)
  · intro s postID ch hr
    by_cases hm : ch ∈ (s.subscribers.get postID).getD []
    · cases hl : s.subscribers.get postID with
      | none =>
        rw [hl] at hm
        exact absurd hm (List.not_mem_nil _)
      | some l =>
        rw [hl] at hm
        obtain ⟨c, hc, hcl⟩ := (BusReachable_BusInv s hr postID l hl).2.1 ch hm
        obtain ⟨s1, hu, -⟩ := UnsubscribeFromPost_mem s postID ch l c hl hm hc hcl
        exact ⟨s1, hu⟩
    · exact ⟨s, UnsubscribeFromPost_not_mem s postID ch hm (BusReachable_noEmpty s hr postID)⟩

theorem UnsubscribeFromPost_idempotent_witness :
    testService.UnsubscribeFromPost 1 7 = some testService ∧
    testService.UnsubscribeFromPost 9 0 = some testService ∧
    ∃ s1, testService.UnsubscribeFromPost 1 0 = some s1 ∧
      s1.UnsubscribeFromPost 1 0 = some s1 ∧
      s1.chans = [{ cap := 10, buf := [], closed := true }] ∧ s1.subscribers = [] := by
  refine ⟨UnsubscribeFromPost_idempotent.1 testService 1 7 testService_reachable (by decide),
    UnsubscribeFromPost_idempotent.1 testService 9 0 testService_reachable (by decide),
    _, rfl, ?_, rfl, rfl⟩
  exact UnsubscribeFromPost_idempotent.2.1 testService _ 1 0 testService_reachable rfl

end services

/-! ## A publish interleaved with an unsubscribe -/

namespace services

open entities errors inmemory

theorem runSchedule_done (postID : UUID) (event : CommentEvent) (s : CommentService)
    (n : Nat) :
    runSchedule postID event (s, .done) (List.replicate n .publish) = some (s, .done) := by
  induction n with
  | zero => rfl
  | succ k ih =>
    rw [List.replicate_succ]
    simp only [runSchedule, stepPublisher]
    exact ih

theorem runSchedule_sending (postID : UUID) (event : CommentEvent) (s : CommentService)
    (rest : List Nat) :
    ∀ chans : List Chan,
      runSchedule postID event ({ s with chans := chans }, .sending rest)
          (List.replicate (rest.length + 1) .publish) =
        (sendAll chans event rest).map (fun chans1 => ({ s with chans := chans1 }, .done)) := by
  induction rest with
  | nil =>
    intro chans
    rfl
  | cons ch rest ih =>
    intro chans
    rw [List.length_cons, List.replicate_succ]
    simp only [runSchedule, stepPublisher, sendAll]
    cases hc : chans[ch]? with
    | none => rfl
    | some c =>
      simp only
      cases ht : c.trySend event with
      | none => rfl
      | some c1 =>
        simp only
        exact ih (chans.set ch c1)

/-- C30 does not hold of the code: `notifySubscribers` releases the read lock before it
sends, so `UnsubscribeFromPost` can close a stream of its snapshot in between, and the
send on the closed stream panics.  For post 1 with the one subscriber 0: the schedule
snapshot, unsubscribe(1, 0), send panics (`none`), while both sequential orders run
through.  Run without interruption, the schedule is `notifySubscribers`. -/
theorem notifySubscribers_races_with_unsubscribe :
    (∀ (s : CommentService) (postID : UUID) (event : CommentEvent),
      runSchedule postID event (s, .start)
          (List.replicate (((s.subscribers.get postID).getD []).length + 2) .publish) =
        (s.notifySubscribers postID event).map (fun s1 => (s1, .done))) ∧
    (stepPublisher testService 1 (testEvent 0) .start = some (testService, .sending [0]) ∧
      runSchedule 1 (testEvent 0) (testService, .start)
        [.publish, .unsubscribe 1 0, .publish] = none) ∧
    (∃ s1, runSchedule 1 (testEvent 0) (testService, .start)
        [.publish, .publish, .publish, .unsubscribe 1 0] = some (s1, .done)) ∧
    (∃ s1, runSchedule 1 (testEvent 0) (testService, .start)
        [.unsubscribe 1 0, .publish] = some (s1, .done)) := by
  refine ⟨?_, ⟨rfl, rfl⟩, ⟨_, rfl⟩, ⟨_, rfl⟩⟩
  intro s postID event
  have hstep : stepPublisher s postID event .start =
      if ((s.subscribers.get postID).getD []).length = 0 then some (s, .done)
      else some (s, .sending ((s.subscribers.get postID).getD [])) := rfl
  have hrun : runSchedule postID event (s, .start)
      (List.replicate (((s.subscribers.get postID).getD []).length + 2) .publish) =
      match stepPublisher s postID event .start with
      | none => none
      | some st => runSchedule postID event st
          (List.replicate (((s.subscribers.get postID).getD []).length + 1) .publish) := rfl
  rw [hrun, hstep]
  unfold CommentService.notifySubscribers
  by_cases h0 : ((s.subscribers.get postID).getD []).length = 0
  · simp only [if_pos h0, Option.map_some']
    exact runSchedule_done postID event s _
  · simp only [if_neg h0]
    refine (runSchedule_sending postID event s ((s.subscribers.get postID).getD [])
      s.chans).trans ?_
    cases sendAll s.chans event ((s.subscribers.get postID).getD []) <;> rfl

end services

/-! ## Claims on what is published, and in which order -/

namespace services

open entities errors inmemory

/-- C31: `UpdateComment` and `DeleteComment` never publish: for every state and every
argument, whether the call succeeds or fails, the streams (with their pending events)
and the subscriber map are the same after the call as before; and a `CreateComment`
that fails with an error leaves the whole state as it was. -/
theorem update_delete_never_publish :
    (∀ (s : CommentService) (now : Time) (commentID authorID : UUID) (content : String),
      (s.UpdateComment now commentID authorID content).1.chans = s.chans ∧
      (s.UpdateComment now commentID authorID content).1.subscribers = s.subscribers) ∧
    (∀ (s : CommentService) (commentID authorID : UUID),
      (s.DeleteComment commentID authorID).1.chans = s.chans ∧
      (s.DeleteComment commentID authorID).1.subscribers = s.subscribers) ∧
    (∀ (s s1 : CommentService) (newID : UUID) (now t1 t2 : Time) (postID authorID : UUID)
        (content : String) (parentID : Option UUID) (e : AppError),
      s.CreateComment newID now t1 t2 postID authorID content parentID =
        some (s1, .error e) → s1 = s) := by
  refine ⟨?_, ?_, ?_⟩
  · intro s now commentID authorID content
    unfold CommentService.UpdateComment
    simp only [CommentRepository.GetByID, CommentRepository.Update]
    repeat' split
    all_goals exact ⟨rfl, rfl⟩
  · intro s commentID authorID
    unfold CommentService.DeleteComment
    simp only [CommentRepository.GetByID, CommentRepository.Delete]
    repeat' split
    all_goals exact ⟨rfl, rfl⟩
  · intro s s1 newID now t1 t2 postID authorID content parentID e h
    rcases CreateComment_inv _ _ _ _ _ _ _ _ _ _ _ h with ⟨hs, -⟩ | ⟨nc, parent, -, -, hr, -⟩
    · exact hs
    · exact absurd hr (by simp)

theorem update_delete_never_publish_witness :
    ∃ s1, testServiceDisabled.CreateComment 101 3 4 5 1 5 "Reply" none =
        some (s1, .error NewCommentsDisabledError) ∧
      s1 = testServiceDisabled := by
  refine ⟨_, rfl, ?_⟩
  exact update_delete_never_publish.2.2 testServiceDisabled _ 101 3 4 5 1 5 "Reply" none _ rfl

/-- C40: each subscriber sees its events in publish order: if, in a reachable state, two
`CreateComment` calls on post P succeed one after the other while a stream subscribed
to P has at least two free slots, then the queue of that stream afterwards is its old
queue, unchanged and in front, followed by the event carrying the first comment and
then the event carrying the second. -/
theorem publish_order (s s1 s2 : CommentService) (id1 id2 : UUID)
    (now1 t1 t2 now2 t3 t4 : Time) (postID author1 author2 : UUID)
    (content1 content2 : String) (parent1 parent2 : Option UUID) (c1 c2 : Comment)
    (ch : Nat) (c : Chan) (hr : BusReachable s)
    (h1 : s.CreateComment id1 now1 t1 t2 postID author1 content1 parent1 =
      some (s1, .ok c1))
    (h2 : s1.CreateComment id2 now2 t3 t4 postID author2 content2 parent2 =
      some (s2, .ok c2))
    (hch : ch ∈ (s.subscribers.get postID).getD []) (hc : s.chans[ch]? = some c)
    (hfree : c.buf.length + 2 ≤ 10) :
    s2.chans[ch]? = some { c with buf := c.buf ++
      [{ Type_ := "comment_created", PostID := postID, Comment := c1 },
       { Type_ := "comment_created", PostID := postID, Comment := c2 }] } := by
  have hinv := BusReachable_BusInv s hr
  have hcap := (BusReachable_chanInv s hr c (List.getElem?_mem hc)).1
  have hr1 : BusReachable s1 :=
    BusReachable.create s s1 id1 now1 t1 t2 postID author1 content1 parent1 _ hr h1
  have hsub : s1.subscribers = s.subscribers := by
    rcases CreateComment_inv _ _ _ _ _ _ _ _ _ _ _ h1 with ⟨hs, -⟩ |
      ⟨nc, parent, -, -, -, -, -, -, hsub, -⟩
    · rw [hs]
    · exact hsub
  have e1 := (CreateComment_chans _ _ _ _ _ _ _ _ _ _ _ hinv h1).2 ch hch c hc
  rw [if_pos (by omega)] at e1
  have e2 := (CreateComment_chans _ _ _ _ _ _ _ _ _ _ _ (BusReachable_BusInv s1 hr1) h2).2 ch
    (by rw [hsub]; exact hch) _ e1
  rw [e2, if_pos (by simp only [List.length_append, List.length_singleton]; omega)]
  simp only [List.append_assoc, List.singleton_append]

theorem publish_order_witness :
    ∃ s1 s2 c1 c2,
      testServiceFull.CreateComment 110 1 1 1 1 5 "First" none = some (s1, .ok c1) ∧
      s1.CreateComment 111 2 2 2 1 5 "Second" none = some (s2, .ok c2) ∧
      s2.chans[2]? =
        some { cap := 10, closed := false,
               buf := [{ Type_ := "comment_created", PostID := 1, Comment := c1 },
                       { Type_ := "comment_created", PostID := 1, Comment := c2 }] } ∧
      c1.Content = "First" ∧ c2.Content = "Second" := by
  refine ⟨_, _, _, _, rfl, rfl, ?_, rfl, rfl⟩
  exact publish_order testServiceFull _ _ 110 111 1 1 1 2 2 2 1 5 5 "First" "Second" none none
    _ _ 2 _ testServiceFull_reachable rfl rfl (by decide) rfl (by decide)

end services

/-! ## Claims on hydration and on the error kinds of the read paths -/

namespace contract

open entities errors

theorem loadCommentsRelations_fields (s : CommentService) (comments : List LoadedComment) :
    (s.loadCommentsRelations comments).1.map (fun c => c.Fields) =
      comments.map (fun c => c.Fields) := by
  unfold CommentService.loadCommentsRelations
  by_cases h0 : comments.length = 0
  · rw [if_pos h0]
  · rw [if_neg h0]
    simp only [List.map_map]
    apply List.map_congr_left
    intro c _
    simp only [Function.comp]
    repeat' split
    all_goals rfl

theorem loadCommentRelations_fields (s : CommentService) (comment : LoadedComment) :
    (s.loadCommentRelations comment).Fields = comment.Fields := by
  unfold CommentService.loadCommentRelations
  cases s.userRepo.GetByID comment.Fields.AuthorID with
  | error e1 =>
    cases s.postRepo.GetByID comment.Fields.PostID with
    | error e2 =>
      dsimp only
      repeat' split
      all_goals rfl
    | ok o2 =>
      cases o2 <;> dsimp only <;> repeat' split
      all_goals rfl
  | ok o1 =>
    cases o1 with
    | none =>
      cases s.postRepo.GetByID comment.Fields.PostID with
      | error e2 =>
        dsimp only
        repeat' split
        all_goals rfl
      | ok o2 =>
        cases o2 <;> dsimp only <;> repeat' split
        all_goals rfl
    | some a =>
      cases s.postRepo.GetByID comment.Fields.PostID with
      | error e2 =>
        dsimp only
        repeat' split
        all_goals rfl
      | ok o2 =>
        cases o2 <;> dsimp only <;> repeat' split
        all_goals rfl

/-- C32: a relation-loading failure never fails a read: whatever the repositories are
(so whether the batch fetches of users, posts and parents succeed, fail or deliver only
some of the entities), whenever the existence check and the primary query succeed,
`GetPostComments`, `GetCommentReplies` and `GetCommentThread` return without error the
comments the store returned, same persisted fields (so same IDs) in the same order, and
the pagination info the store returned. -/
theorem relation_failure_never_fails_read (s : CommentService) :
    (∀ (postID : UUID) (pagination : PaginationRequest) (comments : List LoadedComment)
        (resp : PaginationResponse),
      s.postRepo.Exists postID = .ok true →
      s.commentRepo.GetByPostID postID pagination = .ok (comments, resp) →
      ∃ result, s.GetPostComments postID pagination = .ok (result, resp) ∧
        result.map (fun c => c.Fields) = comments.map (fun c => c.Fields)) ∧
    (∀ (parentID : UUID) (pagination : PaginationRequest) (replies : List LoadedComment)
        (resp : PaginationResponse),
      s.commentRepo.Exists parentID = .ok true →
      s.commentRepo.GetByParentID parentID pagination = .ok (replies, resp) →
      ∃ result, s.GetCommentReplies parentID pagination = .ok (result, resp) ∧
        result.map (fun c => c.Fields) = replies.map (fun c => c.Fields)) ∧
    (∀ (commentID : UUID) (maxDepth : Int) (comments : List LoadedComment),
      s.commentRepo.Exists commentID = .ok true →
      s.commentRepo.GetThread commentID maxDepth = .ok comments →
      ∃ result, s.GetCommentThread commentID maxDepth = .ok result ∧
        result.map (fun c => c.Fields) = comments.map (fun c => c.Fields)) := by
  refine ⟨?_, ?_, ?_⟩
  · intro postID pagination comments resp he hq
    refine ⟨_, ?_, loadCommentsRelations_fields s comments⟩
    unfold CommentService.GetPostComments
    rw [he]
    simp only
    rw [hq]
  · intro parentID pagination replies resp he hq
    refine ⟨_, ?_, loadCommentsRelations_fields s replies⟩
    unfold CommentService.GetCommentReplies
    rw [he]
    simp only
    rw [hq]
  · intro commentID maxDepth comments he hq
    refine ⟨_, ?_, loadCommentsRelations_fields s comments⟩
    unfold CommentService.GetCommentThread
    rw [he]
    simp only
    rw [hq]

theorem relation_failure_never_fails_read_witness :
    ∃ result,
      (testFailingRelations
          [{ Fields := services.testRoot 0, Author := none, Post := none, Parent := none }]
          { Total := 1, Limit := 10, Offset := 0, HasMore := false }).GetCommentReplies 7
        { Limit := 10, Offset := 0 } =
        .ok (result, { Total := 1, Limit := 10, Offset := 0, HasMore := false }) ∧
      result.map (fun c => c.Fields) = [services.testRoot 0] :=
  (relation_failure_never_fails_read (testFailingRelations
      [{ Fields := services.testRoot 0, Author := none, Post := none, Parent := none }]
      { Total := 1, Limit := 10, Offset := 0, HasMore := false })).2.1 7
    { Limit := 10, Offset := 0 } _ _ rfl rfl

/-- C33: the service distinguishes "does not exist" from "storage is broken":
`GetCommentByID` fails with COMMENT_NOT_FOUND when the repository reports the ID as
absent (nil result, nil error), fails with DATABASE_ERROR whose wrapped cause (`Unwrap`)
is the repository's error when the repository returns an error, and otherwise returns
the comment the repository delivered (same persisted fields); the in-memory `GetByID`
returns an absent result with no error for every ID not in the store. -/
theorem GetCommentByID_error_kinds :
    (∀ (s : CommentService) (id : UUID), s.commentRepo.GetByID id = .ok none →
      ∃ e, s.GetCommentByID id = .error e ∧ e.Code = ErrCommentNotFound ∧
        e.Unwrap = none) ∧
    (∀ (s : CommentService) (id : UUID) (err : GoError),
      s.commentRepo.GetByID id = .error err →
      ∃ e, s.GetCommentByID id = .error e ∧ e.Code = ErrDatabase ∧ e.Unwrap = some err) ∧
    (∀ (s : CommentService) (id : UUID) (comment : LoadedComment),
      s.commentRepo.GetByID id = .ok (some comment) →
      ∃ r, s.GetCommentByID id = .ok r ∧ r.Fields = comment.Fields) ∧
    (∀ (m : GoMap Comment) (id : UUID), m.get id = none →
      inmemory.CommentRepository.GetByID m id = .ok none) ∧
    ErrCommentNotFound ≠ ErrDatabase := by
  refine ⟨?_, ?_, ?_, ?_, by decide⟩
  · intro s id h
    refine ⟨NewCommentNotFoundError id.String, ?_, rfl, rfl⟩
    unfold CommentService.GetCommentByID
    rw [h]
  · intro s id err h
    refine ⟨NewDatabaseError err, ?_, rfl, rfl⟩
    unfold CommentService.GetCommentByID
    rw [h]
  · intro s id comment h
    refine ⟨s.loadCommentRelations comment, ?_, loadCommentRelations_fields s comment⟩
    unfold CommentService.GetCommentByID
    rw [h]
  · intro m id h
    unfold inmemory.CommentRepository.GetByID
    rw [h]

theorem GetCommentByID_error_kinds_witness :
    (∃ e, (testFailingRelations [] { Total := 0, Limit := 10, Offset := 0, HasMore := false
        }).GetCommentByID 7 = .error e ∧ e.Code = ErrDatabase ∧
      e.Unwrap = some "db error") ∧
    inmemory.CommentRepository.GetByID services.testComments 7 = .ok none :=
  ⟨GetCommentByID_error_kinds.2.1 _ 7 "db error" rfl,
    GetCommentByID_error_kinds.2.2.2.1 services.testComments 7 rfl⟩

end contract

/-! ## Claims on the ID lists of the batch fetches -/

namespace contract

open entities errors

theorem distinctInOrder_mem (l : List UUID) (x : UUID) : x ∈ distinctInOrder l ↔ x ∈ l := by
  induction l with
  | nil => simp [distinctInOrder]
  | cons a t ih =>
    simp only [distinctInOrder, List.mem_cons, List.mem_filter, decide_eq_true_eq, ih]
    constructor
    · rintro (h | ⟨h, -⟩)
      · exact Or.inl h
      · exact Or.inr h
    · intro h
      by_cases e : x = a
      · exact Or.inl e
      · rcases h with h | h
        · exact Or.inl h
        · exact Or.inr ⟨h, e⟩

theorem distinctInOrder_nodup (l : List UUID) : (distinctInOrder l).Nodup := by
  induction l with
  | nil => exact List.nodup_nil
  | cons a t ih =>
    simp only [distinctInOrder, List.nodup_cons, List.mem_filter, decide_eq_true_eq]
    exact ⟨fun h => h.2 rfl, ih.filter _⟩

theorem distinctInOrder_order (l : List UUID) :
    (distinctInOrder l).Pairwise (fun x y => l.indexOf x < l.indexOf y) := by
  induction l with
  | nil => exact List.Pairwise.nil
  | cons a t ih =>
    simp only [distinctInOrder, List.pairwise_cons]
    refine ⟨?_, ?_⟩
    · intro y hy
      have hne : y ≠ a := by
        have := (List.mem_filter.mp hy).2
        simpa using this
      rw [List.indexOf_cons_self, List.indexOf_cons_ne _ (Ne.symm hne)]
      exact Nat.succ_pos _
    · refine ((ih.filter _).imp_of_mem ?_)
      intro x y hx hy hxy
      have hxa : x ≠ a := by
        have := (List.mem_filter.mp hx).2
        simpa using this
      have hya : y ≠ a := by
        have := (List.mem_filter.mp hy).2
        simpa using this
      rw [List.indexOf_cons_ne _ (Ne.symm hxa), List.indexOf_cons_ne _ (Ne.symm hya)]
      exact Nat.succ_lt_succ hxy

theorem filter_push_seen (D U : List UUID) (a : UUID) (ha : a ∈ U) :
    (D.filter (fun y => decide (y ≠ a))).filter (fun y => decide (y ∉ U)) =
      D.filter (fun y => decide (y ∉ U)) := by
  rw [List.filter_filter]
  apply List.filter_congr
  intro y _
  by_cases hy : y ∈ U
  · simp [hy]
  · have : y ≠ a := fun e => hy (e ▸ ha)
    simp [hy, this]

theorem filter_push_new (D U : List UUID) (a : UUID) :
    (D.filter (fun y => decide (y ≠ a))).filter (fun y => decide (y ∉ U)) =
      D.filter (fun y => decide (y ∉ U ++ [a])) := by
  rw [List.filter_filter]
  apply List.filter_congr
  intro y _
  by_cases hy : y ∈ U <;> by_cases e : y = a <;> simp [hy, e]

/-- The set of a loop of `loadCommentsRelations` holds exactly the elements of its
slice. -/
theorem setOK_push (set : GoMap Bool) (ids : List UUID) (a : UUID)
    (h : ∀ id, (set.get id).getD false = true ↔ id ∈ ids) :
    ∀ id, ((set.set a true).get id).getD false = true ↔ id ∈ ids ++ [a] := by
  intro id
  by_cases e : id = a
  · subst e
    simp [GoMap.get_set_same]
  · rw [GoMap.get_set_ne _ _ _ _ e, h id]
    simp [e]

theorem collect_push (D U : List UUID) (a : UUID) :
    (if a ∈ U then U else U ++ [a]) ++
        D.filter (fun y => decide (y ∉ (if a ∈ U then U else U ++ [a]))) =
      U ++ (a :: D.filter (fun y => decide (y ≠ a))).filter (fun y => decide (y ∉ U)) := by
  by_cases ha : a ∈ U
  · rw [if_pos ha, List.filter_cons_of_neg (by simpa using ha), filter_push_seen D U a ha]
  · rw [if_neg ha, List.filter_cons_of_pos (by simpa using ha), filter_push_new,
      List.append_assoc, List.singleton_append]

end contract

namespace contract

open entities errors

theorem seen_eq (set : GoMap Bool) (ids : List UUID) (a : UUID)
    (h : ∀ id, (set.get id).getD false = true ↔ id ∈ ids) :
    (!((set.get a).getD false)) = decide (a ∉ ids) := by
  by_cases ha : a ∈ ids
  · rw [(h a).mpr ha]
    simp [ha]
  · have : (set.get a).getD false = false := by
      cases hb : (set.get a).getD false with
      | false => rfl
      | true => exact absurd ((h a).mp hb) ha
    rw [this]
    simp [ha]

theorem collectStep_lists (acc : IDLists) (c : LoadedComment)
    (hu : ∀ id, (acc.userIDSet.get id).getD false = true ↔ id ∈ acc.userIDs)
    (hp : ∀ id, (acc.postIDSet.get id).getD false = true ↔ id ∈ acc.postIDs)
    (hq : ∀ id, (acc.parentIDSet.get id).getD false = true ↔ id ∈ acc.parentIDs) :
    (collectStep acc c).userIDs =
        (if c.Fields.AuthorID ∈ acc.userIDs then acc.userIDs
          else acc.userIDs ++ [c.Fields.AuthorID]) ∧
      (collectStep acc c).postIDs =
        (if c.Fields.PostID ∈ acc.postIDs then acc.postIDs
          else acc.postIDs ++ [c.Fields.PostID]) ∧
      (collectStep acc c).parentIDs =
        (match c.Fields.ParentID with
          | none => acc.parentIDs
          | some p => if p ∈ acc.parentIDs then acc.parentIDs else acc.parentIDs ++ [p]) ∧
      (∀ id, ((collectStep acc c).userIDSet.get id).getD false = true ↔
        id ∈ (collectStep acc c).userIDs) ∧
      (∀ id, ((collectStep acc c).postIDSet.get id).getD false = true ↔
        id ∈ (collectStep acc c).postIDs) ∧
      (∀ id, ((collectStep acc c).parentIDSet.get id).getD false = true ↔
        id ∈ (collectStep acc c).parentIDs) := by
  have hu1 := seen_eq _ _ c.Fields.AuthorID hu
  have hp1 := seen_eq _ _ c.Fields.PostID hp
  unfold collectStep
  by_cases h1 : c.Fields.AuthorID ∈ acc.userIDs <;>
    simp only [hu1, h1, not_true_eq_false, not_false_eq_true, decide_True, decide_False,
      if_true, if_false, Bool.false_eq_true] <;>
    by_cases h2 : c.Fields.PostID ∈ acc.postIDs <;>
    simp only [hp1, h2, not_true_eq_false, not_false_eq_true, decide_True, decide_False,
      if_true, if_false, Bool.false_eq_true] <;>
    cases h3 : c.Fields.ParentID with
    | none =>
      simp only
      refine ⟨?_, ?_, ?_, ?_, ?_, ?_⟩ <;>
        first
          | trivial
          | rfl
          | exact hu
          | exact hp
          | exact hq
          | exact setOK_push _ _ _ hu
          | exact setOK_push _ _ _ hp
    | some p =>
      have hq1 := seen_eq _ _ p hq
      by_cases h4 : p ∈ acc.parentIDs <;>
        simp only [hq1, h4, not_true_eq_false, not_false_eq_true, decide_True, decide_False,
          if_true, if_false, Bool.false_eq_true] <;>
        refine ⟨?_, ?_, ?_, ?_, ?_, ?_⟩ <;>
        first
          | trivial
          | rfl
          | exact hu
          | exact hp
          | exact hq
          | exact setOK_push _ _ _ hu
          | exact setOK_push _ _ _ hp
          | exact setOK_push _ _ _ hq

theorem collect_fold (cs : List LoadedComment) :
    ∀ acc : IDLists,
      (∀ id, (acc.userIDSet.get id).getD false = true ↔ id ∈ acc.userIDs) →
      (∀ id, (acc.postIDSet.get id).getD false = true ↔ id ∈ acc.postIDs) →
      (∀ id, (acc.parentIDSet.get id).getD false = true ↔ id ∈ acc.parentIDs) →
      (cs.foldl collectStep acc).userIDs =
          acc.userIDs ++ (distinctInOrder (cs.map (fun c => c.Fields.AuthorID))).filter
            (fun y => decide (y ∉ acc.userIDs)) ∧
        (cs.foldl collectStep acc).postIDs =
          acc.postIDs ++ (distinctInOrder (cs.map (fun c => c.Fields.PostID))).filter
            (fun y => decide (y ∉ acc.postIDs)) ∧
        (cs.foldl collectStep acc).parentIDs =
          acc.parentIDs ++
            (distinctInOrder (cs.filterMap (fun c => c.Fields.ParentID))).filter
              (fun y => decide (y ∉ acc.parentIDs)) := by
  induction cs with
  | nil =>
    intro acc _ _ _
    simp [distinctInOrder]
  | cons c cs ih =>
    intro acc hu hp hq
    obtain ⟨e1, e2, e3, hu1, hp1, hq1⟩ := collectStep_lists acc c hu hp hq
    obtain ⟨i1, i2, i3⟩ := ih (collectStep acc c) hu1 hp1 hq1
    rw [List.foldl_cons, i1, i2, i3, e1, e2, e3]
    refine ⟨?_, ?_, ?_⟩
    · simp only [List.map_cons, distinctInOrder]
      exact collect_push _ _ _
    · simp only [List.map_cons, distinctInOrder]
      exact collect_push _ _ _
    · cases h3 : c.Fields.ParentID with
      | none =>
        simp only [List.filterMap_cons, h3]
      | some p =>
        simp only [List.filterMap_cons, h3, distinctInOrder]
        exact collect_push _ _ _

theorem collectIDs_eq (comments : List LoadedComment) :
    (collectIDs comments).userIDs =
        distinctInOrder (comments.map (fun c => c.Fields.AuthorID)) ∧
      (collectIDs comments).postIDs =
        distinctInOrder (comments.map (fun c => c.Fields.PostID)) ∧
      (collectIDs comments).parentIDs =
        distinctInOrder (comments.filterMap (fun c => c.Fields.ParentID)) := by
  obtain ⟨h1, h2, h3⟩ := collect_fold comments
    { userIDs := [], postIDs := [], parentIDs := [], userIDSet := [], postIDSet := [],
      parentIDSet := [] } (by simp [GoMap.get]) (by simp [GoMap.get]) (by simp [GoMap.get])
  unfold collectIDs
  rw [h1, h2, h3]
  simp

/-- C38: batch hydration uses deduplicated ID lists: for every non-empty list of
comments, `loadCommentsRelations` calls the user batch fetch and then the post batch
fetch, with the list of the distinct AuthorIDs, respectively PostIDs, of the comments,
each once and in the order of first occurrence; it calls the parent batch fetch next,
with the distinct present ParentIDs in the order of first occurrence, when some comment
has a ParentID, and does not call it when none has; it makes no other batch fetch. -/
theorem loadCommentsRelations_batches (s : CommentService) (comments : List LoadedComment)
    (hne : comments ≠ []) :
    (s.loadCommentsRelations comments).2 =
        [BatchCall.users (collectIDs comments).userIDs,
          BatchCall.posts (collectIDs comments).postIDs] ++
        (if comments.all (fun c => c.Fields.ParentID.isNone) then []
          else [BatchCall.comments (collectIDs comments).parentIDs]) ∧
      (collectIDs comments).userIDs =
        distinctInOrder (comments.map (fun c => c.Fields.AuthorID)) ∧
      (collectIDs comments).postIDs =
        distinctInOrder (comments.map (fun c => c.Fields.PostID)) ∧
      (collectIDs comments).parentIDs =
        distinctInOrder (comments.filterMap (fun c => c.Fields.ParentID)) ∧
      (∀ l : List UUID, (distinctInOrder l).Nodup ∧ (∀ x, x ∈ distinctInOrder l ↔ x ∈ l) ∧
        (distinctInOrder l).Pairwise (fun x y => l.indexOf x < l.indexOf y)) := by
  obtain ⟨h1, h2, h3⟩ := collectIDs_eq comments
  refine ⟨?_, h1, h2, h3,
    fun l => ⟨distinctInOrder_nodup l, distinctInOrder_mem l, distinctInOrder_order l⟩⟩
  unfold CommentService.loadCommentsRelations
  have h0 : ¬ comments.length = 0 := fun h => hne (List.length_eq_zero.mp h)
  rw [if_neg h0]
  simp only
  have hiff : (collectIDs comments).parentIDs.length > 0 ↔
      ¬ (comments.all (fun c => c.Fields.ParentID.isNone) = true) := by
    rw [h3, gt_iff_lt, List.length_pos, Ne, List.eq_nil_iff_forall_not_mem]
    simp only [distinctInOrder_mem, List.mem_filterMap, List.all_eq_true,
      Option.isNone_iff_eq_none]
    constructor
    · intro h hall
      apply h
      rintro x ⟨c, hc, hx⟩
      rw [hall c hc] at hx
      exact Option.noConfusion hx
    · intro h hnil
      apply h
      intro c hc
      cases hp : c.Fields.ParentID with
      | none => rfl
      | some p => exact absurd ⟨c, hc, hp⟩ (hnil p)
  by_cases hall : comments.all (fun c => c.Fields.ParentID.isNone) = true
  · rw [if_pos hall, if_neg (fun h => hiff.mp h hall)]
  · rw [if_neg hall, if_pos (hiff.mpr hall)]

theorem loadCommentsRelations_batches_witness :
    ((testFailingRelations [] { Total := 0, Limit := 10, Offset := 0, HasMore := false
        }).loadCommentsRelations
      [{ Fields := services.testRoot 0, Author := none, Post := none, Parent := none },
       { Fields := { services.testRoot 1 with ParentID := some 100 }, Author := none,
         Post := none, Parent := none },
       { Fields := { services.testRoot 2 with ParentID := some 100, AuthorID := 6 },
         Author := none, Post := none, Parent := none }]).2 =
      [BatchCall.users [5, 6], BatchCall.posts [1], BatchCall.comments [100]] := by
  have h := (loadCommentsRelations_batches
    (testFailingRelations [] { Total := 0, Limit := 10, Offset := 0, HasMore := false })
    [{ Fields := services.testRoot 0, Author := none, Post := none, Parent := none },
     { Fields := { services.testRoot 1 with ParentID := some 100 }, Author := none,
       Post := none, Parent := none },
     { Fields := { services.testRoot 2 with ParentID := some 100, AuthorID := 6 },
       Author := none, Post := none, Parent := none }] (by simp)).1
  rw [h]
  decide

end contract

/-! ## Claims on the user store -/

namespace services

open entities errors inmemory

theorem mem_delete_iff {V : Type} (m : GoMap V) (k k2 : UUID) (v : V) :
    (k2, v) ∈ m.delete k ↔ (k2, v) ∈ m ∧ k2 ≠ k := by
  unfold GoMap.delete
  simp [List.mem_filter]

theorem UserInv_delete (users : GoMap User) (k : UUID) (h : UserInv users) :
    UserInv (users.delete k) := by
  obtain ⟨h1, h2, h3, h4⟩ := h
  refine ⟨GoMap.nodup_keys_delete _ _ h1, ?_, ?_, ?_⟩
  · intro k1 u hm
    exact h2 k1 u ((mem_delete_iff _ _ _ _).mp hm).1
  · intro k1 u1 k2 u2 hm1 hm2
    exact h3 k1 u1 k2 u2 ((mem_delete_iff _ _ _ _).mp hm1).1 ((mem_delete_iff _ _ _ _).mp hm2).1
  · intro k1 u1 k2 u2 hm1 hm2
    exact h4 k1 u1 k2 u2 ((mem_delete_iff _ _ _ _).mp hm1).1 ((mem_delete_iff _ _ _ _).mp hm2).1

theorem UserInv_set (users : GoMap User) (k : UUID) (u : User) (h : UserInv users)
    (hid : u.ID = k)
    (hfree : ∀ k2 u2, (k2, u2) ∈ users → k2 ≠ k →
      u2.Username ≠ u.Username ∧ u2.Email ≠ u.Email) :
    UserInv (users.set k u) := by
  obtain ⟨h1, h2, h3, h4⟩ := h
  have mem : ∀ k2 u2, (k2, u2) ∈ users.set k u →
      (k2 = k ∧ u2 = u) ∨ ((k2, u2) ∈ users ∧ k2 ≠ k) := by
    intro k2 u2 hm
    unfold GoMap.set at hm
    rcases List.mem_cons.mp hm with e | hm1
    · simp only [Prod.mk.injEq] at e
      exact Or.inl e
    · exact Or.inr ((mem_delete_iff _ _ _ _).mp hm1)
  refine ⟨GoMap.nodup_keys_set _ _ _ h1, ?_, ?_, ?_⟩
  · intro k1 u1 hm
    rcases mem k1 u1 hm with ⟨e1, e2⟩ | ⟨hm1, -⟩
    · rw [e1, e2]
      exact hid
    · exact h2 k1 u1 hm1
  · intro k1 u1 k2 u2 hm1 hm2 he
    rcases mem k1 u1 hm1 with ⟨e1, e2⟩ | ⟨m1, n1⟩ <;>
      rcases mem k2 u2 hm2 with ⟨e3, e4⟩ | ⟨m2, n2⟩
    · rw [e1, e3]
    · rw [e2] at he
      exact absurd he.symm (hfree k2 u2 m2 n2).1
    · rw [e4] at he
      exact absurd he (hfree k1 u1 m1 n1).1
    · exact h3 k1 u1 k2 u2 m1 m2 he
  · intro k1 u1 k2 u2 hm1 hm2 he
    rcases mem k1 u1 hm1 with ⟨e1, e2⟩ | ⟨m1, n1⟩ <;>
      rcases mem k2 u2 hm2 with ⟨e3, e4⟩ | ⟨m2, n2⟩
    · rw [e1, e3]
    · rw [e2] at he
      exact absurd he.symm (hfree k2 u2 m2 n2).2
    · rw [e4] at he
      exact absurd he (hfree k1 u1 m1 n1).2
    · exact h4 k1 u1 k2 u2 m1 m2 he

theorem NewUser_ok (newID : UUID) (now : Time) (username email : String) (user : User)
    (h : NewUser newID now username email = .ok user) :
    user.ID = newID ∧ user.Username = username ∧ user.Email = email ∧
      validateUserData username email = none := by
  unfold NewUser at h
  cases hv : validateUserData username email with
  | some e =>
    rw [hv] at h
    exact absurd h (by simp)
  | none =>
    rw [hv] at h
    simp only [Except.ok.injEq] at h
    subst h
    exact ⟨rfl, rfl, rfl, rfl⟩

theorem CreateUser_cases (users users1 : GoMap User) (newID : UUID) (now : Time)
    (username email : String) (r : Except AppError User)
    (h : UserService.CreateUser users newID now username email = (users1, r)) :
    users1 = users ∨
      ∃ user, NewUser newID now username email = .ok user ∧
        users.values.find? (fun u => decide (u.Username = username)) = none ∧
        users.values.find? (fun u => decide (u.Email = email)) = none ∧
        users1 = users.set newID user ∧ r = .ok user := by
  unfold UserService.CreateUser at h
  simp only [UserRepository.GetByUsername, UserRepository.GetByEmail,
    UserRepository.Create] at h
  cases hn : NewUser newID now username email with
  | error e =>
    rw [hn] at h
    simp only [Prod.mk.injEq] at h
    exact Or.inl h.1.symm
  | ok user =>
    rw [hn] at h
    simp only at h
    cases hu : users.values.find? (fun u => decide (u.Username = username)) with
    | some x =>
      rw [hu] at h
      simp only [Prod.mk.injEq] at h
      exact Or.inl h.1.symm
    | none =>
      rw [hu] at h
      simp only at h
      cases he : users.values.find? (fun u => decide (u.Email = email)) with
      | some x =>
        rw [he] at h
        simp only [Prod.mk.injEq] at h
        exact Or.inl h.1.symm
      | none =>
        rw [he] at h
        simp only [Prod.mk.injEq] at h
        refine Or.inr ⟨user, rfl, rfl, rfl, ?_, h.2.symm⟩
        rw [← h.1, (NewUser_ok _ _ _ _ _ hn).1]

theorem UserInv_CreateUser (users users1 : GoMap User) (newID : UUID) (now : Time)
    (username email : String) (r : Except AppError User) (hinv : UserInv users)
    (h : UserService.CreateUser users newID now username email = (users1, r)) :
    UserInv users1 := by
  rcases CreateUser_cases _ _ _ _ _ _ _ h with e | ⟨user, hn, hu, he, hs, -⟩
  · rw [e]
    exact hinv
  · obtain ⟨hid, hname, hmail, -⟩ := NewUser_ok _ _ _ _ _ hn
    rw [hs]
    refine UserInv_set users newID user hinv hid ?_
    intro k2 u2 hm _
    have hv := GoMap.mem_values_of_mem _ _ _ hm
    have h1 := List.find?_eq_none.mp hu u2 hv
    have h2 := List.find?_eq_none.mp he u2 hv
    simp only [decide_eq_true_eq] at h1 h2
    rw [hname, hmail]
    exact ⟨h1, h2⟩

theorem UserInv_DeleteUser (users users1 : GoMap User) (userID : UUID) (r : Option AppError)
    (hinv : UserInv users) (h : UserService.DeleteUser users userID = (users1, r)) :
    UserInv users1 := by
  unfold UserService.DeleteUser at h
  simp only [UserRepository.Exists, UserRepository.Delete] at h
  split at h
  · simp only [Prod.mk.injEq] at h
    rw [← h.1]
    exact hinv
  · simp only [Prod.mk.injEq] at h
    rw [← h.1]
    exact hinv
  · simp only [Prod.mk.injEq] at h
    rw [← h.1]
    exact UserInv_delete users userID hinv

end services

namespace services

open entities errors inmemory

theorem UpdateUser_cases (users users1 : GoMap User) (newID : UUID) (now : Time)
    (userID : UUID) (username email : String) (r : Option AppError)
    (h : UserService.UpdateUser users newID now userID username email = (users1, r)) :
    users1 = users ∨
      ∃ user, users.get userID = some user ∧
        (user.Username = username ∨
          users.values.find? (fun u => decide (u.Username = username)) = none ∨
          ∃ ex, users.values.find? (fun u => decide (u.Username = username)) = some ex ∧
            ex.ID = userID) ∧
        (user.Email = email ∨
          users.values.find? (fun u => decide (u.Email = email)) = none ∨
          ∃ ex, users.values.find? (fun u => decide (u.Email = email)) = some ex ∧
            ex.ID = userID) ∧
        users1 = users.set user.ID { user with Username := username, Email := email } := by
  unfold UserService.UpdateUser at h
  simp only [UserRepository.GetByID, UserRepository.GetByUsername, UserRepository.GetByEmail,
    UserRepository.Update] at h
  cases hn : NewUser newID now username email with
  | error e =>
    rw [hn] at h
    simp only [Prod.mk.injEq] at h
    exact Or.inl h.1.symm
  | ok nu =>
    rw [hn] at h
    simp only at h
    cases hg : users.get userID with
    | none =>
      rw [hg] at h
      simp only [Prod.mk.injEq] at h
      exact Or.inl h.1.symm
    | some user =>
      rw [hg] at h
      simp only at h
      split at h
      · simp only [Prod.mk.injEq] at h
        exact Or.inl h.1.symm
      · rename_i heq1
        split at h
        · simp only [Prod.mk.injEq] at h
          exact Or.inl h.1.symm
        · rename_i heq2
          simp only [Prod.mk.injEq] at h
          refine Or.inr ⟨user, rfl, ?_, ?_, h.1.symm⟩
          · by_cases e1 : user.Username = username
            · exact Or.inl e1
            · cases hf : users.values.find? (fun u => decide (u.Username = username)) with
              | none => exact Or.inr (Or.inl rfl)
              | some ex =>
                by_cases e2 : ex.ID = userID
                · exact Or.inr (Or.inr ⟨ex, rfl, e2⟩)
                · rw [hf] at heq1
                  simp [e1, e2] at heq1
          · by_cases e1 : user.Email = email
            · exact Or.inl e1
            · cases hf : users.values.find? (fun u => decide (u.Email = email)) with
              | none => exact Or.inr (Or.inl rfl)
              | some ex =>
                by_cases e2 : ex.ID = userID
                · exact Or.inr (Or.inr ⟨ex, rfl, e2⟩)
                · rw [hf] at heq2
                  simp [e1, e2] at heq2

theorem UserInv_UpdateUser (users users1 : GoMap User) (newID : UUID) (now : Time)
    (userID : UUID) (username email : String) (r : Option AppError) (hinv : UserInv users)
    (h : UserService.UpdateUser users newID now userID username email = (users1, r)) :
    UserInv users1 := by
  rcases UpdateUser_cases _ _ _ _ _ _ _ _ h with e | ⟨user, hg, hname, hmail, hs⟩
  · rw [e]
    exact hinv
  · obtain ⟨h1, h2, h3, h4⟩ := hinv
    have hmem := GoMap.mem_of_get _ _ _ hg
    have hid : user.ID = userID := h2 userID user hmem
    have key : ∀ ex : User, ex ∈ users.values → ex.ID = userID → ex = user := by
      intro ex hex hexid
      obtain ⟨k, hk⟩ := GoMap.exists_key_of_mem_values _ _ hex
      have hk1 : ex.ID = k := h2 k ex hk
      have hget := GoMap.get_of_mem _ _ _ h1 hk
      rw [← hk1, hexid, hg] at hget
      simp only [Option.some.injEq] at hget
      exact hget.symm
    rw [hs, hid]
    refine UserInv_set users userID _ ⟨h1, h2, h3, h4⟩ rfl ?_
    intro k2 u2 hm hne
    have hv := GoMap.mem_values_of_mem _ _ _ hm
    refine ⟨?_, ?_⟩
    · intro he
      simp only at he
      rcases hname with e1 | e1 | ⟨ex, hf, hex⟩
      · exact hne (h3 k2 u2 userID user hm hmem (he.trans e1.symm))
      · have := List.find?_eq_none.mp e1 u2 hv
        simp only [decide_eq_true_eq] at this
        exact this he
      · have hexm := List.mem_of_find?_eq_some hf
        have hexn := List.find?_some hf
        simp only [decide_eq_true_eq] at hexn
        have := key ex hexm hex
        rw [this] at hexn
        exact hne (h3 k2 u2 userID user hm hmem (he.trans hexn.symm))
    · intro he
      simp only at he
      rcases hmail with e1 | e1 | ⟨ex, hf, hex⟩
      · exact hne (h4 k2 u2 userID user hm hmem (he.trans e1.symm))
      · have := List.find?_eq_none.mp e1 u2 hv
        simp only [decide_eq_true_eq] at this
        exact this he
      · have hexm := List.mem_of_find?_eq_some hf
        have hexn := List.find?_some hf
        simp only [decide_eq_true_eq] at hexn
        have := key ex hexm hex
        rw [this] at hexn
        exact hne (h4 k2 u2 userID user hm hmem (he.trans hexn.symm))

theorem UserReachable_inv (users : GoMap User) (h : UserReachable users) : UserInv users := by
  induction h with
  | init =>
    refine ⟨List.nodup_nil, ?_, ?_, ?_⟩
    · intro k u hm
      exact absurd hm (List.not_mem_nil _)
    · intro k1 u1 k2 u2 hm
      exact absurd hm (List.not_mem_nil _)
    · intro k1 u1 k2 u2 hm
      exact absurd hm (List.not_mem_nil _)
  | create users users1 newID now username email r hs h ih =>
    exact UserInv_CreateUser _ _ _ _ _ _ _ ih h
  | update users users1 newID now userID username email r hs h ih =>
    exact UserInv_UpdateUser _ _ _ _ _ _ _ _ ih h
  | delete users users1 userID r hs h ih => exact UserInv_DeleteUser _ _ _ _ ih h

/-- The method `CreateUser` validates the data first: with the username of the stored
user alice and an empty email it fails with INVALID_USER_DATA, not with USER_EXISTS. -/
theorem CreateUser_exists_counterexample :
    ∃ u e, testUsers.get 5 = some u ∧ u.Username = "alice" ∧
      UserService.CreateUser testUsers 7 1 "alice" "" = (testUsers, .error e) ∧
      e.Code = ErrInvalidUserData ∧ e.Code ≠ ErrUserExists ∧
      UserService.CreateUser [] 5 0 "alice" "alice@example.com" = (testUsers, .ok u) :=
  ⟨_, _, rfl, rfl, rfl, rfl, by decide, rfl⟩

/-- Calls that run one after the other keep usernames and emails unique: in every
user-store state reachable from the empty store through `CreateUser`, `UpdateUser` and
`DeleteUser`, each call returning before the next one starts, no two stored users share
a username and no two share an email; and `CreateUser` with a username and an email that
pass validation, one of which is already held by a stored user, fails with USER_EXISTS
and leaves the store unchanged. -/
theorem users_stay_unique :
    (∀ (users : GoMap User), UserReachable users →
      ∀ k1 k2 u1 u2, users.get k1 = some u1 → users.get k2 = some u2 → k1 ≠ k2 →
        u1.Username ≠ u2.Username ∧ u1.Email ≠ u2.Email) ∧
    (∀ (users : GoMap User) (newID : UUID) (now : Time) (username email : String)
        (k : UUID) (u : User),
      validateUserData username email = none → users.get k = some u →
      (u.Username = username ∨ u.Email = email) →
      ∃ e, UserService.CreateUser users newID now username email = (users, .error e) ∧
        e.Code = ErrUserExists) := by
  refine ⟨?_, ?_⟩
  · intro users hr k1 k2 u1 u2 hg1 hg2 hne
    obtain ⟨-, -, h3, h4⟩ := UserReachable_inv users hr
    have m1 := GoMap.mem_of_get _ _ _ hg1
    have m2 := GoMap.mem_of_get _ _ _ hg2
    exact ⟨fun e => hne (h3 k1 u1 k2 u2 m1 m2 e), fun e => hne (h4 k1 u1 k2 u2 m1 m2 e)⟩
  · intro users newID now username email k u hv hg hheld
    have hval := GoMap.mem_values_of_mem _ _ _ (GoMap.mem_of_get _ _ _ hg)
    unfold UserService.CreateUser
    simp only [NewUser, hv, UserRepository.GetByUsername, UserRepository.GetByEmail]
    cases hu : users.values.find? (fun u => decide (u.Username = username)) with
    | some x => exact ⟨_, rfl, rfl⟩
    | none =>
      simp only
      cases he : users.values.find? (fun u => decide (u.Email = email)) with
      | some x => exact ⟨_, rfl, rfl⟩
      | none =>
        exfalso
        have h1 := List.find?_eq_none.mp hu u hval
        have h2 := List.find?_eq_none.mp he u hval
        simp only [decide_eq_true_eq] at h1 h2
        rcases hheld with e | e
        · exact h1 e
        · exact h2 e

theorem users_stay_unique_witness :
    (∃ e, UserService.CreateUser testUsers 7 1 "alice" "other@example.com" =
        (testUsers, .error e) ∧ e.Code = ErrUserExists) ∧
    (∃ e, UserService.CreateUser testUsers 7 1 "bobby" "alice@example.com" =
        (testUsers, .error e) ∧ e.Code = ErrUserExists) ∧
    ∃ users, UserReachable users ∧ users.keys = [6, 5] ∧
      ∀ u1 u2, users.get 5 = some u1 → users.get 6 = some u2 →
        u1.Username ≠ u2.Username ∧ u1.Email ≠ u2.Email := by
  refine ⟨users_stay_unique.2 testUsers 7 1 "alice" "other@example.com" 5 _ (by decide) rfl
      (Or.inl rfl),
    users_stay_unique.2 testUsers 7 1 "bobby" "alice@example.com" 5 _ (by decide) rfl
      (Or.inr rfl), ?_⟩
  have h0 := UserReachable.init
  have h1 := UserReachable.create [] _ 5 0 "alice" "alice@example.com" _ h0 rfl
  have h2 := UserReachable.create _ _ 6 1 "bobby" "bobby@example.com" _ h1 rfl
  exact ⟨_, h2, rfl, fun u1 u2 hg1 hg2 =>
    users_stay_unique.1 _ h2 5 6 u1 u2 hg1 hg2 (by decide)⟩

theorem CreateUser_eq_steps (users : GoMap User) (newID : UUID) (now : Time)
    (username email : String) :
    runCreateUsers (users, [.start newID now username email]) [0, 0, 0] =
      ((UserService.CreateUser users newID now username email).1,
        [.done (UserService.CreateUser users newID now username email).2]) := by
  simp only [runCreateUsers, List.getElem?_cons_zero, List.set_cons_zero]
  unfold UserService.CreateUser
  cases hn : NewUser newID now username email with
  | error err => simp [stepCreateUser, hn]
  | ok user =>
    cases hu : users.values.find? (fun user => decide (user.Username = username)) with
    | some u => simp [stepCreateUser, hn, UserRepository.GetByUsername, hu]
    | none =>
      cases he : users.values.find? (fun user => decide (user.Email = email)) with
      | some u =>
        simp [stepCreateUser, hn, UserRepository.GetByUsername, hu,
          UserRepository.GetByEmail, he]
      | none =>
        simp [stepCreateUser, hn, UserRepository.GetByUsername, hu,
          UserRepository.GetByEmail, he, UserRepository.Create]

/-- C35 does not hold of the code: `CreateUser` looks the username up, looks the email
up and writes the user in three repository calls, each under its own acquisition of the
mutex, with no lock held from one to the next.  When two calls with the username alice
overlap so that both look-ups of the username come before both writes, both calls
succeed and the store holds two users named alice; when the same two calls run one
after the other, the second fails with USER_EXISTS and the store holds one user. -/
theorem CreateUser_races_with_CreateUser :
    ∃ (users users1 : GoMap User) (u1 u2 : User) (e : AppError),
      runCreateUsers
          ([], [.start 5 0 "alice" "alice@example.com", .start 6 1 "alice" "alice@example.org"])
          [0, 1, 0, 1, 0, 1] = (users, [.done (.ok u1), .done (.ok u2)]) ∧
        users.get 5 = some u1 ∧ users.get 6 = some u2 ∧
        u1.Username = "alice" ∧ u2.Username = "alice" ∧
      runCreateUsers
          ([], [.start 5 0 "alice" "alice@example.com", .start 6 1 "alice" "alice@example.org"])
          [0, 0, 0, 1, 1, 1] = (users1, [.done (.ok u1), .done (.error e)]) ∧
        e.Code = ErrUserExists ∧ users1.get 5 = some u1 ∧ users1.get 6 = none ∧
      UserService.CreateUser [] 5 0 "alice" "alice@example.com" = (users1, .ok u1) ∧
        UserService.CreateUser users1 6 1 "alice" "alice@example.org" =
          (users1, .error e) :=
  ⟨_, _, _, _, _, rfl, rfl, rfl, rfl, rfl, rfl, rfl, rfl, rfl, rfl, rfl⟩

end services

/-! ## The two stores on `GetByPath` -/

namespace postgres

open entities

/-- C34 does not hold of the code: the in-memory `GetByPath` sorts by createdAt alone,
the relational one by (path, created_at).  For the root 100 with the replies 102
(created at 2) and 101 (created at 3), the root's path as prefix, limit 10 and offset 0,
the in-memory store returns 100, 102, 101 and the relational store 100, 101, 102, with
the same pagination info. -/
theorem GetByPath_stores_disagree :
    ∃ page1 page2 resp,
      inmemory.CommentRepository.GetByPath (insertionSorter Comment) services.testSiblings
        "00000000-0000-0000-0000-000000000064" { Limit := 10, Offset := 0 } =
        some (.ok (page1, resp)) ∧
      CommentRepository.GetByPath (insertionSorter Comment) services.testSiblings.values
        "00000000-0000-0000-0000-000000000064" { Limit := 10, Offset := 0 } =
        .ok (page2, resp) ∧
      page1.map (fun c => c.ID) = [100, 102, 101] ∧
      page2.map (fun c => c.ID) = [100, 101, 102] ∧
      resp = { Total := 3, Limit := 10, Offset := 0, HasMore := false } :=
  ⟨_, _, _, rfl, rfl, by decide, by decide, rfl⟩

end postgres

/-! ## Lemmas on identifier strings and paths -/

theorem hexDigit_inj : ∀ a, a < 16 → ∀ b, b < 16 → hexDigit a = hexDigit b → a = b := by
  decide

theorem hexDigits_length (k v : Nat) : (hexDigits v k).length = k := by
  induction k generalizing v with
  | zero => rfl
  | succ k ih => simp [hexDigits, ih]

theorem hexDigits_inj (k : Nat) : ∀ v w : Nat, hexDigits v k = hexDigits w k →
    v % 16 ^ k = w % 16 ^ k := by
  induction k with
  | zero =>
    intro v w _
    simp [Nat.mod_one]
  | succ k ih =>
    intro v w h
    simp only [hexDigits] at h
    obtain ⟨h1, h2⟩ := List.append_inj' h rfl
    simp only [List.cons.injEq, and_true] at h2
    have e1 := ih _ _ h1
    have e2 := hexDigit_inj _ (Nat.mod_lt _ (by decide)) _ (Nat.mod_lt _ (by decide)) h2
    rw [pow_succ', Nat.mod_mul, Nat.mod_mul, e1, e2]

theorem UUID.String_length (u : UUID) : (UUID.String u).data.length = 36 := by
  unfold UUID.String
  have h := hexDigits_length 32 u.val
  generalize hexDigits u.val 32 = d at h
  simp only [List.length_append, List.length_cons, List.length_take, List.length_drop, h]
  decide

theorem uuid_format_inj (d e : List Char) (hd : d.length = 32) (he : e.length = 32)
    (h : d.take 8 ++ '-' :: (d.drop 8).take 4 ++ '-' :: (d.drop 12).take 4
        ++ '-' :: (d.drop 16).take 4 ++ '-' :: d.drop 20 =
      e.take 8 ++ '-' :: (e.drop 8).take 4 ++ '-' :: (e.drop 12).take 4
        ++ '-' :: (e.drop 16).take 4 ++ '-' :: e.drop 20) : d = e := by
  simp only [List.append_assoc, List.cons_append] at h
  have l8 : (d.take 8).length = (e.take 8).length := by
    simp only [List.length_take, hd, he]
  obtain ⟨a1, r1⟩ := List.append_inj h l8
  simp only [List.cons.injEq, true_and] at r1
  have l4 : ((d.drop 8).take 4).length = ((e.drop 8).take 4).length := by
    simp only [List.length_take, List.length_drop, hd, he]
  obtain ⟨a2, r2⟩ := List.append_inj r1 l4
  simp only [List.cons.injEq, true_and] at r2
  have l4b : ((d.drop 12).take 4).length = ((e.drop 12).take 4).length := by
    simp only [List.length_take, List.length_drop, hd, he]
  obtain ⟨a3, r3⟩ := List.append_inj r2 l4b
  simp only [List.cons.injEq, true_and] at r3
  have l4c : ((d.drop 16).take 4).length = ((e.drop 16).take 4).length := by
    simp only [List.length_take, List.length_drop, hd, he]
  obtain ⟨a4, r4⟩ := List.append_inj r3 l4c
  simp only [List.cons.injEq, true_and] at r4
  have split : ∀ x : List Char, x = x.take 8 ++ ((x.drop 8).take 4 ++ ((x.drop 12).take 4 ++
      ((x.drop 16).take 4 ++ x.drop 20))) := by
    intro x
    have e1 : (x.drop 16).take 4 ++ x.drop 20 = x.drop 16 := by
      have := List.take_append_drop 4 (x.drop 16)
      rwa [List.drop_drop] at this
    have e2 : (x.drop 12).take 4 ++ x.drop 16 = x.drop 12 := by
      have := List.take_append_drop 4 (x.drop 12)
      rwa [List.drop_drop] at this
    have e3 : (x.drop 8).take 4 ++ x.drop 12 = x.drop 8 := by
      have := List.take_append_drop 4 (x.drop 8)
      rwa [List.drop_drop] at this
    rw [e1, e2, e3, List.take_append_drop]
  rw [split d, split e, a1, a2, a3, a4, r4]

theorem UUID.String_injective (u v : UUID) (h : UUID.String u = UUID.String v) : u = v := by
  have h1 : (UUID.String u).data = (UUID.String v).data := congrArg String.data h
  unfold UUID.String at h1
  have hd := uuid_format_inj (hexDigits u.val 32) (hexDigits v.val 32)
    (hexDigits_length 32 u.val) (hexDigits_length 32 v.val) h1
  have hm := hexDigits_inj 32 _ _ hd
  have hu : u.val % 16 ^ 32 = u.val := Nat.mod_eq_of_lt (by
    have := u.isLt
    norm_num at this ⊢
    exact this)
  have hv : v.val % 16 ^ 32 = v.val := Nat.mod_eq_of_lt (by
    have := v.isLt
    norm_num at this ⊢
    exact this)
  rw [hu, hv] at hm
  exact Fin.ext hm

namespace services

open entities errors inmemory

theorem pathOf_single (id : UUID) : pathOf [id] = UUID.String id := by
  rw [pathOf]

theorem pathOf_cons_cons (id p : UUID) (rest : List UUID) :
    pathOf (id :: p :: rest) = pathOf (p :: rest) ++ "/" ++ UUID.String id := by
  rw [pathOf]

theorem pathOf_data (id p : UUID) (rest : List UUID) :
    (pathOf (id :: p :: rest)).data =
      (pathOf (p :: rest)).data ++ '/' :: (UUID.String id).data := by
  rw [pathOf_cons_cons, String.data_append, String.data_append, List.append_assoc]
  rfl

theorem pathOf_length (anc : List UUID) : ∀ id : UUID,
    (pathOf (id :: anc)).data.length + 1 = 37 * (anc.length + 1) := by
  induction anc with
  | nil =>
    intro id
    rw [pathOf_single, UUID.String_length, List.length_nil]
  | cons p rest ih =>
    intro id
    have := ih p
    rw [pathOf_data, List.length_append, List.length_cons, UUID.String_length,
      List.length_cons]
    omega

theorem pathOf_count (anc : List UUID) : ∀ id : UUID,
    (pathOf (id :: anc)).data.count '/' = anc.length := by
  induction anc with
  | nil =>
    intro id
    rw [pathOf_single, List.length_nil]
    exact List.count_eq_zero.mpr (UUID.String_no_slash id)
  | cons p rest ih =>
    intro id
    rw [pathOf_data, List.count_append, ih p, List.count_cons_self,
      List.count_eq_zero.mpr (UUID.String_no_slash id), List.length_cons]

theorem pathOf_suffix (id : UUID) (anc : List UUID) :
    ∃ pre : List Char, (pathOf (id :: anc)).data = pre ++ (UUID.String id).data ∧
      (pre = [] ∨ ∃ q, pre = q ++ ['/']) := by
  cases anc with
  | nil => exact ⟨[], by rw [pathOf_single, List.nil_append], Or.inl rfl⟩
  | cons p rest =>
    refine ⟨(pathOf (p :: rest)).data ++ ['/'], ?_, Or.inr ⟨_, rfl⟩⟩
    rw [pathOf_data, List.append_assoc, List.singleton_append]

theorem Reachable_pathOf (used : List UUID) (s : CommentService) (h : Reachable used s) :
    ∀ id c, s.commentRepo.get id = some c →
      ∃ anc : List UUID, c.Path = pathOf (c.ID :: anc) ∧ c.Level = (anc.length : Int) := by
  induction h with
  | init s h =>
    intro id c hc
    rw [h] at hc
    simp [GoMap.get] at hc
  | create used s s1 newID now t1 t2 postID authorID content parentID r hs hfresh hcap h ih =>
    rcases CreateComment_inv _ _ _ _ _ _ _ _ _ _ _ h with ⟨e, -⟩ |
      ⟨nc, parent, hpar, hnc, -, hrepo, -⟩
    · rw [e]
      exact ih
    · intro id c hc
      rw [hrepo] at hc
      by_cases e : id = newID
      · subst e
        rw [GoMap.get_set_same] at hc
        simp only [Option.some.injEq] at hc
        subst hc
        obtain ⟨hid, -, -, -, -, -, -, -, hpath⟩ := NewComment_fields _ _ _ _ _ _ _ hnc
        have hlev := NewComment_level _ _ _ _ _ _ _ hnc (by
          intro Q hQ
          have hcap1 : (used.length : Int) < 2 ^ 63 := by exact_mod_cast hcap
          rcases hpar with ⟨-, hp⟩ | ⟨pid, P, -, hp, hget, -⟩
          · rw [hp] at hQ
            exact Option.noConfusion hQ
          · rw [hp] at hQ
            rw [← Option.some.inj hQ]
            have := Reachable_level_bound used s hs pid P hget
            omega)
        simp only
        rcases hpar with ⟨-, hp⟩ | ⟨pid, P, -, hp, hget, -⟩
        · rw [hp] at hlev hpath
          refine ⟨[], ?_, ?_⟩
          · simp only [Option.elim] at hpath
            rw [hpath, hid, pathOf_single]
          · simp only [Option.elim] at hlev
            rw [hlev]
            rfl
        · rw [hp] at hlev hpath
          obtain ⟨ancP, hP1, hP2⟩ := ih pid P hget
          refine ⟨P.ID :: ancP, ?_, ?_⟩
          · simp only [Option.elim] at hpath
            rw [hpath, hid, pathOf_cons_cons, ← hP1]
          · simp only [Option.elim] at hlev
            rw [hlev, hP2, List.length_cons]
            push_cast
            rfl
      · rw [GoMap.get_set_ne _ _ _ _ e] at hc
        exact ih id c hc
  | update used s s1 now commentID authorID content r hs h ih =>
    rcases UpdateComment_store _ _ _ _ _ _ _ h with e | ⟨c0, hc0, e⟩
    · rw [e]
      exact ih
    · intro id c hc
      rw [e] at hc
      by_cases e1 : id = c0.ID
      · subst e1
        rw [GoMap.get_set_same] at hc
        simp only [Option.some.injEq] at hc
        subst hc
        exact ih commentID c0 hc0
      · rw [GoMap.get_set_ne _ _ _ _ e1] at hc
        exact ih id c hc
  | delete used s s1 commentID authorID r hs h ih =>
    rcases DeleteComment_store _ _ _ _ _ h with e | e
    · rw [e]
      exact ih
    · intro id c hc
      rw [e] at hc
      exact ih id c (get_of_get_delete _ _ _ _ hc)
  | other used s s1 hs h ih =>
    rw [h]
    exact ih

theorem testOrphan_reachable :
    ∃ s, Reachable [102, 101, 100] s ∧
      s.commentRepo = GoMap.delete testThread.reverse 101 := by
  obtain ⟨s, hr, hrepo⟩ := testThread_reachable
  have hdel : s.DeleteComment 101 5 =
      ({ s with commentRepo := GoMap.delete testThread.reverse 101 }, none) := by
    unfold CommentService.DeleteComment
    simp only [CommentRepository.GetByID, CommentRepository.Delete, hrepo]
    rfl
  exact ⟨_, Reachable.delete _ s _ 101 5 _ hr hdel, rfl⟩

/-- C39: in every comment-store state reachable through `CreateComment`,
`UpdateComment` and `DeleteComment`, every stored comment (orphans whose ancestors were
deleted included) has level ≥ 0, equal to the number of "/" in its path, and its path
ends with the string form of its own ID, which contains no "/" and is either the whole
path or preceded by a "/": it is the last "/"-separated segment. -/
theorem Reachable_level_is_depth (used : List UUID) (s : CommentService)
    (h : Reachable used s) (id : UUID) (c : Comment) (hc : s.commentRepo.get id = some c) :
    0 ≤ c.Level ∧ c.Level = (c.Path.data.count '/' : Nat) ∧
      ∃ pre : List Char, c.Path.data = pre ++ (UUID.String c.ID).data ∧
        (pre = [] ∨ ∃ q, pre = q ++ ['/']) ∧ '/' ∉ (UUID.String c.ID).data := by
  obtain ⟨anc, hpath, hlev⟩ := Reachable_pathOf used s h id c hc
  obtain ⟨pre, hpre, hshape⟩ := pathOf_suffix c.ID anc
  refine ⟨by rw [hlev]; exact Int.natCast_nonneg _, ?_, pre, ?_, hshape,
    UUID.String_no_slash c.ID⟩
  · rw [hlev, hpath, pathOf_count]
  · rw [hpath, hpre]

theorem Reachable_level_is_depth_witness :
    ∃ (s : CommentService) (c : Comment), Reachable [102, 101, 100] s ∧
      s.commentRepo.get 101 = none ∧ s.commentRepo.get 102 = some c ∧
      c.ParentID = some 101 ∧ c.Level = 2 ∧ c.Path.data.count '/' = 2 := by
  obtain ⟨s, hr, hrepo⟩ := testOrphan_reachable
  have hget : s.commentRepo.get 102 = (GoMap.delete testThread.reverse 101).get 102 := by
    rw [hrepo]
  have h := (Reachable_level_is_depth _ s hr 102 _ hget).2.1
  refine ⟨s, _, hr, by rw [hrepo]; rfl, hget, rfl, rfl, ?_⟩
  exact Int.ofNat.inj (h.symm : Int.ofNat _ = Int.ofNat 2)

end services

/-! ## Path prefixes and ancestors -/

namespace strings

theorem HasPrefix_iff (s pre : String) : HasPrefix s pre = true ↔ pre.data <+: s.data := by
  unfold HasPrefix
  exact List.isPrefixOf_iff_prefix

end strings

theorem prefix_slash_of_prefix_append (a b s : List Char) (h : a ++ ['/'] <+: b ++ s)
    (hs : '/' ∉ s) : a ++ ['/'] <+: b := by
  by_cases hlen : (a ++ ['/']).length ≤ b.length
  · exact List.prefix_of_prefix_length_le h (List.prefix_append b s) hlen
  · exfalso
    have hb : b <+: a ++ ['/'] :=
      List.prefix_of_prefix_length_le (List.prefix_append b s) h (by omega)
    obtain ⟨t, ht⟩ := hb
    rw [← ht] at h hlen
    have hts : t <+: s := (List.prefix_append_right_inj b).mp h
    have htne : t ≠ [] := by
      intro e
      rw [e, List.append_nil] at hlen
      exact hlen (le_refl _)
    have hmem : '/' ∈ t := by
      rcases List.append_eq_append_iff.mp ht with ⟨a', -, h2⟩ | ⟨c', -, h2⟩
      · rw [h2]
        exact List.mem_append_right _ (List.mem_singleton.mpr rfl)
      · cases c' with
        | nil =>
          rw [List.nil_append] at h2
          rw [← h2]
          exact List.mem_singleton.mpr rfl
        | cons x c'' =>
          exfalso
          have hl := congrArg List.length h2
          rw [List.length_singleton, List.length_append, List.length_cons] at hl
          have : t.length = 0 := by omega
          exact htne (List.length_eq_zero.mp this)
    exact hs (hts.subset hmem)

namespace services

open entities errors inmemory

theorem Reachable_path_inj (used : List UUID) (s : CommentService) (h : Reachable used s)
    (k1 k2 : UUID) (c1 c2 : Comment) (h1 : s.commentRepo.get k1 = some c1)
    (h2 : s.commentRepo.get k2 = some c2) (hp : c1.Path = c2.Path) : c1 = c2 := by
  obtain ⟨a1, e1, -⟩ := Reachable_pathOf used s h k1 c1 h1
  obtain ⟨a2, e2, -⟩ := Reachable_pathOf used s h k2 c2 h2
  obtain ⟨p1, f1, -⟩ := pathOf_suffix c1.ID a1
  obtain ⟨p2, f2, -⟩ := pathOf_suffix c2.ID a2
  have hd : p1 ++ (UUID.String c1.ID).data = p2 ++ (UUID.String c2.ID).data := by
    rw [← f1, ← f2, ← e1, ← e2, hp]
  have hs := (List.append_inj' hd (by rw [UUID.String_length, UUID.String_length])).2
  have hid : c1.ID = c2.ID := UUID.String_injective _ _ (String.ext hs)
  have hinv := Reachable_StoreInv used s h
  have hk1 := (hinv.1 k1 c1 h1).1
  have hk2 := (hinv.1 k2 c2 h2).1
  rw [← hk1, hid, hk2, h2] at h1
  exact (Option.some.inj h1).symm

theorem reply_path_data (used : List UUID) (s : CommentService) (h : Reachable used s)
    (kc p : UUID) (c P : Comment) (hc : s.commentRepo.get kc = some c)
    (hpar : c.ParentID = some p) (hP : s.commentRepo.get p = some P) :
    c.Path.data = (P.Path.data ++ ['/']) ++ (UUID.String c.ID).data := by
  have := ((Reachable_StoreInv used s h).2.2.2 kc c p P hc hpar hP).2.2
  rw [this, String.data_append, String.data_append]

theorem prefix_of_ancestor (used : List UUID) (s : CommentService) (h : Reachable used s)
    (R c : Comment) (ha : Ancestor s.commentRepo R c) :
    ∀ kc, s.commentRepo.get kc = some c →
      strings.HasPrefix c.Path (R.Path ++ "/") = true := by
  induction ha with
  | parent c p hpar hR =>
    intro kc hc
    rw [strings.HasPrefix_iff, reply_path_data used s h kc p c R hc hpar hR,
      String.data_append]
    exact List.prefix_append _ _
  | step c P p hpar hP hrec ih =>
    intro kc hc
    have hp := (strings.HasPrefix_iff _ _).mp (ih p hP)
    rw [strings.HasPrefix_iff, reply_path_data used s h kc p c P hc hpar hP,
      List.append_assoc]
    exact hp.trans (List.prefix_append _ _)

theorem ancestor_of_path_match (used : List UUID) (s : CommentService) (h : Reachable used s)
    (kR : UUID) (R c : Comment) (hR : s.commentRepo.get kR = some R)
    (hanc : AncestorsStored s.commentRepo c) :
    ∀ kc, s.commentRepo.get kc = some c →
      strings.HasPrefix c.Path (R.Path ++ "/") = true → Ancestor s.commentRepo R c := by
  induction hanc with
  | root c hroot =>
    intro kc hc hpre
    exfalso
    have hpath := ((Reachable_StoreInv used s h).2.2.1 kc c hc hroot).2
    rw [strings.HasPrefix_iff, hpath, String.data_append] at hpre
    exact UUID.String_no_slash c.ID
      (hpre.subset (List.mem_append_right _ (List.mem_singleton.mpr rfl)))
  | reply c P p hpar hP hrec ih =>
    intro kc hc hpre
    rw [strings.HasPrefix_iff, reply_path_data used s h kc p c P hc hpar hP,
      String.data_append] at hpre
    have hpre1 : R.Path.data ++ ['/'] <+: P.Path.data ++ ['/'] :=
      prefix_slash_of_prefix_append _ _ _ hpre (UUID.String_no_slash c.ID)
    by_cases hlen : R.Path.data.length = P.Path.data.length
    · have heq := hpre1.eq_of_length (by
        rw [List.length_append, List.length_append, hlen])
      have hpathEq : R.Path = P.Path := String.ext (List.append_cancel_right heq)
      have hRP := Reachable_path_inj used s h kR p R P hR hP hpathEq
      rw [← hRP] at hP
      exact Ancestor.parent c p hpar hP
    · have hle := hpre1.length_le
      rw [List.length_append, List.length_append] at hle
      simp only [List.length_singleton] at hle
      have hpre2 : R.Path.data ++ ['/'] <+: P.Path.data :=
        List.prefix_of_prefix_length_le hpre1 (List.prefix_append _ _) (by
          rw [List.length_append, List.length_singleton]
          omega)
      have hP2 : strings.HasPrefix P.Path (R.Path ++ "/") = true := by
        rw [strings.HasPrefix_iff, String.data_append]
        exact hpre2
      exact Ancestor.step c P p hpar hP (ih p hP hP2)

/-- C36: prefix matching on path fetches exactly the subtree: in every store state
reachable through `CreateComment`, `UpdateComment` and `DeleteComment`, for stored
comments R and c such that every ancestor of c is still stored, c.path begins with
R.path + "/" if and only if R is reached from c by following parentID links one or
more times. -/
theorem path_prefix_iff_ancestor (used : List UUID) (s : CommentService)
    (h : Reachable used s) (kR kc : UUID) (R c : Comment)
    (hR : s.commentRepo.get kR = some R) (hc : s.commentRepo.get kc = some c)
    (hanc : AncestorsStored s.commentRepo c) :
    strings.HasPrefix c.Path (R.Path ++ "/") = true ↔ Ancestor s.commentRepo R c :=
  ⟨ancestor_of_path_match used s h kR R c hR hanc kc hc,
    fun ha => prefix_of_ancestor used s h R c ha kc hc⟩

theorem path_prefix_iff_ancestor_witness :
    ∃ (s : CommentService) (R c : Comment), Reachable [102, 101, 100] s ∧
      s.commentRepo.get 100 = some R ∧ s.commentRepo.get 102 = some c ∧
      strings.HasPrefix c.Path (R.Path ++ "/") = true ∧ Ancestor s.commentRepo R c ∧
      ¬ Ancestor s.commentRepo c R := by
  obtain ⟨s, hr, hrepo⟩ := testThread_reachable
  obtain ⟨c0, c1, c2, e0, e1, e2, p0, p1, p2, hpre, hpre2⟩ :
      ∃ c0 c1 c2, GoMap.get testThread.reverse 100 = some c0 ∧
        GoMap.get testThread.reverse 101 = some c1 ∧
        GoMap.get testThread.reverse 102 = some c2 ∧
        c0.ParentID = none ∧ c1.ParentID = some 100 ∧ c2.ParentID = some 101 ∧
        strings.HasPrefix c2.Path (c0.Path ++ "/") = true ∧
        strings.HasPrefix c0.Path (c2.Path ++ "/") = false :=
    ⟨_, _, _, rfl, rfl, rfl, rfl, rfl, rfl, by decide, by decide⟩
  rw [← hrepo] at e0 e1 e2
  have a0 := @AncestorsStored.root s.commentRepo c0 p0
  have a1 := AncestorsStored.reply c1 c0 100 p1 e0 a0
  have a2 := AncestorsStored.reply c2 c1 101 p2 e1 a1
  have hiff := path_prefix_iff_ancestor _ s hr 100 102 c0 c2 e0 e2 a2
  have hiff2 := path_prefix_iff_ancestor _ s hr 102 100 c2 c0 e2 e0 a0
  refine ⟨s, c0, c2, hr, e0, e2, hpre, hiff.mp hpre, ?_⟩
  intro ha
  rw [hiff2.mpr ha] at hpre2
  exact Bool.noConfusion hpre2

end services

/-! ## The order of `GetThread` as a traversal -/

theorem prefix_lessChars : ∀ a b : List Char, a <+: b → a ≠ b → lessChars a b = true := by
  intro a
  induction a with
  | nil =>
    intro b _ hne
    cases b with
    | nil => exact absurd rfl hne
    | cons y ys => rfl
  | cons x xs ih =>
    intro b hpre hne
    cases b with
    | nil => exact absurd (List.prefix_nil.mp hpre) (by simp)
    | cons y ys =>
      obtain ⟨hxy, hrest⟩ := List.cons_prefix_cons.mp hpre
      subst hxy
      simp only [lessChars, Nat.lt_irrefl, if_false]
      exact ih ys hrest (fun e => hne (by rw [e]))

theorem lessChars_between : ∀ a b c : List Char, a <+: c → lessChars b a = false →
    lessChars c b = false → a <+: b := by
  intro a
  induction a with
  | nil =>
    intro b c _ _ _
    exact List.nil_prefix
  | cons x xs ih =>
    intro b c hpre h1 h2
    cases c with
    | nil => exact absurd (List.prefix_nil.mp hpre) (by simp)
    | cons z zs =>
      obtain ⟨hxz, hrest⟩ := List.cons_prefix_cons.mp hpre
      subst hxz
      cases b with
      | nil => simp [lessChars] at h1
      | cons y ys =>
        simp only [lessChars] at h1 h2
        by_cases hyx : y.toNat < x.toNat
        · rw [if_pos hyx] at h1
          exact absurd h1 (by simp)
        · rw [if_neg hyx] at h1
          by_cases hxy : x.toNat < y.toNat
          · rw [if_pos hxy] at h2
            exact absurd h2 (by simp)
          · rw [if_neg hxy] at h1 h2
            rw [if_neg hyx] at h2
            have e : x = y := Char.eq_of_toNat_eq x y (by omega)
            subst e
            exact List.cons_prefix_cons.mpr ⟨rfl, ih ys zs hrest h1 h2⟩

namespace services

open entities errors inmemory

theorem pathOf_prefix (y : List UUID) : ∀ (b a : UUID) (x : List UUID),
    (pathOf (a :: x)).data <+: (pathOf (b :: y)).data →
    pathOf (a :: x) = pathOf (b :: y) ∨
      (pathOf (a :: x)).data ++ ['/'] <+: (pathOf (b :: y)).data := by
  induction y with
  | nil =>
    intro b a x hpre
    left
    have hle := hpre.length_le
    have hA := pathOf_length x a
    have hB := pathOf_length [] b
    simp only [List.length_nil] at hB
    exact String.ext (hpre.eq_of_length (by omega))
  | cons b1 y1 ih =>
    intro b a x hpre
    have hA := pathOf_length x a
    have hB1 := pathOf_length y1 b1
    have hB := pathOf_length (b1 :: y1) b
    simp only [List.length_cons] at hB
    rw [pathOf_data] at hpre ⊢
    by_cases hlen : (pathOf (a :: x)).data.length ≤ (pathOf (b1 :: y1)).data.length
    · have hpre1 : (pathOf (a :: x)).data <+: (pathOf (b1 :: y1)).data :=
        List.prefix_of_prefix_length_le hpre (List.prefix_append _ _) hlen
      rcases ih b1 a x hpre1 with e | hp
      · right
        rw [e]
        exact (List.prefix_append_right_inj _).mpr
          (List.cons_prefix_cons.mpr ⟨rfl, List.nil_prefix⟩)
      · right
        exact hp.trans (List.prefix_append _ _)
    · left
      have hlenB : ((pathOf (b1 :: y1)).data ++ '/' :: (UUID.String b).data).length + 1 =
          37 * (y1.length + 1 + 1) := by
        rw [← pathOf_data]
        exact hB
      have hle := hpre.length_le
      have heq := hpre.eq_of_length (by omega)
      apply String.ext
      rw [heq, pathOf_data]

theorem Reachable_path_shape (used : List UUID) (s : CommentService) (h : Reachable used s)
    (kx ky : UUID) (X y : Comment) (hX : s.commentRepo.get kx = some X)
    (hy : s.commentRepo.get ky = some y) (hpre : X.Path.data <+: y.Path.data) :
    X.Path = y.Path ∨ strings.HasPrefix y.Path (X.Path ++ "/") = true := by
  obtain ⟨ax, ex, -⟩ := Reachable_pathOf used s h kx X hX
  obtain ⟨ay, ey, -⟩ := Reachable_pathOf used s h ky y hy
  rw [ex, ey] at hpre ⊢
  rcases pathOf_prefix ay y.ID X.ID ax hpre with e | hp
  · exact Or.inl e
  · right
    rw [strings.HasPrefix_iff, String.data_append]
    exact hp

theorem GetThread_stored (S : SliceSorter Comment) (used : List UUID) (s : CommentService)
    (id : UUID) (d : Int) (l : List Comment) (hr : Reachable used s)
    (hl : CommentRepository.GetThread S s.commentRepo id d = .ok l) :
    l.Nodup ∧ ∀ c ∈ l, ∃ k, s.commentRepo.get k = some c := by
  have hnd := Reachable_nodup_keys used s hr
  cases hget : s.commentRepo.get id with
  | none =>
    rw [GetThread_missing S _ id d hget] at hl
    simp only [Except.ok.injEq] at hl
    rw [← hl]
    exact ⟨List.nodup_nil, fun c hc => absurd hc (List.not_mem_nil _)⟩
  | some R =>
    obtain ⟨l1, hl1, hp⟩ := GetThread_perm S s.commentRepo id R d hget
    rw [hl] at hl1
    simp only [Except.ok.injEq] at hl1
    rw [← hl1] at hp
    refine ⟨?_, ?_⟩
    · rw [hp.nodup_iff, List.nodup_cons]
      refine ⟨?_, (Reachable_nodup_values used s hr).filter _⟩
      intro hmem
      have h2 := (List.mem_filter.mp hmem).2
      simp only [Bool.and_eq_true, decide_eq_true_eq] at h2
      rw [strings.not_HasPrefix_longer R.Path "/" (by decide)] at h2
      exact absurd h2.1 (by simp)
    · intro c hc
      rcases List.mem_cons.mp (hp.mem_iff.mp hc) with e | hf
      · exact ⟨id, by rw [e]; exact hget⟩
      · obtain ⟨k, hk⟩ := GoMap.exists_key_of_mem_values _ _ (List.mem_filter.mp hf).1
        exact ⟨k, GoMap.get_of_mem _ _ _ hnd hk⟩

theorem GetThread_block (S : SliceSorter Comment) (used : List UUID) (s : CommentService)
    (id : UUID) (d : Int) (l : List Comment) (hr : Reachable used s)
    (hl : CommentRepository.GetThread S s.commentRepo id d = .ok l)
    (i k : Nat) (X z : Comment) (hi : l[i]? = some X) (hk : l[k]? = some z)
    (hz : strings.HasPrefix z.Path (X.Path ++ "/") = true) :
    i < k ∧ ∀ (j : Nat) (y : Comment), i < j → j < k → l[j]? = some y →
      strings.HasPrefix y.Path (X.Path ++ "/") = true := by
  obtain ⟨hnodup, hstored⟩ := GetThread_stored S used s id d l hr hl
  have hzpre : X.Path.data <+: z.Path.data := by
    rw [strings.HasPrefix_iff, String.data_append] at hz
    exact (List.prefix_append _ _).trans hz
  have hzne : X.Path.data ≠ z.Path.data := by
    intro e
    rw [strings.HasPrefix_iff, String.data_append, ← e] at hz
    have := hz.length_le
    rw [List.length_append] at this
    have h1 : ("/" : String).data.length = 1 := rfl
    omega
  refine ⟨GetThread_position S _ id d l hl i k X z hi hk
    (prefix_lessChars _ _ hzpre hzne), ?_⟩
  intro j y hij hjk hj
  have hs := List.pairwise_iff_getElem.mp (GetThread_sorted S _ id d l hl)
  obtain ⟨hi1, hi2⟩ := List.getElem?_eq_some_iff.mp hi
  obtain ⟨hj1, hj2⟩ := List.getElem?_eq_some_iff.mp hj
  obtain ⟨hk1, hk2⟩ := List.getElem?_eq_some_iff.mp hk
  have rXy := hs i j hi1 hj1 hij
  have ryz := hs j k hj1 hk1 hjk
  rw [hi2, hj2] at rXy
  rw [hj2, hk2] at ryz
  have h1 : lessChars y.Path.data X.Path.data = false := by
    rcases rXy with h | ⟨h, -⟩
    · exact stringLess_asymm _ _ h
    · rw [h]
      exact lessChars_irrefl _
  have h2 : lessChars z.Path.data y.Path.data = false := by
    rcases ryz with h | ⟨h, -⟩
    · exact stringLess_asymm _ _ h
    · rw [h]
      exact lessChars_irrefl _
  have hypre := lessChars_between _ _ _ hzpre h1 h2
  obtain ⟨kx, hX⟩ := hstored X (List.mem_iff_getElem?.mpr ⟨i, hi⟩)
  obtain ⟨ky, hy⟩ := hstored y (List.mem_iff_getElem?.mpr ⟨j, hj⟩)
  rcases Reachable_path_shape used s hr kx ky X y hX hy hypre with e | hp
  · exfalso
    have hXy := Reachable_path_inj used s hr kx ky X y hX hy e
    have := (@List.Nodup.getElem_inj_iff _ l hnodup i hi1 j hj1).mp
      (by rw [hi2, hj2, hXy])
    omega
  · exact hp

/-- C37: the list returned by `GetThread` is a depth-first pre-order of the thread. In
every store state reachable through `CreateComment`, `UpdateComment` and `DeleteComment`:
a returned comment whose parent is in the result stands after that parent; the returned
comments reached from a returned comment X by parentID links stand after X, and every
comment returned between X and one of them, whose ancestors are all still stored, is
itself reached from X; in terms of paths, every comment returned between X and a comment
whose path begins with X.path + "/" has a path beginning with X.path + "/" too. -/
theorem GetThread_preorder (S : SliceSorter Comment) (used : List UUID) (s : CommentService)
    (id : UUID) (d : Int) (l : List Comment) (hr : Reachable used s)
    (hl : CommentRepository.GetThread S s.commentRepo id d = .ok l) :
    (∀ (i j : Nat) (P c : Comment), l[i]? = some P → l[j]? = some c →
      c.ParentID = some P.ID → i < j) ∧
    (∀ (i k : Nat) (X z : Comment), l[i]? = some X → l[k]? = some z →
      Ancestor s.commentRepo X z →
      i < k ∧ ∀ (j : Nat) (y : Comment), i < j → j < k → l[j]? = some y →
        AncestorsStored s.commentRepo y → Ancestor s.commentRepo X y) ∧
    (∀ (i k : Nat) (X z : Comment), l[i]? = some X → l[k]? = some z →
      strings.HasPrefix z.Path (X.Path ++ "/") = true →
      i < k ∧ ∀ (j : Nat) (y : Comment), i < j → j < k → l[j]? = some y →
        strings.HasPrefix y.Path (X.Path ++ "/") = true) := by
  obtain ⟨-, hstored⟩ := GetThread_stored S used s id d l hr hl
  have hinv := Reachable_StoreInv used s hr
  refine ⟨?_, ?_, ?_⟩
  · intro i j P c hi hj hpar
    obtain ⟨kP, hP⟩ := hstored P (List.mem_iff_getElem?.mpr ⟨i, hi⟩)
    obtain ⟨kc, hc⟩ := hstored c (List.mem_iff_getElem?.mpr ⟨j, hj⟩)
    have hkP := (hinv.1 kP P hP).1
    rw [← hkP] at hP
    have hpre := prefix_of_ancestor used s hr P c (Ancestor.parent c P.ID hpar hP) kc hc
    exact (GetThread_block S used s id d l hr hl i j P c hi hj hpre).1
  · intro i k X z hi hk hanc
    obtain ⟨kX, hX⟩ := hstored X (List.mem_iff_getElem?.mpr ⟨i, hi⟩)
    obtain ⟨kz, hz⟩ := hstored z (List.mem_iff_getElem?.mpr ⟨k, hk⟩)
    have hpre := prefix_of_ancestor used s hr X z hanc kz hz
    obtain ⟨hik, hblock⟩ := GetThread_block S used s id d l hr hl i k X z hi hk hpre
    refine ⟨hik, ?_⟩
    intro j y hij hjk hj hst
    obtain ⟨ky, hy⟩ := hstored y (List.mem_iff_getElem?.mpr ⟨j, hj⟩)
    exact ancestor_of_path_match used s hr kX X y hX hst ky hy (hblock j y hij hjk hj)
  · intro i k X z hi hk hpre
    exact GetThread_block S used s id d l hr hl i k X z hi hk hpre

theorem GetThread_preorder_witness :
    ∃ (s : CommentService) (l : List Comment), Reachable [102, 101, 100] s ∧
      CommentRepository.GetThread (insertionSorter Comment) s.commentRepo 100 10 = .ok l ∧
      l.map (fun c => c.ID) = [100, 101, 102] ∧
      l.map (fun c => c.ParentID) = [none, some 100, some 101] ∧
      ((∀ (i j : Nat) (P c : Comment), l[i]? = some P → l[j]? = some c →
        c.ParentID = some P.ID → i < j) ∧
      (∀ (i k : Nat) (X z : Comment), l[i]? = some X → l[k]? = some z →
        Ancestor s.commentRepo X z →
        i < k ∧ ∀ (j : Nat) (y : Comment), i < j → j < k → l[j]? = some y →
          AncestorsStored s.commentRepo y → Ancestor s.commentRepo X y) ∧
      (∀ (i k : Nat) (X z : Comment), l[i]? = some X → l[k]? = some z →
        strings.HasPrefix z.Path (X.Path ++ "/") = true →
        i < k ∧ ∀ (j : Nat) (y : Comment), i < j → j < k → l[j]? = some y →
          strings.HasPrefix y.Path (X.Path ++ "/") = true)) := by
  obtain ⟨s, hr, hrepo⟩ := testThread_reachable
  have key : ∀ m : GoMap Comment, m = testThread.reverse → ∃ l : List Comment,
      CommentRepository.GetThread (insertionSorter Comment) m 100 10 = .ok l ∧
      l.map (fun c => c.ID) = [100, 101, 102] ∧
      l.map (fun c => c.ParentID) = [none, some 100, some 101] := by
    intro m hm
    subst hm
    exact ⟨_, rfl, by decide, by decide⟩
  obtain ⟨l, hl, hids, hpars⟩ := key _ hrepo
  exact ⟨s, l, hr, hl, hids, hpars,
    GetThread_preorder (insertionSorter Comment) _ s 100 10 l hr hl⟩

end services
